import Mathlib

/-! smartevaluator: segmentation of OCR text into numbered answers, and the
reading of the answers of the language models.

A shallow embedding of `extractQuestionsAndAnswers` (`server.js`, lines 51-293),
of the part of `getAIFeedback` that reads the answer of the model (lines
848-1039) with `checkIfGenericFeedback`, `extractFeedbackFromText` and
`extractTopics` (lines 1043-1142), and of the similarity score of
`extractMistralFeedback` (lines 1433-1462).

Modelling conventions.
* A JavaScript string is a `List Char`.  None of the regular expressions of the
  functions carries the `u` flag and none can match a surrogate, so reading the
  text as Unicode scalar values instead of UTF-16 code units changes no test.
* A pixel coordinate (`vertices[0].x`) is an `Int`; the running average of the
  indentations is kept as an exact `Rat` (JavaScript keeps a double).
* `parseInt` of a captured digit run is its exact value as a `Nat` (JavaScript
  rounds it to a double, which is exact below 2^53).
* A call returns a value or throws: `Outcome`.  The only exception
  `extractQuestionsAndAnswers` can raise on annotations that carry a
  `description` is the `TypeError` of line 137.
* The `console.log` calls and the two variables that are written but never read
  (`emptyLineCount`, `previousLineIndentation`) are left out.
* A parsed answer is a `Json` value, a number kept as decimal mantissa and
  exponent.  `JSON.parse` is a parameter of the functions that call it;
  `jsonParse` is a model of it, used on the example texts.
* What the calls of the language model give is an input (`ModelCalls`), and so
  are two functions of the runtime: the text of a number (`numberText`) and the
  rounding of a decimal literal to a double (`toDouble`).

The definitions come first, in the order of the source; then the predicates
and example documents used in the statements; then the theorems.
-/

namespace SmartEvaluator

/-! ## Characters and strings -/

/-- The characters matched by `\s` and removed by `String.prototype.trim`:
ECMAScript `WhiteSpace` and `LineTerminator`. -/
def isWs (c : Char) : Bool :=
  let n := c.toNat
  n = 0x09 || n = 0x0A || n = 0x0B || n = 0x0C || n = 0x0D || n = 0x20 ||
  n = 0xA0 || n = 0x1680 || (0x2000 ≤ n && n ≤ 0x200A) ||
  n = 0x2028 || n = 0x2029 || n = 0x202F || n = 0x205F ||
  n = 0x3000 || n = 0xFEFF

/-- The class `\d`. -/
def isDigit (c : Char) : Bool := '0' ≤ c && c ≤ '9'

/-- The class `[A-Z]` of a pattern without the `i` flag. -/
def isUpper (c : Char) : Bool := 'A' ≤ c && c ≤ 'Z'

/-- The class `[a-z]` of a pattern without the `i` flag. -/
def isLower (c : Char) : Bool := 'a' ≤ c && c ≤ 'z'

/-- The class `[a-z]` under the `i` flag: without the `u` flag a character
outside ASCII is never folded onto an ASCII letter, so the class is `[A-Za-z]`. -/
def isLetterCI (c : Char) : Bool := isLower c || isUpper c

/-- A pattern letter `p` (given in lower case) against `c` under the `i` flag. -/
def eqCI (p c : Char) : Bool := c = p || c = p.toUpper

/-- `String.prototype.trim`. -/
def trim (s : List Char) : List Char :=
  ((s.dropWhile isWs).reverse.dropWhile isWs).reverse

/-- `s.split('\n')`: the pieces between line feeds; never the empty list. -/
def splitLines : List Char → List (List Char)
  | [] => [[]]
  | c :: cs =>
    if c = '\n' then [] :: splitLines cs
    else
      match splitLines cs with
      | [] => [[c]]
      | l :: ls => (c :: l) :: ls

/-- `parts.join(' ')`. -/
def joinSpace : List (List Char) → List Char
  | [] => []
  | [a] => a
  | a :: b :: rest => a ++ ' ' :: joinSpace (b :: rest)

/-- The value of a run of decimal digits read left to right from `acc`. -/
def digitsValue (acc : Nat) : List Char → Nat
  | [] => acc
  | c :: cs => digitsValue (acc * 10 + (c.toNat - '0'.toNat)) cs

/-- `parseInt(s)` on a question number, which is always a run of decimal
digits (the only strings the function passes to it). -/
def parseInt (s : List Char) : Nat := digitsValue 0 s

/-! ## The regular expressions

Every pattern of the function is written out as the function its backtracking
search computes.  A greedy `\d+` or `\s+` is always followed in these patterns
by something that rejects a digit (a white space), so a successful match takes
the whole run: giving back a character leaves a character of the run in front
of the next item, which fails. -/

/-- A match of `questionNumberRegex`: the text before the match, the three
capture groups (`none` for a group that did not take part) and the text after
the match. -/
structure ReMatch where
  pre : List Char
  g1 : Option (List Char)
  g2 : Option (List Char)
  g3 : Option (List Char)
  post : List Char
deriving DecidableEq, Repr

/-- The class `[\.\)\s\:\-]`. -/
def isNumberTerminator (c : Char) : Bool :=
  c = '.' || c = ')' || isWs c || c = ':' || c = '-'

/-- `(\d+)[\.\)\s\:\-]` at the head of `s`: the digit run and what follows the
terminator. -/
def digitsThenTerminator (s : List Char) : Option (List Char × List Char) :=
  match s.takeWhile isDigit, s.dropWhile isDigit with
  | [], _ => none
  | _ :: _, [] => none
  | d :: ds, c :: rest => if isNumberTerminator c then some (d :: ds, rest) else none

/-- `Question` under the `i` flag at the head of `s`: what follows it. -/
def stripQuestionWord : List Char → Option (List Char)
  | q :: u :: e :: s :: t :: i :: o :: n :: rest =>
    if eqCI 'q' q && eqCI 'u' u && eqCI 'e' e && eqCI 's' s && eqCI 't' t &&
       eqCI 'i' i && eqCI 'o' o && eqCI 'n' n then some rest else none
  | _ => none

/-- The ways `(?:\s*(?:Q\.?|Question)?\s*)?` can consume a prefix of `s`, in the
order the backtracking search tries them; each entry is the text left over.
After the leading white space: `Q.`, `Q`, `Question`, nothing; each followed by
white space; last, the whole optional group skipped. -/
def prefixRests (s : List Char) : List (List Char) :=
  let s1 := s.dropWhile isWs
  let afterQ : List (List Char) :=
    match s1 with
    | q :: t =>
      if eqCI 'q' q then
        match t with
        | '.' :: t2 => [t2, t]
        | _ => [t]
      else []
    | [] => []
  let afterWord : List (List Char) :=
    match stripQuestionWord s1 with
    | some t => [t]
    | none => []
  (afterQ ++ afterWord ++ [s1]).map (List.dropWhile isWs) ++ [s]

/-- First alternative, `^(?:\s*(?:Q\.?|Question)?\s*)?(\d+)[\.\)\s\:\-]`, at the
start of the line. -/
def alt1 (s : List Char) : Option (List Char × List Char) :=
  (prefixRests s).findSome? digitsThenTerminator

/-- Second alternative, `\s*\((\d+)\)`, at the head of `s`. -/
def alt2 (s : List Char) : Option (List Char × List Char) :=
  match s.dropWhile isWs with
  | '(' :: t =>
    match t.takeWhile isDigit, t.dropWhile isDigit with
    | d :: ds, ')' :: rest => some (d :: ds, rest)
    | _, _ => none
  | _ => none

/-- Third alternative, `\s*(\d+)[a-z]?[\.\)]` under the `i` flag, at the head
of `s`. -/
def alt3 (s : List Char) : Option (List Char × List Char) :=
  let t := s.dropWhile isWs
  match t.takeWhile isDigit, t.dropWhile isDigit with
  | [], _ => none
  | _ :: _, [] => none
  | d :: ds, c :: rest =>
    if c = '.' || c = ')' then some (d :: ds, rest)
    else if isLetterCI c then
      match rest with
      | e :: rest2 => if e = '.' || e = ')' then some (d :: ds, rest2) else none
      | [] => none
    else none

/-- The second and third alternatives carry no `^`: the search tries them at
every start position, left to right, the second before the third. -/
def searchAlt23 (pre : List Char) : List Char → Option ReMatch
  | [] => none
  | c :: t =>
    match alt2 (c :: t) with
    | some (g, post) => some ⟨pre, none, some g, none, post⟩
    | none =>
      match alt3 (c :: t) with
      | some (g, post) => some ⟨pre, none, none, some g, post⟩
      | none => searchAlt23 (pre ++ [c]) t

/-- `line.match(questionNumberRegex)` for
`/^(?:\s*(?:Q\.?|Question)?\s*)?(\d+)[\.\)\s\:\-]|\s*\((\d+)\)|\s*(\d+)[a-z]?[\.\)]/i`.
At start position 0 the three alternatives are tried in order; the first one is
anchored and is not tried again further right. -/
def questionNumberMatch (line : List Char) : Option ReMatch :=
  match alt1 line with
  | some (g, post) => some ⟨[], some g, none, none, post⟩
  | none => searchAlt23 [] line

/-- `a || b` on two capture groups: an unmatched or empty group is falsy. -/
def orGroup (a b : Option (List Char)) : Option (List Char) :=
  match a with
  | some (c :: cs) => some (c :: cs)
  | _ => b

/-- `match[1] || match[2] || match[3]`. -/
def ReMatch.number (m : ReMatch) : Option (List Char) :=
  orGroup (orGroup m.g1 m.g2) m.g3

/-- `line.replace(questionNumberRegex, '')`: the first match removed. -/
def replaceQuestionNumber (line : List Char) : List Char :=
  match questionNumberMatch line with
  | some m => m.pre ++ m.post
  | none => line

/-- `/^\s*\d+\s+[A-Z]/.test(line)`. -/
def bareNumberCapital (line : List Char) : Bool :=
  let t := line.dropWhile isWs
  match t.takeWhile isDigit, (t.dropWhile isDigit).takeWhile isWs,
        (t.dropWhile isDigit).dropWhile isWs with
  | _ :: _, _ :: _, u :: _ => isUpper u
  | _, _, _ => false

/-- `/\s\d+\s/` at the head of `s`. -/
def wsDigitsWsAt : List Char → Bool
  | a :: t =>
    isWs a &&
      (match t.takeWhile isDigit, t.dropWhile isDigit with
       | _ :: _, b :: _ => isWs b
       | _, _ => false)
  | [] => false

/-- `/\s\d+\s/.test(line)`: a match at some start position. -/
def embeddedNumber : List Char → Bool
  | [] => false
  | c :: t => wsDigitsWsAt (c :: t) || embeddedNumber t

/-- `/^\s*\d+/.test(line)`. -/
def leadingNumber (line : List Char) : Bool :=
  match line.dropWhile isWs with
  | c :: _ => isDigit c
  | [] => false

/-- `line.match(/^\s*(\d+)/)`: the first capture group. -/
def leadingDigits (line : List Char) : Option (List Char) :=
  match (line.dropWhile isWs).takeWhile isDigit with
  | [] => none
  | d :: ds => some (d :: ds)

/-- `/[.!?]$/.test(s)`. -/
def endsWithPunctuation (s : List Char) : Bool :=
  match s.getLast? with
  | some c => c = '.' || c = '!' || c = '?'
  | none => false

/-- `/^[a-z]/.test(line)`. -/
def startsWithLowercase (line : List Char) : Bool :=
  match line with
  | c :: _ => isLower c
  | [] => false

/-! ## Data model -/

/-- A corner of a bounding polygon. -/
structure Vertex where
  x : Int
  y : Int
deriving DecidableEq, Repr

/-- The `boundingPoly` of an annotation; `vertices` may be missing, and may be
the empty array. -/
structure BoundingPoly where
  vertices : Option (List Vertex)
deriving DecidableEq, Repr

/-- An element of `textAnnotations`. -/
structure Annotation where
  description : List Char
  boundingPoly : Option BoundingPoly
deriving DecidableEq, Repr

/-- An element of `questionsAndAnswers`; `confidence` is `none` when the object
has no such property. -/
structure AnswerRecord where
  questionNumber : List Char
  answer : List Char
  confidence : Option Int
deriving DecidableEq, Repr

/-- The object returned by `extractQuestionsAndAnswers`. -/
structure SegResult where
  success : Bool
  message : Option String
  questionsAndAnswers : Option (List AnswerRecord)
deriving DecidableEq, Repr

/-- An exception thrown by the function. -/
inductive JsError where
  | typeError
deriving DecidableEq, Repr

/-- What a call does: it returns a value or throws. -/
inductive Outcome (α : Type) where
  | returns (value : α)
  | throws (e : JsError)
deriving DecidableEq, Repr

/-! ## Layout: lines 74-115 and 128-141 -/

/-- `blocks.length > 0 && blocks[0].boundingPoly && blocks[0].boundingPoly.vertices`
as a truth value (an empty array is truthy). -/
def hasLayoutInfo (blocks : List Annotation) : Bool :=
  match blocks with
  | [] => false
  | b :: _ =>
    match b.boundingPoly with
    | none => false
    | some p => p.vertices.isSome

/-- The `x` pushed for one block by the `forEach` of lines 84-89, if any. -/
def blockLeftX (b : Annotation) : Option Int :=
  match b.boundingPoly with
  | none => none
  | some p =>
    match p.vertices with
    | some (v :: _) => some v.x
    | _ => none

/-- `leftMarginPositions` after the `forEach` of lines 84-89. -/
def leftMarginPositions (blocks : List Annotation) : List Int :=
  blocks.filterMap blockLeftX

/-- `Math.round(pos / 10) * 10` on an integer: `Math.round` is `⌊x + 1/2⌋`. -/
def roundedPos (pos : Int) : Int := (pos + 5) / 10 * 10

/-- `groupedPositions[k] = (groupedPositions[k] || 0) + 1` on the properties of
the object kept in creation order. -/
def bump (k : Int) : List (Int × Nat) → List (Int × Nat)
  | [] => [(k, 1)]
  | (k2, n) :: rest => if k2 = k then (k2, n + 1) :: rest else (k2, n) :: bump k rest

/-- `groupedPositions` after the `forEach` of lines 95-98, in creation order. -/
def groupedPositions (positions : List Int) : List (Int × Nat) :=
  positions.foldl (fun g pos => bump (roundedPos pos) g) []

/-- A property key that is an array index: these are enumerated first. -/
def isArrayIndex (k : Int) : Bool := 0 ≤ k && k < 4294967295

/-- `Object.entries(groupedPositions)`: array-index keys in ascending order,
then the other keys in creation order. -/
def objectEntries (g : List (Int × Nat)) : List (Int × Nat) :=
  (g.filter (fun e => isArrayIndex e.1)).insertionSort (fun a b => a.1 ≤ b.1) ++
    g.filter (fun e => !isArrayIndex e.1)

/-- The loop of lines 101-109: `(mostCommonPosition, highestCount)` from
`(0, 0)`, replaced by each entry with a strictly higher count. -/
def mostCommon (entries : List (Int × Nat)) : Int × Nat :=
  entries.foldl (fun best e => if e.2 > best.2 then e else best) (0, 0)

/-- `mostCommonPosition` for a non-empty list of positions. -/
def mostCommonPosition (positions : List Int) : Int :=
  (mostCommon (objectEntries (groupedPositions positions))).1

/-- `leftMarginThreshold` after line 115; `none` is `null`. -/
def leftMarginThreshold (blocks : List Annotation) : Option Int :=
  if hasLayoutInfo blocks then
    match leftMarginPositions blocks with
    | [] => none
    | p :: ps => some (mostCommonPosition (p :: ps) + 15)
  else none

/-- One iteration of the first pass (lines 131-139): the value stored in
`lineIndentations[i]`, `none` when the slot stays empty.  Reading
`vertices[0].x` of an empty `vertices` array throws. -/
def lineIndentation (blocks : List Annotation) (raw : List Char) :
    Outcome (Option Int) :=
  let line := trim raw
  if line = [] then .returns none
  else
    match blocks.find? (fun b => trim b.description = line) with
    | none => .returns none
    | some b =>
      match b.boundingPoly with
      | none => .returns none
      | some p =>
        match p.vertices with
        | none => .returns none
        | some [] => .throws .typeError
        | some (v :: _) => .returns (some v.x)

/-- The first pass over the lines, when `hasLayoutInfo` holds. -/
def collectIndentations (blocks : List Annotation) :
    List (List Char) → Outcome (List (Option Int))
  | [] => .returns []
  | raw :: rest =>
    match lineIndentation blocks raw with
    | .throws e => .throws e
    | .returns v =>
      match collectIndentations blocks rest with
      | .throws e => .throws e
      | .returns vs => .returns (v :: vs)

/-- `lineIndentations` after line 141, one slot for each line. -/
def lineIndentations (blocks : List Annotation) (lines : List (List Char)) :
    Outcome (List (Option Int)) :=
  if hasLayoutInfo blocks then collectIndentations blocks lines
  else .returns (lines.map fun _ => none)

/-! ## The second pass: lines 143-267 -/

/-- The variables the second pass carries from line to line. -/
structure SegState where
  currentQuestion : Option (List Char)
  currentAnswer : List (List Char)
  previousLineWasEmpty : Bool
  averageAnswerIndentation : Rat
  answerIndentationCount : Nat
  questionsAndAnswers : List AnswerRecord
deriving DecidableEq, Repr

/-- The variables before the first line (lines 66 and 119-126). -/
def SegState.initial : SegState :=
  { currentQuestion := none, currentAnswer := [], previousLineWasEmpty := false,
    averageAnswerIndentation := 0, answerIndentationCount := 0,
    questionsAndAnswers := [] }

/-- `hasLayoutInfo && lineIndentations[i]` as a truth value: an empty slot and
the number 0 are both falsy. -/
def indentationKnown (hasLayout : Bool) (ind : Option Int) : Bool :=
  hasLayout &&
    (match ind with
     | some x => x != 0
     | none => false)

/-- `currentIndentation` after line 179. -/
def currentIndentation (hasLayout : Bool) (ind : Option Int) : Int :=
  if indentationKnown hasLayout ind then ind.getD 0 else 0

/-- `currentIndentation <= leftMarginThreshold`; a `null` threshold compares
as 0. -/
def leThreshold (x : Int) (thr : Option Int) : Bool :=
  decide (x ≤ thr.getD 0)

/-- `isAtLeftMargin` after line 179. -/
def isAtLeftMargin (hasLayout : Bool) (thr : Option Int) (ind : Option Int) : Bool :=
  indentationKnown hasLayout ind && leThreshold (ind.getD 0) thr

/-- FACTOR 5 (lines 158-161): the numbered-line pattern. -/
def patternSignal (line : List Char) : Int :=
  if (questionNumberMatch line).isSome then 50 else 0

/-- FACTOR 6 (lines 164-166): the line follows an empty line. -/
def blankLineSignal (st : SegState) : Int :=
  if st.previousLineWasEmpty then 30 else 0

/-- FACTOR 7 (lines 169-179): the line starts at the left margin. -/
def marginSignal (hasLayout : Bool) (thr : Option Int) (ind : Option Int) : Int :=
  if isAtLeftMargin hasLayout thr ind then 20 else 0

/-- FACTOR 8 (lines 183-185): a bare number followed by a capital letter. -/
def bareNumberSignal (line : List Char) : Int :=
  if !(questionNumberMatch line).isSome && bareNumberCapital line then 40 else 0

/-- FACTOR 9 (lines 189-191): a number inside the line, none at its start. -/
def embeddedNumberSignal (line : List Char) : Int :=
  if !(questionNumberMatch line).isSome && embeddedNumber line && !leadingNumber line
  then -20 else 0

/-- FACTOR 10 (lines 195-202): the indentation of the answer lines. -/
def continuationIndentSignal (hasLayout : Bool) (thr : Option Int) (st : SegState)
    (ind : Option Int) : Int :=
  if st.currentQuestion.isSome && indentationKnown hasLayout ind &&
      decide (st.averageAnswerIndentation > 0) then
    let isAnswerIndentation : Bool :=
      decide (|((ind.getD 0 : Int) : Rat) - st.averageAnswerIndentation| < 15)
    if isAnswerIndentation && !isAtLeftMargin hasLayout thr ind then -30 else 0
  else 0

/-- FACTOR 11 (lines 206-214): the line continues a sentence. -/
def sentenceContinuationSignal (st : SegState) (line : List Char) : Int :=
  if st.currentQuestion.isSome then
    match st.currentAnswer.getLast? with
    | some previousLine =>
      if !endsWithPunctuation previousLine && startsWithLowercase line then -25 else 0
    | none => 0
  else 0

/-- `newQuestionConfidence` at line 217, for the non-empty trimmed `line`. -/
def newQuestionConfidence (hasLayout : Bool) (thr : Option Int) (st : SegState)
    (line : List Char) (ind : Option Int) : Int :=
  patternSignal line + blankLineSignal st + marginSignal hasLayout thr ind +
    bareNumberSignal line + embeddedNumberSignal line +
    continuationIndentSignal hasLayout thr st ind +
    sentenceContinuationSignal st line

/-- `isLikelyNewQuestion` (line 217). -/
def isLikelyNewQuestion (hasLayout : Bool) (thr : Option Int) (st : SegState)
    (line : List Char) (ind : Option Int) : Bool :=
  decide (newQuestionConfidence hasLayout thr st line ind ≥ 40)

/-- The record pushed at lines 221-227, if the guard holds. -/
def closeOpenQuestion (st : SegState) (confidence : Option Int) : List AnswerRecord :=
  match st.currentQuestion, st.currentAnswer with
  | some q, a :: as =>
    st.questionsAndAnswers ++
      [{ questionNumber := q, answer := joinSpace (a :: as), confidence := confidence }]
  | _, _ => st.questionsAndAnswers

/-- `currentQuestion` after lines 230-239.  A match always has a group that is
a non-empty digit run, so `match[1] || match[2] || match[3]` is that run. -/
def nextQuestion (st : SegState) (line : List Char) : Option (List Char) :=
  match questionNumberMatch line with
  | some m => m.number
  | none =>
    match leadingDigits line with
    | some n => some n
    | none => st.currentQuestion

/-- `currentAnswer` after lines 243-248. -/
def firstAnswerLines (line : List Char) : List (List Char) :=
  match trim (replaceQuestionNumber line) with
  | [] => []
  | c :: cs => [c :: cs]

/-- The branch of lines 219-252: a new question starts on `line`. -/
def startQuestion (hasLayout : Bool) (thr : Option Int) (st : SegState)
    (line : List Char) (ind : Option Int) : SegState :=
  { currentQuestion := nextQuestion st line
    currentAnswer := firstAnswerLines line
    previousLineWasEmpty := false
    averageAnswerIndentation := (currentIndentation hasLayout ind : Int)
    answerIndentationCount := 1
    questionsAndAnswers :=
      closeOpenQuestion st (some (newQuestionConfidence hasLayout thr st line ind)) }

/-- The branch of lines 253-264: `line` continues the current answer. -/
def continueAnswer (hasLayout : Bool) (st : SegState) (line : List Char)
    (ind : Option Int) : SegState :=
  match st.currentQuestion with
  | none => { st with previousLineWasEmpty := false }
  | some _ =>
    if indentationKnown hasLayout ind then
      { st with
        currentAnswer := st.currentAnswer ++ [line]
        averageAnswerIndentation :=
          (st.averageAnswerIndentation * st.answerIndentationCount + ((ind.getD 0 : Int) : Rat)) /
            (st.answerIndentationCount + 1)
        answerIndentationCount := st.answerIndentationCount + 1
        previousLineWasEmpty := false }
    else
      { st with
        currentAnswer := st.currentAnswer ++ [line]
        previousLineWasEmpty := false }

/-- One iteration of the loop of lines 144-267 on `lines[i]` and
`lineIndentations[i]`. -/
def processLine (hasLayout : Bool) (thr : Option Int) (st : SegState)
    (entry : List Char × Option Int) : SegState :=
  let line := trim entry.1
  if line = [] then { st with previousLineWasEmpty := true }
  else if isLikelyNewQuestion hasLayout thr st line entry.2 then
    startQuestion hasLayout thr st line entry.2
  else continueAnswer hasLayout st line entry.2

/-- The whole second pass. -/
def secondPass (hasLayout : Bool) (thr : Option Int)
    (entries : List (List Char × Option Int)) : SegState :=
  entries.foldl (processLine hasLayout thr) SegState.initial

/-- `questionsAndAnswers` at line 276, after the last open question is pushed
without a `confidence` (lines 270-275). -/
def emittedRecords (hasLayout : Bool) (thr : Option Int)
    (entries : List (List Char × Option Int)) : List AnswerRecord :=
  closeOpenQuestion (secondPass hasLayout thr entries) none

/-! ## Sorting and the result: lines 277-292 -/

/-- The comparator of line 279 is negative or zero. -/
def numberLe (a b : AnswerRecord) : Prop :=
  parseInt a.questionNumber ≤ parseInt b.questionNumber

instance : DecidableRel numberLe := fun a b =>
  inferInstanceAs (Decidable (parseInt a.questionNumber ≤ parseInt b.questionNumber))

/-- `questionsAndAnswers.sort(...)` of line 278: `Array.prototype.sort` is a
stable sort; insertion from the right is one. -/
def sortByQuestionNumber (records : List AnswerRecord) : List AnswerRecord :=
  records.insertionSort numberLe

/-- The records of a document before sorting, from its text and blocks. -/
def segment (fullText : List Char) (blocks : List Annotation) :
    Outcome (List AnswerRecord) :=
  let lines := splitLines fullText
  match lineIndentations blocks lines with
  | .throws e => .throws e
  | .returns inds =>
    .returns (emittedRecords (hasLayoutInfo blocks) (leftMarginThreshold blocks)
      (lines.zip inds))

/-- `extractQuestionsAndAnswers(textAnnotations)`; `none` is an absent
(`null` or `undefined`) argument. -/
def extractQuestionsAndAnswers (textAnnotations : Option (List Annotation)) :
    Outcome SegResult :=
  match textAnnotations with
  | none => .returns ⟨false, some "No text detected", none⟩
  | some [] => .returns ⟨false, some "No text detected", none⟩
  | some (first :: blocks) =>
    match segment first.description blocks with
    | .throws e => .throws e
    | .returns records =>
      .returns ⟨true, none, some (sortByQuestionNumber records)⟩

/-- An annotation that carries only text. -/
def textOnly (s : String) : Annotation := ⟨s.toList, none⟩

/-- An annotation with text and a bounding box whose top-left corner is at
`(x, 0)`. -/
def boxed (s : String) (x : Int) : Annotation :=
  ⟨s.toList, some ⟨some [⟨x, 0⟩, ⟨x + 50, 0⟩, ⟨x + 50, 10⟩, ⟨x, 10⟩]⟩⟩

/-! ## Predicates, example documents and the specification-level segmenter -/

/-- The block has a bounding polygon whose `vertices` array is empty. -/
def hasEmptyVertices (b : Annotation) : Bool :=
  match b.boundingPoly with
  | some p =>
    match p.vertices with
    | some [] => true
    | _ => false
  | none => false

/-- Every bounding polygon that lists its vertices has at least one corner
(a rectangle has four). -/
def BoxesHaveCorners (blocks : List Annotation) : Prop :=
  ∀ b ∈ blocks, hasEmptyVertices b = false

instance (blocks : List Annotation) : Decidable (BoxesHaveCorners blocks) :=
  inferInstanceAs (Decidable (∀ b ∈ blocks, hasEmptyVertices b = false))

/-- The failure object of line 53. -/
def noTextDetected : SegResult := ⟨false, some "No text detected", none⟩

instance : IsTotal AnswerRecord numberLe :=
  ⟨fun a b => Nat.le_total (parseInt a.questionNumber) (parseInt b.questionNumber)⟩

instance : IsTrans AnswerRecord numberLe :=
  ⟨fun _ _ _ hab hbc => Nat.le_trans hab hbc⟩

/-- The indicator `[b]` of a condition: 1 when it holds, 0 otherwise. -/
def indicator (b : Bool) : Int := if b then 1 else 0

/-- The line matches the numbered-line pattern. -/
def matchesPattern (line : List Char) : Bool := (questionNumberMatch line).isSome

/-- A question is open with at least one accumulated line and the last
accumulated line does not end in `.`, `!` or `?`. -/
def openSentence (st : SegState) : Bool :=
  st.currentQuestion.isSome &&
    (match st.currentAnswer.getLast? with
     | some previousLine => !endsWithPunctuation previousLine
     | none => false)

/-- The score as the sum of indicator terms, for a document without layout
information. -/
def scoreWithoutLayout (st : SegState) (line : List Char) : Int :=
  50 * indicator (matchesPattern line) +
  30 * indicator st.previousLineWasEmpty +
  40 * indicator (!matchesPattern line && bareNumberCapital line) -
  20 * indicator (!matchesPattern line && embeddedNumber line && !leadingNumber line) -
  25 * indicator (openSentence st && startsWithLowercase line)

/-- A document whose only block starts at the left edge of the page. -/
def leftEdgeDocument : List Annotation := [textOnly "1. A", boxed "1. A" 0]

/-- A document whose most common left position is negative: three blocks at
-100, the question line at -75 and its continuation at -70. -/
def negativeMarginBlocks : List Annotation :=
  [boxed "x" (-100), boxed "y" (-100), boxed "z" (-100), boxed "1. A" (-75), boxed "b" (-70)]

/-- A document with its margin at 10, a question line at 30 and a continuation
line at 35. -/
def indentedAnswerBlocks : List Annotation :=
  [boxed "h" 10, boxed "i" 10, boxed "1. A" 30, boxed "b" 35]

/-- No block carries a bounding box. -/
def NoBoxes (blocks : List Annotation) : Prop :=
  ∀ b ∈ blocks, b.boundingPoly = none

instance (blocks : List Annotation) : Decidable (NoBoxes blocks) :=
  inferInstanceAs (Decidable (∀ b ∈ blocks, b.boundingPoly = none))

/-- The number of blocks with a bounding box whose top-left `x` has `m` as its
nearest multiple of 10 (a position half-way between two multiples goes to the
upper one, as with `Math.round`). -/
def bucketCount (blocks : List Annotation) (m : Int) : Nat :=
  (blocks.filterMap blockLeftX).countP (fun x => decide (m - 5 ≤ x ∧ x < m + 5))

/-- The keys of the grouping object. -/
def keys (g : List (Int × Nat)) : List Int := g.map Prod.fst

/-- What the grouping object records about the positions seen so far: one
property for each bucket met, holding the number of positions of that bucket. -/
structure Grouped (ps : List Int) (g : List (Int × Nat)) : Prop where
  nodup : (keys g).Nodup
  count : ∀ e ∈ g, e.2 = ps.countP (fun p => roundedPos p = e.1) ∧ 0 < e.2
  complete : ∀ p ∈ ps, roundedPos p ∈ keys g

/-- A non-empty run of decimal digits. -/
def IsNumeral (g : List Char) : Prop := g ≠ [] ∧ ∀ c ∈ g, isDigit c = true

/-- The number captured by the numbered-line pattern on a line that matches it. -/
def capturedNumber (line : List Char) : Option (List Char) :=
  (questionNumberMatch line).bind ReMatch.number

/-- The last gathered line of the open question is unfinished: it does not end
in `.`, `!` or `?`. -/
def specUnfinished (openQ : Option (List Char × List (List Char))) : Bool :=
  match openQ with
  | some (_, gathered) =>
    (match gathered.getLast? with
     | some previousLine => !endsWithPunctuation previousLine
     | none => false)
  | none => false

/-- The score of the signal table for a document without layout information,
given the open question (its number and gathered lines) and whether the
previous line was blank. -/
def specScore (openQ : Option (List Char × List (List Char))) (afterBlank : Bool)
    (line : List Char) : Int :=
  50 * indicator (matchesPattern line) +
  30 * indicator afterBlank +
  40 * indicator (!matchesPattern line && bareNumberCapital line) -
  20 * indicator (!matchesPattern line && embeddedNumber line && !leadingNumber line) -
  25 * indicator (specUnfinished openQ && startsWithLowercase line)

/-- The record of an open question that gathered at least one answer line. -/
def specClose (openQ : Option (List Char × List (List Char))) (confidence : Option Int) :
    List AnswerRecord :=
  match openQ with
  | some (q, a :: as) => [⟨q, joinSpace (a :: as), confidence⟩]
  | _ => []

/-- The records of a document without layout information, in the order they
are started.  Only a non-empty line that matches the numbered-line pattern and
scores at least 40 starts a question; it closes the open one and carries the
number captured from it.  Every other non-empty line is gathered by the open
question, or dropped when none is open. -/
def specRecords (openQ : Option (List Char × List (List Char))) (afterBlank : Bool) :
    List (List Char) → List AnswerRecord
  | [] => specClose openQ none
  | raw :: rest =>
    if trim raw = [] then specRecords openQ true rest
    else
      match capturedNumber (trim raw) with
      | some number =>
        if 40 ≤ specScore openQ afterBlank (trim raw) then
          specClose openQ (some (specScore openQ afterBlank (trim raw))) ++
            specRecords (some (number, firstAnswerLines (trim raw))) false rest
        else
          specRecords (openQ.map fun o => (o.1, o.2 ++ [trim raw])) false rest
      | none => specRecords (openQ.map fun o => (o.1, o.2 ++ [trim raw])) false rest

/-- The number of the open question, as a list of at most one element. -/
def openNumber (openQ : Option (List Char × List (List Char))) : List (List Char) :=
  match openQ with
  | some (q, _) => [q]
  | none => []

/-- The open question of a state of the second pass. -/
def SegState.openQuestion (st : SegState) : Option (List Char × List (List Char)) :=
  st.currentQuestion.map fun q => (q, st.currentAnswer)

/-- Every line of the list is non-empty after trimming and scores below 40 at
the point where the second pass, without layout information and started in
`st`, reaches it. -/
def continuationsOnly (st : SegState) : List (List Char) → Bool
  | [] => true
  | raw :: rest =>
    decide (trim raw ≠ []) &&
      decide (newQuestionConfidence false none st (trim raw) none < 40) &&
      continuationsOnly (processLine false none st (raw, none)) rest

/-! ## Predicates for the second pass with layout -/

/-- None of the lines starts a question when the second pass, started in `st`,
reaches it: each is blank or scores below 40. -/
def noNewQuestion (hasLayout : Bool) (thr : Option Int) (st : SegState) :
    List (List Char × Option Int) → Bool
  | [] => true
  | e :: rest =>
    (decide (trim e.1 = []) || !isLikelyNewQuestion hasLayout thr st (trim e.1) e.2) &&
      noNewQuestion hasLayout thr (processLine hasLayout thr st e) rest

/-- The indentations that the lines contribute to the running average while a
question is open (`opened`): those of the non-empty lines that pass the test
`hasLayoutInfo && lineIndentations[i]` of line 259. -/
def contributions (hasLayout : Bool) (opened : Bool)
    (entries : List (List Char × Option Int)) : List Int :=
  if opened then
    entries.filterMap fun e =>
      if trim e.1 ≠ [] ∧ indentationKnown hasLayout e.2 = true then e.2 else none
  else []

/-- The text whose lines are the given ones: `lines.join('\n')`. -/
def joinLines : List (List Char) → List Char
  | [] => []
  | [a] => a
  | a :: b :: rest => a ++ '\n' :: joinLines (b :: rest)

/-! ## JSON values and `JSON.parse`

`JSON.parse` is a built-in of the language, not code of the repository.  The
extraction ladder below takes the parser as a parameter, `none` standing for a
thrown `SyntaxError`, so what is proved of the ladder holds for every parser.
`jsonParse` is a model of the built-in on which the concrete texts are run. -/

/-- A value produced by `JSON.parse`.  A number is kept as the decimal
`mantissa * 10 ^ exponent` that was written; the members of an object are in
the order they were written. -/
inductive Json where
  | null
  | bool (b : Bool)
  | num (mantissa : Int) (exponent : Int)
  | str (s : List Char)
  | arr (items : List Json)
  | obj (members : List (List Char × Json))
deriving Repr

mutual
/-- Equality of JSON values is decidable. -/
def Json.decEq : (a b : Json) → Decidable (a = b)
  | .null, .null => isTrue rfl
  | .bool a, .bool b =>
    if h : a = b then isTrue (by rw [h]) else isFalse (by intro e; cases e; exact h rfl)
  | .num a b, .num c d =>
    if h : a = c ∧ b = d then isTrue (by rw [h.1, h.2])
    else isFalse (by intro e; cases e; exact h ⟨rfl, rfl⟩)
  | .str a, .str b =>
    if h : a = b then isTrue (by rw [h]) else isFalse (by intro e; cases e; exact h rfl)
  | .arr a, .arr b =>
    match Json.decEqList a b with
    | isTrue h => isTrue (by rw [h])
    | isFalse h => isFalse (by intro e; cases e; exact h rfl)
  | .obj a, .obj b =>
    match Json.decEqMembers a b with
    | isTrue h => isTrue (by rw [h])
    | isFalse h => isFalse (by intro e; cases e; exact h rfl)
  | .null, .bool _ | .null, .num _ _ | .null, .str _ | .null, .arr _ | .null, .obj _ =>
    isFalse (by intro e; cases e)
  | .bool _, .null | .bool _, .num _ _ | .bool _, .str _ | .bool _, .arr _ | .bool _, .obj _ =>
    isFalse (by intro e; cases e)
  | .num _ _, .null | .num _ _, .bool _ | .num _ _, .str _ | .num _ _, .arr _
  | .num _ _, .obj _ => isFalse (by intro e; cases e)
  | .str _, .null | .str _, .bool _ | .str _, .num _ _ | .str _, .arr _ | .str _, .obj _ =>
    isFalse (by intro e; cases e)
  | .arr _, .null | .arr _, .bool _ | .arr _, .num _ _ | .arr _, .str _ | .arr _, .obj _ =>
    isFalse (by intro e; cases e)
  | .obj _, .null | .obj _, .bool _ | .obj _, .num _ _ | .obj _, .str _ | .obj _, .arr _ =>
    isFalse (by intro e; cases e)
/-- Equality of lists of JSON values is decidable. -/
def Json.decEqList : (a b : List Json) → Decidable (a = b)
  | [], [] => isTrue rfl
  | [], _ :: _ => isFalse (by intro e; cases e)
  | _ :: _, [] => isFalse (by intro e; cases e)
  | a :: as, b :: bs =>
    match Json.decEq a b, Json.decEqList as bs with
    | isTrue h1, isTrue h2 => isTrue (by rw [h1, h2])
    | isFalse h1, _ => isFalse (by intro e; cases e; exact h1 rfl)
    | _, isFalse h2 => isFalse (by intro e; cases e; exact h2 rfl)
/-- Equality of member lists is decidable. -/
def Json.decEqMembers : (a b : List (List Char × Json)) → Decidable (a = b)
  | [], [] => isTrue rfl
  | [], _ :: _ => isFalse (by intro e; cases e)
  | _ :: _, [] => isFalse (by intro e; cases e)
  | (k, a) :: as, (l, b) :: bs =>
    if hk : k = l then
      match Json.decEq a b, Json.decEqMembers as bs with
      | isTrue h1, isTrue h2 => isTrue (by rw [hk, h1, h2])
      | isFalse h1, _ => isFalse (by intro e; cases e; exact h1 rfl)
      | _, isFalse h2 => isFalse (by intro e; cases e; exact h2 rfl)
    else isFalse (by intro e; cases e; exact hk rfl)
end

instance : DecidableEq Json := Json.decEq

/-- JSON white space: space, tab, line feed, carriage return. -/
def isJsonWs (c : Char) : Bool := c = ' ' || c = '\t' || c = '\n' || c = '\r'

/-- The value of a hexadecimal digit. -/
def hexValue (c : Char) : Option Nat :=
  if '0' ≤ c && c ≤ '9' then some (c.toNat - '0'.toNat)
  else if 'a' ≤ c && c ≤ 'f' then some (c.toNat - 'a'.toNat + 10)
  else if 'A' ≤ c && c ≤ 'F' then some (c.toNat - 'A'.toNat + 10)
  else none

/-- The code unit written as four hexadecimal digits. -/
def hex4 (a b c d : Char) : Option Nat :=
  match hexValue a, hexValue b, hexValue c, hexValue d with
  | some x, some y, some z, some w => some (((x * 16 + y) * 16 + z) * 16 + w)
  | _, _, _, _ => none

/-- The characters of a string literal after its opening quote, and what
follows the closing quote.  An escaped surrogate pair gives its code point; a
surrogate that stands alone cannot be a `Char` and is read as U+FFFD. -/
def parseStringBody : List Char → Option (List Char × List Char)
  | [] => none
  | '\\' :: 'u' :: a :: b :: c :: d :: '\\' :: 'u' :: e :: f :: g :: h :: rest =>
    match hex4 a b c d, hex4 e f g h with
    | some hi, some lo =>
      if 0xD800 ≤ hi ∧ hi ≤ 0xDBFF ∧ 0xDC00 ≤ lo ∧ lo ≤ 0xDFFF then
        (parseStringBody rest).map fun r =>
          (Char.ofNat (0x10000 + (hi - 0xD800) * 0x400 + (lo - 0xDC00)) :: r.1, r.2)
      else
        (parseStringBody ('\\' :: 'u' :: e :: f :: g :: h :: rest)).map fun r =>
          ((if 0xD800 ≤ hi ∧ hi ≤ 0xDFFF then Char.ofNat 0xFFFD else Char.ofNat hi) :: r.1, r.2)
    | some _, none => none
    | none, _ => none
  | '\\' :: 'u' :: a :: b :: c :: d :: rest =>
    match hex4 a b c d with
    | some hi =>
      (parseStringBody rest).map fun r =>
        ((if 0xD800 ≤ hi ∧ hi ≤ 0xDFFF then Char.ofNat 0xFFFD else Char.ofNat hi) :: r.1, r.2)
    | none => none
  | '\\' :: e :: rest =>
    let unescaped : Option Char :=
      if e = '"' then some '"' else if e = '\\' then some '\\' else if e = '/' then some '/'
      else if e = 'b' then some (Char.ofNat 8) else if e = 'f' then some (Char.ofNat 12)
      else if e = 'n' then some '\n' else if e = 'r' then some '\r'
      else if e = 't' then some '\t' else none
    match unescaped with
    | some c => (parseStringBody rest).map fun r => (c :: r.1, r.2)
    | none => none
  | c :: rest =>
    if c = '"' then some ([], rest)
    else if c = '\\' then none
    else if c.toNat < 0x20 then none
    else (parseStringBody rest).map fun r => (c :: r.1, r.2)

/-- A number literal at the head of `s`:
`-?(0|[1-9][0-9]*)(\.[0-9]+)?([eE][+-]?[0-9]+)?`, and what follows it. -/
def parseNumber (s : List Char) : Option (Json × List Char) :=
  let negative : Bool := s.head? = some '-'
  let s1 := if negative then s.drop 1 else s
  let intPart : Option (List Char × List Char) :=
    match s1 with
    | [] => none
    | c :: rest =>
      if c = '0' then some (['0'], rest)
      else if isDigit c then some (s1.takeWhile isDigit, s1.dropWhile isDigit)
      else none
  match intPart with
  | none => none
  | some (intDigits, s2) =>
    let fracPart : Option (List Char × List Char) :=
      match s2 with
      | '.' :: rest =>
        match rest.takeWhile isDigit with
        | [] => none
        | d :: ds => some (d :: ds, rest.dropWhile isDigit)
      | _ => some ([], s2)
    match fracPart with
    | none => none
    | some (fracDigits, s3) =>
      let expPart : Option (Int × List Char) :=
        match s3 with
        | e :: rest =>
          if e = 'e' || e = 'E' then
            let expNegative : Bool := rest.head? = some '-'
            let rest1 := if rest.head? = some '-' || rest.head? = some '+' then rest.drop 1
              else rest
            match rest1.takeWhile isDigit with
            | [] => none
            | d :: ds =>
              some (if expNegative then -(digitsValue 0 (d :: ds) : Int)
                else (digitsValue 0 (d :: ds) : Int), rest1.dropWhile isDigit)
          else some (0, s3)
        | [] => some (0, s3)
      match expPart with
      | none => none
      | some (exponent, s4) =>
        let magnitude : Int := (digitsValue 0 (intDigits ++ fracDigits) : Int)
        some (.num (if negative then -magnitude else magnitude)
          (exponent - (fracDigits.length : Int)), s4)

/-- The elements of a non-empty array after `[`, each parsed by `parseValue`:
`value (, value)* ]`; `budget` bounds the number of elements. -/
def parseElements (parseValue : List Char → Option (Json × List Char)) :
    Nat → List Char → Option (List Json × List Char)
  | 0, _ => none
  | budget + 1, s =>
    match parseValue s with
    | none => none
    | some (v, rest) =>
      match rest.dropWhile isJsonWs with
      | ',' :: rest2 => (parseElements parseValue budget rest2).map fun r => (v :: r.1, r.2)
      | ']' :: rest2 => some ([v], rest2)
      | _ => none

/-- The members of a non-empty object after `{`: `string : value (, string :
value)* }`. -/
def parseMembers (parseValue : List Char → Option (Json × List Char)) :
    Nat → List Char → Option (List (List Char × Json) × List Char)
  | 0, _ => none
  | budget + 1, s =>
    match s.dropWhile isJsonWs with
    | '"' :: rest =>
      match parseStringBody rest with
      | none => none
      | some (key, rest1) =>
        match rest1.dropWhile isJsonWs with
        | ':' :: rest2 =>
          match parseValue rest2 with
          | none => none
          | some (v, rest3) =>
            match rest3.dropWhile isJsonWs with
            | ',' :: rest4 =>
              (parseMembers parseValue budget rest4).map fun r => ((key, v) :: r.1, r.2)
            | '}' :: rest4 => some ([(key, v)], rest4)
            | _ => none
        | _ => none
    | _ => none

/-- A JSON value at the head of `s`, after white space, and what follows it;
`depth` bounds the nesting. -/
def parseValue : Nat → List Char → Option (Json × List Char)
  | 0, _ => none
  | depth + 1, s =>
    match s.dropWhile isJsonWs with
    | [] => none
    | c :: rest =>
      if c = '{' then
        match rest.dropWhile isJsonWs with
        | '}' :: rest2 => some (.obj [], rest2)
        | _ => (parseMembers (parseValue depth) rest.length rest).map fun r => (.obj r.1, r.2)
      else if c = '[' then
        match rest.dropWhile isJsonWs with
        | ']' :: rest2 => some (.arr [], rest2)
        | _ => (parseElements (parseValue depth) rest.length rest).map fun r => (.arr r.1, r.2)
      else if c = '"' then
        (parseStringBody rest).map fun r => (.str r.1, r.2)
      else if "true".toList.isPrefixOf (c :: rest) then some (.bool true, (c :: rest).drop 4)
      else if "false".toList.isPrefixOf (c :: rest) then some (.bool false, (c :: rest).drop 5)
      else if "null".toList.isPrefixOf (c :: rest) then some (.null, (c :: rest).drop 4)
      else parseNumber (c :: rest)

/-- A model of `JSON.parse(s)`: the value of the whole text, `none` when the
built-in throws a `SyntaxError`. -/
def jsonParse (s : List Char) : Option Json :=
  match parseValue (s.length + 1) s with
  | some (v, rest) => if rest.dropWhile isJsonWs = [] then some v else none
  | none => none

/-! ## The extraction ladder: lines 848-879 of `getAIFeedback` -/

/-- The three backticks of a code fence. -/
def fence : List Char := ['`', '`', '`']

/-- `([\s\S]*?)\n?` followed by a fence, at the head of `s`: the shortest
capture after which a fence, or a line feed and a fence, stands; with it the
text of the closing `\n?` and fence. -/
def lazyUntilFence : List Char → Option (List Char × List Char)
  | [] => none
  | c :: t =>
    if fence.isPrefixOf (c :: t) then some ([], fence)
    else if c = '\n' && fence.isPrefixOf t then some ([], '\n' :: fence)
    else
      match lazyUntilFence t with
      | some (capture, closing) => some (c :: capture, closing)
      | none => none

/-- The rest of the fenced-block pattern, `(?:json)?\s*\n?([\s\S]*?)\n?` and
the closing fence, on the text `s` that follows an opening fence: the capture
(`match[1]`) and the whole match (`match[0]`).  The tag `json` and the white
space are taken greedily; the `\n?` after `\s*` then has no line feed left to
take.  Giving any of them back cannot help: the closing fence has to be found
behind them either way. -/
def fenceAt (s : List Char) : Option (List Char × List Char) :=
  let tag : List Char := if "json".toList.isPrefixOf s then "json".toList else []
  let afterTag := s.drop tag.length
  match lazyUntilFence (afterTag.dropWhile isWs) with
  | some (capture, closing) =>
    some (capture, fence ++ tag ++ afterTag.takeWhile isWs ++ capture ++ closing)
  | none => none

/-- `text.match(...)` for the fenced-block pattern with the optional tag
`json`: the leftmost opening fence at which the pattern matches. -/
def fencedBlockMatch : List Char → Option (List Char × List Char)
  | [] => none
  | c :: t =>
    if fence.isPrefixOf (c :: t) then
      match fenceAt ((c :: t).drop 3) with
      | some m => some m
      | none => fencedBlockMatch t
    else fencedBlockMatch t

/-- `text.match(/{[\s\S]*}/)`: from the first `{` to the last `}` of the text
(the star is greedy), when a `}` follows that `{`. -/
def braceSpanMatch (text : List Char) : Option (List Char) :=
  match text.dropWhile (fun c => c != '{') with
  | [] => none
  | _ :: rest =>
    match rest.rdropWhile (fun c => c != '}') with
    | [] => none
    | c :: span => some ('{' :: c :: span)

/-- `jsonStr` of line 864, when `jsonMatch` is not `null`:
`jsonMatch[1] || jsonMatch[0]` of the first of the two patterns that matches.
An empty capture is falsy; the brace pattern has no group. -/
def jsonMatchString (text : List Char) : Option (List Char) :=
  match fencedBlockMatch text with
  | some (capture, whole) => some (if capture = [] then whole else capture)
  | none => braceSpanMatch text

/-- `/^\d+\.\s*/` at the start of the line: what follows the match. -/
def numberMarker (line : List Char) : Option (List Char) :=
  match line.takeWhile isDigit, line.dropWhile isDigit with
  | _ :: _, '.' :: rest => some (rest.dropWhile isWs)
  | _, _ => none

/-- The first `-\s*` or `\*\s*` of the line removed; these two alternatives
carry no `^` and are tried at every position. -/
def removeFirstBullet : List Char → List Char
  | [] => []
  | c :: t => if c = '-' || c = '*' then t.dropWhile isWs else c :: removeFirstBullet t

/-- `line.replace(/^\d+\.\s*|-\s*|\*\s*/, '')`: the first match removed. -/
def removeMarker (line : List Char) : List Char :=
  match numberMarker line with
  | some rest => rest
  | none => removeFirstBullet line

/-- `extractTopics(text)` (lines 1135-1142). -/
def extractTopics (text : List Char) : List (List Char) :=
  if trim text = [] then []
  else ((splitLines text).map fun line => removeMarker (trim line)).filter fun line =>
    decide (line.length > 0)

/-- A pattern of letters and spaces under the `i` flag at the head of the
text: what follows it. -/
def stripPrefixCI : List Char → List Char → Option (List Char)
  | [], s => some s
  | _ :: _, [] => none
  | p :: ps, c :: s => if p.toLower = c.toLower then stripPrefixCI ps s else none

/-- The text that follows the leftmost occurrence of the pattern. -/
def afterFirstCI (name : List Char) : List Char → Option (List Char)
  | [] => stripPrefixCI name []
  | c :: t =>
    match stripPrefixCI name (c :: t) with
    | some rest => some rest
    | none => afterFirstCI name t

/-- The look-ahead `(?=\n[A-Z][a-z]|$)` under the `i` flag, which makes both
classes `[A-Za-z]`. -/
def atSectionEnd : List Char → Bool
  | [] => true
  | c :: a :: b :: _ => c = '\n' && isLetterCI a && isLetterCI b
  | _ => false

/-- The lazy group `([\s\S]*?)` in front of that look-ahead: the shortest
capture after which it holds. -/
def captureSection : List Char → List Char
  | [] => []
  | c :: t => if atSectionEnd (c :: t) then [] else c :: captureSection t

/-- `:?\s*\n?` at the head of the text, taken greedily: what follows. -/
def skipColonAndSpace (s : List Char) : List Char :=
  (match s with
   | ':' :: rest => rest
   | _ => s).dropWhile isWs

/-- `matchSection(sectionName)` (lines 1113-1117) for a name made of letters
and spaces, with the pattern
`sectionName:?\s*\n?([\s\S]*?)(?=\n[A-Z][a-z]|$)` and the flag `i`. -/
def matchSection (text : List Char) (sectionName : String) : List (List Char) :=
  match afterFirstCI sectionName.toList text with
  | some rest => extractTopics (captureSection (skipColonAndSpace rest))
  | none => []

/-- The object built by `extractFeedbackFromText`. -/
structure Feedback where
  strengths : List (List Char)
  areasForImprovement : List (List Char)
  missingConcepts : List (List Char)
  topicsToImprove : List (List Char)
  subjectArea : List Char
deriving DecidableEq, Repr

/-- `extractFeedbackFromText(text)` (lines 1103-1132). -/
def extractFeedbackFromText (text : List Char) : Feedback :=
  { strengths := matchSection text "Strengths"
    areasForImprovement := matchSection text "Areas for Improvement"
    missingConcepts := matchSection text "Missing Concepts"
    topicsToImprove := matchSection text "Topics to Study"
    subjectArea :=
      match afterFirstCI "Subject Area".toList text with
      | some rest =>
        match trim (skipColonAndSpace rest) with
        | [] => "General academics".toList
        | c :: cs => c :: cs
      | none => "General academics".toList }

/-- The array of strings as a JSON value. -/
def stringArray (items : List (List Char)) : Json := .arr (items.map Json.str)

/-- The object of `extractFeedbackFromText` as a value. -/
def Feedback.toJson (f : Feedback) : Json :=
  .obj [("strengths".toList, stringArray f.strengths),
    ("areasForImprovement".toList, stringArray f.areasForImprovement),
    ("missingConcepts".toList, stringArray f.missingConcepts),
    ("topicsToImprove".toList, stringArray f.topicsToImprove),
    ("subjectArea".toList, .str f.subjectArea)]

/-- Where `feedbackData` comes from at line 880. -/
inductive LadderResult where
  /-- Line 852: the whole trimmed text parsed. -/
  | direct (value : Json)
  /-- Line 865: the fenced block or brace span parsed. -/
  | fromMatch (value : Json)
  /-- Line 870: neither pattern matched, manual extraction. -/
  | manual (feedback : Feedback)
  /-- Line 876: parsing the matched text threw, manual extraction. -/
  | manualAfterError (feedback : Feedback)
deriving DecidableEq, Repr

/-- The `try`/`catch` ladder of lines 850-879, with `JSON.parse` as `parse`. -/
def extractionLadder (parse : List Char → Option Json) (text : List Char) : LadderResult :=
  match parse (trim text) with
  | some value => .direct value
  | none =>
    match jsonMatchString text with
    | some jsonStr =>
      match parse (trim jsonStr) with
      | some value => .fromMatch value
      | none => .manualAfterError (extractFeedbackFromText text)
    | none => .manual (extractFeedbackFromText text)

/-- `feedbackData` at line 880. -/
def LadderResult.feedbackData : LadderResult → Json
  | .direct value => value
  | .fromMatch value => value
  | .manual feedback => feedback.toJson
  | .manualAfterError feedback => feedback.toJson

/-! ## The formatted record: lines 1012-1024 of `getAIFeedback` -/

/-- The truth value of a JSON value. -/
def Json.truthy : Json → Bool
  | .null => false
  | .bool b => b
  | .num mantissa _ => mantissa != 0
  | .str s => s != []
  | .arr _ => true
  | .obj _ => true

/-- The value of the last member named `key`: a repeated name overwrites. -/
def lookupMember (key : List Char) : List (List Char × Json) → Option Json
  | [] => none
  | (k, v) :: rest =>
    match lookupMember key rest with
    | some later => some later
    | none => if k = key then some v else none

/-- `value.key` for one of the five field names of the schema (none of them a
built-in property) on a value other than `null`; `none` is `undefined`. -/
def Json.field (value : Json) (key : String) : Option Json :=
  match value with
  | .obj members => lookupMember key.toList members
  | _ => none

/-- `Array.isArray(v) ? v : [v || placeholder]`. -/
def formatListField (value : Option Json) (placeholder : String) : List Json :=
  match value with
  | some (.arr items) => items
  | some v => if v.truthy then [v] else [.str placeholder.toList]
  | none => [.str placeholder.toList]

/-- The object `formattedFeedback`. -/
structure FormattedFeedback where
  strengths : List Json
  areasForImprovement : List Json
  missingConcepts : List Json
  topicsToImprove : List Json
  subjectArea : Option Json
  educationalLevel : Json
deriving DecidableEq, Repr

/-- Lines 1012-1024 on `feedbackData` and `subjectData.educationalLevel`;
reading a property of `null` throws. -/
def formattedFeedback (feedbackData : Json) (educationalLevel : Option Json) :
    Outcome FormattedFeedback :=
  match feedbackData with
  | .null => .throws .typeError
  | _ =>
    .returns
      { strengths := formatListField (feedbackData.field "strengths")
          "Good attempt at answering the question"
        areasForImprovement := formatListField (feedbackData.field "areasForImprovement")
          "Work on being more specific in your answers"
        missingConcepts := formatListField (feedbackData.field "missingConcepts")
          "Some key concepts from the reference answer are missing"
        topicsToImprove := formatListField (feedbackData.field "topicsToImprove")
          "Core subject fundamentals"
        subjectArea := feedbackData.field "subjectArea"
        educationalLevel :=
          match educationalLevel with
          | some v => if v.truthy then v else .str "Unknown".toList
          | none => .str "Unknown".toList }

/-! ## Predicates and example texts for the extraction ladder -/

/-- No fence begins inside the text when a fence follows it: the text holds no
three backticks in a row and does not end in a backtick. -/
def fenceFree : List Char → Bool
  | [] => true
  | c :: t => !fence.isPrefixOf (c :: t ++ fence) && fenceFree t

/-- The value lacks the four list keys and `subjectArea`. -/
def lacksExpectedKeys (value : Json) : Bool :=
  (value.field "strengths").isNone && (value.field "areasForImprovement").isNone &&
    (value.field "missingConcepts").isNone && (value.field "topicsToImprove").isNone &&
    (value.field "subjectArea").isNone

/-- The five-field record as a model would answer it. -/
def fiveFieldText : List Char :=
  ("\x7b\"strengths\":[\"a\"],\"areasForImprovement\":[\"b\"],\"missingConcepts\":[\"c\"]," ++
    "\"topicsToImprove\":[\"d\"],\"subjectArea\":\"Math\"\x7d").toList

/-- The value of `fiveFieldText`. -/
def fiveFieldRecord : Json :=
  .obj [("strengths".toList, .arr [.str "a".toList]),
    ("areasForImprovement".toList, .arr [.str "b".toList]),
    ("missingConcepts".toList, .arr [.str "c".toList]),
    ("topicsToImprove".toList, .arr [.str "d".toList]),
    ("subjectArea".toList, .str "Math".toList)]

/-- Prose with the two headings `Strengths` and `Areas for Improvement`. -/
def twoHeadingProse : List Char :=
  "Strengths:\n- a\n- b\nAreas for Improvement:\n- c".toList

/-- A complete JSON object without any of the expected keys. -/
def keylessText : List Char := "\x7b\"foo\":1\x7d".toList

/-- The value of `keylessText`. -/
def keylessValue : Json := .obj [("foo".toList, .num 1 0)]

/-- The object `keylessText` between two words of prose. -/
def keylessInProse : List Char := "Result: \x7b\"foo\":1\x7d end".toList

/-- A complete JSON object followed by prose that holds a closing brace. -/
def objectThenBrace : List Char := "\x7b\"a\":1\x7d and \x7d".toList

/-- A section whose second line starts with two lower-case letters. -/
def lowercaseLineSection : List Char := "Strengths:\n- a\nalso good\n- b".toList

/-! ## Predicates on the state and on the records -/

/-- The record has a run of digits as number and a non-empty answer without a
line feed. -/
def WellFormedRecord (r : AnswerRecord) : Prop :=
  IsNumeral r.questionNumber ∧ r.answer ≠ [] ∧ '\n' ∉ r.answer

/-- The variables before the first line, except for `previousLineWasEmpty`. -/
def SegState.blank (afterBlank : Bool) : SegState :=
  { SegState.initial with previousLineWasEmpty := afterBlank }

/-- The records pushed when the lines `entries` are read from the state `st`
and the last open question is closed. -/
def recordsFrom (hasLayout : Bool) (thr : Option Int) (st : SegState)
    (entries : List (List Char × Option Int)) : List AnswerRecord :=
  closeOpenQuestion (entries.foldl (processLine hasLayout thr) st) none

/-! ## `checkIfGenericFeedback`: lines 1043-1100 -/

/-- One character under `String.prototype.toLowerCase`.  Outside ASCII only
the Kelvin sign and the dotted capital I have a lower-case form that holds an
ASCII letter; every other character outside ASCII is kept as it is, since its
lower-case form holds no ASCII character and the strings are only searched
for ASCII phrases. -/
def lowerChar (c : Char) : List Char :=
  if isUpper c then [Char.ofNat (c.toNat + 32)]
  else if c.toNat = 0x212A then ['k']
  else if c.toNat = 0x130 then ['i', Char.ofNat 0x307]
  else [c]

/-- `s.toLowerCase()`. -/
def toLowerCase (s : List Char) : List Char := (s.map lowerChar).flatten

/-- `s.includes(phrase)`: the phrase starts at some position of `s`. -/
def includes : List Char → List Char → Bool
  | [], phrase => phrase.isEmpty
  | c :: t, phrase => phrase.isPrefixOf (c :: t) || includes t phrase

/-- `genericPhrases` (lines 1047-1052). -/
def genericPhrases : List (List Char) :=
  ["good attempt", "well done", "nice try", "good understanding",
   "review the", "study more", "practice more", "be more specific",
   "pay attention", "focus on", "general understanding", "basic concepts",
   "core concepts", "fundamental principles", "key points"].map String.toList

/-- The test `genericPhrases.some(phrase => entry.toLowerCase().includes(phrase))`
of the four `forEach` callbacks.  An entry that is not a string has no method
`toLowerCase` (or is `null`): the call throws a `TypeError`. -/
def isGenericEntry : Json → Outcome Bool
  | .str s => .returns (genericPhrases.any fun phrase => includes (toLowerCase s) phrase)
  | _ => .throws .typeError

/-- One `forEach` loop over the entries of a list field: `genericCount` after
the loop. -/
def countGeneric (genericCount : Nat) : List Json → Outcome Nat
  | [] => .returns genericCount
  | entry :: rest =>
    match isGenericEntry entry with
    | .throws e => .throws e
    | .returns b => countGeneric (if b then genericCount + 1 else genericCount) rest

/-- One of the four blocks of lines 1059-1096 on `(genericCount, totalPhrases)`:
a field that is not an array is skipped. -/
def checkField (feedback : Json) (key : String) (counts : Nat × Nat) : Outcome (Nat × Nat) :=
  match feedback.field key with
  | some (.arr items) =>
    match countGeneric counts.1 items with
    | .throws e => .throws e
    | .returns genericCount => .returns (genericCount, counts.2 + items.length)
  | _ => .returns counts

/-- `checkIfGenericFeedback(feedback)`; `none` is `undefined`.  The quotient of
the two counts is compared with one half as a rational number: the counts are
array lengths, far below the size at which a double quotient could round onto
0.5. -/
def checkIfGenericFeedback (feedback : Option Json) : Outcome Bool :=
  match feedback with
  | none => .returns true
  | some f =>
    if !f.truthy then .returns true
    else
      match checkField f "strengths" (0, 0) with
      | .throws e => .throws e
      | .returns c1 =>
        match checkField f "areasForImprovement" c1 with
        | .throws e => .throws e
        | .returns c2 =>
          match checkField f "missingConcepts" c2 with
          | .throws e => .throws e
          | .returns c3 =>
            match checkField f "topicsToImprove" c3 with
            | .throws e => .throws e
            | .returns c4 =>
              .returns (decide (c4.2 > 0) && decide ((c4.1 : Rat) / (c4.2 : Rat) > 1 / 2))

/-! ## The retry and the subject area: lines 882-1010 of `getAIFeedback` -/

/-- `retryData.key` as a truth value. -/
def fieldTruthy (value : Json) (key : String) : Bool :=
  match value.field key with
  | some v => v.truthy
  | none => false

/-- The test of lines 928 and 939 on the parsed retry answer: the value that
replaces `feedbackData`, if the four list fields are truthy.  Reading a
property of `null` throws. -/
def acceptRetry (retryData : Json) : Outcome (Option Json) :=
  match retryData with
  | .null => .throws .typeError
  | v =>
    .returns
      (if fieldTruthy v "strengths" && fieldTruthy v "areasForImprovement" &&
          fieldTruthy v "missingConcepts" && fieldTruthy v "topicsToImprove"
       then some v else none)

/-- The `catch` block of lines 932-947: the two patterns on the retry text; an
error of the inner `try` is caught at line 943 and changes nothing. -/
def retryFromMatch (parse : List Char → Option Json) (retryText : List Char) : Option Json :=
  match jsonMatchString retryText with
  | some jsonStr =>
    match parse (trim jsonStr) with
    | some retryData =>
      match acceptRetry retryData with
      | .returns replacement => replacement
      | .throws _ => none
    | none => none
  | none => none

/-- Lines 925-947: the value that replaces `feedbackData`, if any.  An error
of the `try` block, from `JSON.parse` or from reading a property of `null`, is
caught at line 932. -/
def retryReplacement (parse : List Char → Option Json) (retryText : List Char) :
    Option Json :=
  match parse (trim retryText) with
  | some retryData =>
    match acceptRetry retryData with
    | .returns replacement => replacement
    | .throws _ => retryFromMatch parse retryText
  | none => retryFromMatch parse retryText

/-- `feedbackData` after lines 882-951.  `retryResponse` is the text of the
retry answer, `none` when the retry call fails (caught at line 948). -/
def afterRetry (parse : List Char → Option Json) (retryResponse : Option (List Char))
    (feedbackData : Json) : Outcome Json :=
  match checkIfGenericFeedback (some feedbackData) with
  | .throws e => .throws e
  | .returns false => .returns feedbackData
  | .returns true =>
    match retryResponse with
    | none => .returns feedbackData
    | some retryText => .returns ((retryReplacement parse retryText).getD feedbackData)

/-- The last three tests of lines 954-957 and the tests of lines 963-965 on a
string. -/
def isGeneralText (s : List Char) : Bool :=
  s = "General academics".toList || s = "General".toList ||
    includes (toLowerCase s) "general".toList

/-- The condition of lines 954-957.  Reading `subjectArea` of `null` throws; a
truthy value that is not a string has no method `toLowerCase`. -/
def subjectMissingOrGeneric (feedbackData : Json) : Outcome Bool :=
  match feedbackData with
  | .null => .throws .typeError
  | _ =>
    match feedbackData.field "subjectArea" with
    | none => .returns true
    | some (.str s) => .returns (s = [] || isGeneralText s)
    | some v => if v.truthy then .throws .typeError else .returns true

/-- `feedbackData.subjectArea = value` in a script that is not in strict mode:
an object gets the property; an array gets it as well, and since only the five
field names are read from here on, it is then written as the object that holds
just this property; on a number, a string or a boolean the assignment does
nothing. -/
def setSubjectArea (feedbackData : Json) (value : Json) : Json :=
  match feedbackData with
  | .obj members => .obj (members ++ [("subjectArea".toList, value)])
  | .arr _ => .obj [("subjectArea".toList, value)]
  | other => other

/-- The condition of lines 963-965: `toLowerCase` of `undefined`, of `null` or
of another value that is not a string throws. -/
def subjectStillGeneric (feedbackData : Json) : Outcome Bool :=
  match feedbackData.field "subjectArea" with
  | some (.str s) => .returns (isGeneralText s)
  | _ => .throws .typeError

/-- `subjectIndicators` (lines 976-984), in the order of `Object.entries`. -/
def subjectIndicators : List (String × List String) :=
  [("Mathematics", ["equation", "formula", "calculation", "theorem", "proof", "function",
      "variable"]),
   ("Physics", ["force", "energy", "motion", "particle", "quantum", "relativity", "momentum"]),
   ("Chemistry", ["reaction", "compound", "molecule", "element", "bond", "acid", "base"]),
   ("Biology", ["cell", "organism", "species", "evolution", "gene", "protein", "ecosystem"]),
   ("History", ["century", "period", "war", "civilization", "empire", "revolution",
      "dynasty"]),
   ("Literature", ["author", "novel", "poem", "character", "theme", "narrative", "literary"]),
   ("Computer Science", ["algorithm", "code", "programming", "data structure", "function",
      "variable", "class"])]

/-- The class `\w`. -/
def isWordChar (c : Char) : Bool := isLetterCI c || isDigit c || c = '_'

/-- `\bindicator\b` under the flag `i` at the head of the text, where
`prevIsWord` tells whether a word character stands in front: the indicator
starts and ends with a letter. -/
def wordAt (indicator : List Char) (prevIsWord : Bool) (s : List Char) : Bool :=
  !prevIsWord &&
    (match stripPrefixCI indicator s with
     | some [] => true
     | some (c :: _) => !isWordChar c
     | none => false)

/-- `text.match(/\bindicator\b/gi)`: the number of matches.  After a match the
search goes on behind it: `skip` characters are passed over. -/
def countMatches (indicator : List Char) (prevIsWord : Bool) (skip : Nat) : List Char → Nat
  | [] => 0
  | c :: t =>
    match skip with
    | k + 1 => countMatches indicator (isWordChar c) k t
    | 0 =>
      if wordAt indicator prevIsWord (c :: t) then
        1 + countMatches indicator (isWordChar c) (indicator.length - 1) t
      else countMatches indicator (isWordChar c) 0 t

mutual
/-- `String(value)`, with `numberText` for a number. -/
def Json.text (numberText : Int → Int → List Char) : Json → List Char
  | .null => "null".toList
  | .bool b => if b then "true".toList else "false".toList
  | .num mantissa exponent => numberText mantissa exponent
  | .str s => s
  | .arr items => Json.textJoin numberText items
  | .obj _ => "[object Object]".toList
/-- `items.join(',')`: `null` gives the empty string. -/
def Json.textJoin (numberText : Int → Int → List Char) : List Json → List Char
  | [] => []
  | [.null] => []
  | [item] => Json.text numberText item
  | .null :: rest => ',' :: Json.textJoin numberText rest
  | item :: rest => Json.text numberText item ++ ',' :: Json.textJoin numberText rest
end

/-- An element inside `Array.prototype.join`: `null` gives the empty string. -/
def joinElement (numberText : Int → Int → List Char) (value : Json) : List Char :=
  match value with
  | .null => []
  | v => v.text numberText

/-- `Array.isArray(feedbackData.key) ? feedbackData.key : []`. -/
def listEntries (feedbackData : Json) (key : String) : List Json :=
  match feedbackData.field key with
  | some (.arr items) => items
  | _ => []

/-- `allFeedbackText` (lines 968-973). -/
def allFeedbackText (numberText : Int → Int → List Char) (feedbackData : Json) : List Char :=
  joinSpace
    ((listEntries feedbackData "strengths" ++ listEntries feedbackData "areasForImprovement" ++
      listEntries feedbackData "missingConcepts" ++
      listEntries feedbackData "topicsToImprove").map (joinElement numberText))

/-- `count` of lines 991-998 for one subject. -/
def indicatorCount (text : List Char) (indicators : List String) : Nat :=
  (indicators.map fun indicator => countMatches indicator.toList false 0 text).sum

/-- `(bestSubject, maxCount)` after the loop of lines 990-1004. -/
def bestSubject (text : List Char) : String × Nat :=
  subjectIndicators.foldl
    (fun best entry =>
      if indicatorCount text entry.2 > best.2 then (entry.1, indicatorCount text entry.2)
      else best)
    ("", 0)

/-- The subject assigned at line 1007, if the test of line 1006 holds. -/
def inferredSubject (text : List Char) : Option String :=
  if (bestSubject text).1 ≠ "" ∧ (bestSubject text).2 ≥ 3 then some (bestSubject text).1
  else none

/-- What the calls of the language model give to lines 848-1024:
`detectedSubjectArea` (a string: a template literal or a string field of
`subjectData`), `subjectData.educationalLevel`, the text of the answer, and the
text of the retry answer, `none` when the retry call fails. -/
structure ModelCalls where
  detectedSubjectArea : List Char
  educationalLevel : Option Json
  response : List Char
  retryResponse : Option (List Char)

/-- `feedbackData` after lines 850-951: the ladder, then the retry. -/
def extractedData (parse : List Char → Option Json) (calls : ModelCalls) : Outcome Json :=
  afterRetry parse calls.retryResponse (extractionLadder parse calls.response).feedbackData

/-- `feedbackData` at line 1012. -/
def finalFeedbackData (parse : List Char → Option Json)
    (numberText : Int → Int → List Char) (calls : ModelCalls) : Outcome Json :=
  match extractedData parse calls with
  | .throws e => .throws e
  | .returns data =>
    match subjectMissingOrGeneric data with
    | .throws e => .throws e
    | .returns replace =>
      let adopted :=
        if replace then setSubjectArea data (.str calls.detectedSubjectArea) else data
      match subjectStillGeneric adopted with
      | .throws e => .throws e
      | .returns false => .returns adopted
      | .returns true =>
        match inferredSubject (allFeedbackText numberText adopted) with
        | some subject => .returns (setSubjectArea adopted (.str subject.toList))
        | none => .returns adopted

/-- The record returned by the `catch` block of lines 1028-1039. -/
def errorFeedback : FormattedFeedback :=
  { strengths := [.str "Attempted to answer the question".toList]
    areasForImprovement := [.str "Review the reference answer for guidance".toList]
    missingConcepts := [.str "Could not analyze missing concepts due to an error".toList]
    topicsToImprove :=
      [.str "General subject knowledge".toList, .str "Foundational concepts".toList]
    subjectArea := some (.str "General academics".toList)
    educationalLevel := .str "Unknown".toList }

/-- The record returned by `getAIFeedback`, from line 848 on.  `calls` is `none`
when a statement before line 848 throws (a call of the model fails); every
error is caught at line 1028. -/
def getAIFeedback (parse : List Char → Option Json) (numberText : Int → Int → List Char)
    (calls : Option ModelCalls) : FormattedFeedback :=
  match calls with
  | none => errorFeedback
  | some c =>
    match finalFeedbackData parse numberText c with
    | .throws _ => errorFeedback
    | .returns data =>
      match formattedFeedback data c.educationalLevel with
      | .returns record => record
      | .throws _ => errorFeedback

/-! ## Predicates on feedback records -/

/-- The entries of the four list fields, in the order the function reads
them. -/
def feedbackPool (feedback : Json) : List Json :=
  listEntries feedback "strengths" ++ listEntries feedback "areasForImprovement" ++
    listEntries feedback "missingConcepts" ++ listEntries feedback "topicsToImprove"

/-- The string holds a phrase of the bank, upper and lower case taken as the
same. -/
def ContainsBankPhrase (entry : List Char) : Prop :=
  ∃ phrase ∈ genericPhrases, phrase <:+: toLowerCase entry

instance (entry : List Char) : Decidable (ContainsBankPhrase entry) :=
  inferInstanceAs (Decidable (∃ phrase ∈ genericPhrases, phrase <:+: toLowerCase entry))

/-- The entry is a string that holds a phrase of the bank. -/
def isBoilerplate : Json → Bool
  | .str s => decide (ContainsBankPhrase s)
  | _ => false

/-- The value is a string. -/
def Json.isString : Json → Bool
  | .str _ => true
  | _ => false

/-- The four names of the list fields with their placeholders (lines
1014-1021). -/
def placeholders : List (String × String) :=
  [("strengths", "Good attempt at answering the question"),
   ("areasForImprovement", "Work on being more specific in your answers"),
   ("missingConcepts", "Some key concepts from the reference answer are missing"),
   ("topicsToImprove", "Core subject fundamentals")]

/-- A response whose `subjectArea` is a number. -/
def numericSubjectText : List Char :=
  "\x7b\"strengths\":[\"a\"],\"subjectArea\":5\x7d".toList

/-- The list field of the returned record with the given name. -/
def FormattedFeedback.listField (record : FormattedFeedback) (key : String) : List Json :=
  if key = "strengths" then record.strengths
  else if key = "areasForImprovement" then record.areasForImprovement
  else if key = "missingConcepts" then record.missingConcepts
  else record.topicsToImprove

/-- A response whose field `strengths` is the empty string. -/
def emptyStrengthsText : List Char :=
  ("\x7b\"strengths\":\"\",\"areasForImprovement\":[\"b\"],\"missingConcepts\":[\"c\"]," ++
    "\"topicsToImprove\":[\"d\"],\"subjectArea\":\"Math\"\x7d").toList

/-- A response whose field `strengths` is a single string. -/
def singleStrengthText : List Char :=
  ("\x7b\"strengths\":\"clear\",\"areasForImprovement\":[\"b\"],\"missingConcepts\":[\"c\"]," ++
    "\"topicsToImprove\":[\"d\"],\"subjectArea\":\"Math\"\x7d").toList

/-- A record with two boilerplate entries out of three. -/
def mostlyBoilerplate : Json :=
  .obj [("strengths".toList, .arr [.str "Good attempt overall".toList, .str "Well done".toList]),
    ("areasForImprovement".toList, .arr [.str "Define entropy".toList])]

/-! ## `extractMistralFeedback`: the similarity score (lines 1433-1462) -/

/-- `(\d+(?:\.\d+)?)` at the head of `s`: the capture and what follows it.  A
point counts only when a digit follows it. -/
def decimalAt (s : List Char) : Option (List Char × List Char) :=
  match s.takeWhile isDigit, s.dropWhile isDigit with
  | [], _ => none
  | d :: ds, '.' :: rest =>
    (match rest.takeWhile isDigit with
     | [] => some (d :: ds, '.' :: rest)
     | f :: fs => some (d :: ds ++ '.' :: f :: fs, rest.dropWhile isDigit))
  | d :: ds, rest => some (d :: ds, rest)

/-- A label under the flag `i`, a colon (required, or optional as `:?`), `\s*`
and the number, at the head of `s`: the capture. -/
def labelledScoreAt (label : List Char) (colonRequired : Bool) (s : List Char) :
    Option (List Char) :=
  match stripPrefixCI label s with
  | none => none
  | some (':' :: rest) => (decimalAt (rest.dropWhile isWs)).map Prod.fst
  | some rest =>
    if colonRequired then none else (decimalAt (rest.dropWhile isWs)).map Prod.fst

/-- `response.match(...)` for one of the three score patterns: the capture of
the leftmost match. -/
def searchScore (label : List Char) (colonRequired : Bool) : List Char → Option (List Char)
  | [] => none
  | c :: t =>
    match labelledScoreAt label colonRequired (c :: t) with
    | some capture => some capture
    | none => searchScore label colonRequired t

/-- `scoreMatch[1]` of lines 1437-1439: the three patterns in turn. -/
def scoreMatch (response : List Char) : Option (List Char) :=
  match searchScore "SIMILARITY_SCORE".toList true response with
  | some capture => some capture
  | none =>
    match searchScore "similarity score".toList false response with
    | some capture => some capture
    | none => searchScore "score".toList false response

/-- `(?:\/100|percent|%)` at the head of `s`: the text matched. -/
def percentSuffix (s : List Char) : Option (List Char) :=
  if "/100".toList.isPrefixOf s then some "/100".toList
  else if "percent".toList.isPrefixOf s then some "percent".toList
  else if "%".toList.isPrefixOf s then some "%".toList
  else none

/-- `\b(\d{1,3}(?:\.\d+)?)\s*(?:\/100|percent|%)` at the head of `s`, where
`prevIsWord` tells whether a word character stands in front: the text matched.
The digits must be the whole run (a digit behind them fits nothing that
follows), so the run has at most three digits. -/
def percentAt (prevIsWord : Bool) (s : List Char) : Option (List Char) :=
  if prevIsWord || decide ((s.takeWhile isDigit).length > 3) then none
  else
    match decimalAt s with
    | some (number, rest) =>
      (match percentSuffix (rest.dropWhile isWs) with
       | some suffix => some (number ++ rest.takeWhile isWs ++ suffix)
       | none => none)
    | none => none

/-- `numberMatches[0]` of line 1451: the leftmost match of the percentage
pattern. -/
def searchPercent (prevIsWord : Bool) : List Char → Option (List Char)
  | [] => none
  | c :: t =>
    match percentAt prevIsWord (c :: t) with
    | some matched => some matched
    | none => searchPercent (isWordChar c) t

/-- `firstScore[1]` of line 1454: the first number in the text. -/
def firstNumber : List Char → Option (List Char)
  | [] => none
  | c :: t =>
    match decimalAt (c :: t) with
    | some (capture, _) => some capture
    | none => firstNumber t

/-- The number that the decimal literal `digits` or `digits.digits` denotes. -/
def decimalValue (s : List Char) : Rat :=
  (digitsValue 0 (s.takeWhile isDigit ++ (s.dropWhile isDigit).drop 1) : Rat) /
    (10 : Rat) ^ ((s.dropWhile isDigit).drop 1).length

/-- `parseFloat(s)` on such a literal: its value rounded to a double.  The
rounding is `toDouble`; for a literal beyond the largest double it stands for
`Infinity`, of which the code only asks whether it exceeds 100. -/
def parseFloat (toDouble : Rat → Rat) (s : List Char) : Rat := toDouble (decimalValue s)

/-- `Math.max(0, Math.min(100, x))`. -/
def clampScore (x : Rat) : Rat := max 0 (min 100 x)

/-- `similarityScore` at line 1462, for a response that is a string. -/
def similarityScore (toDouble : Rat → Rat) (response : List Char) : Rat :=
  match scoreMatch response with
  | some capture => clampScore (parseFloat toDouble capture)
  | none =>
    match searchPercent false response with
    | some matched =>
      (match firstNumber matched with
       | some capture => clampScore (parseFloat toDouble capture)
       | none => 0)
    | none => 0

/-- The response holds a score pattern: the word `score` in upper or lower
case, a colon or none, white space or none, and a digit. -/
def HasScorePattern (response : List Char) : Prop :=
  ∃ pre label colon ws d rest, response = pre ++ label ++ colon ++ ws ++ d :: rest ∧
    label.map Char.toLower = "score".toList ∧ (colon = [] ∨ colon = [':']) ∧
    (∀ c ∈ ws, isWs c = true) ∧ isDigit d = true

/-- The response holds a number that looks like a percentage: one to three
digits that no word character precedes, a fraction or none, white space or
none, and `/100`, `percent` or `%`. -/
def HasPercentNumber (response : List Char) : Prop :=
  ∃ pre ds frac ws suffix rest, response = pre ++ ds ++ frac ++ ws ++ suffix ++ rest ∧
    (∀ c, pre.getLast? = some c → isWordChar c = false) ∧
    IsNumeral ds ∧ ds.length ≤ 3 ∧
    (frac = [] ∨ ∃ fs, IsNumeral fs ∧ frac = '.' :: fs) ∧
    (∀ c ∈ ws, isWs c = true) ∧
    (suffix = "/100".toList ∨ suffix = "percent".toList ∨ suffix = "%".toList)

/-! ## The first pass returns -/

theorem lineIndentation_returns (blocks : List Annotation) (h : BoxesHaveCorners blocks)
    (raw : List Char) : ∃ v, lineIndentation blocks raw = .returns v := by
  unfold lineIndentation
  by_cases ht : trim raw = []
  · exact ⟨none, by simp [ht]⟩
  · simp only [ht, if_false]
    cases hf : blocks.find? (fun b => trim b.description = trim raw) with
    | none => exact ⟨none, rfl⟩
    | some b =>
      have hb : b ∈ blocks := List.mem_of_find?_eq_some hf
      have hv := h b hb
      unfold hasEmptyVertices at hv
      cases hp : b.boundingPoly with
      | none => exact ⟨none, by simp [hp]⟩
      | some p =>
        rw [hp] at hv
        cases hvs : p.vertices with
        | none => exact ⟨none, by simp [hp, hvs]⟩
        | some vs =>
          simp only [hvs] at hv
          cases vs with
          | nil => simp at hv
          | cons v vs => exact ⟨some v.x, by simp [hp, hvs]⟩

theorem collectIndentations_returns (blocks : List Annotation)
    (h : BoxesHaveCorners blocks) :
    ∀ lines, ∃ vs, collectIndentations blocks lines = .returns vs
  | [] => ⟨[], rfl⟩
  | raw :: rest => by
    obtain ⟨v, hv⟩ := lineIndentation_returns blocks h raw
    obtain ⟨vs, hvs⟩ := collectIndentations_returns blocks h rest
    exact ⟨v :: vs, by simp [collectIndentations, hv, hvs]⟩

theorem lineIndentations_returns (blocks : List Annotation)
    (h : BoxesHaveCorners blocks) (lines : List (List Char)) :
    ∃ vs, lineIndentations blocks lines = .returns vs := by
  unfold lineIndentations
  split
  · exact collectIndentations_returns blocks h lines
  · exact ⟨_, rfl⟩

theorem segment_returns (fullText : List Char) (blocks : List Annotation)
    (h : BoxesHaveCorners blocks) : ∃ records, segment fullText blocks = .returns records := by
  obtain ⟨vs, hvs⟩ := lineIndentations_returns blocks h (splitLines fullText)
  refine ⟨emittedRecords (hasLayoutInfo blocks) (leftMarginThreshold blocks)
    ((splitLines fullText).zip vs), ?_⟩
  simp [segment, hvs]

/-- A call that returns on a non-empty array returns `success: true`. -/
theorem extract_cons_success (first : Annotation) (blocks : List Annotation) (r : SegResult)
    (h : extractQuestionsAndAnswers (some (first :: blocks)) = .returns r) :
    r.success = true := by
  unfold extractQuestionsAndAnswers at h
  cases hs : segment first.description blocks with
  | throws e => simp [hs] at h
  | returns records =>
    simp [hs] at h
    rw [← h]

/-! ## Facts about the numbered-line pattern -/

theorem isNumeral_takeWhile (s : List Char) (d : Char) (ds : List Char)
    (h : s.takeWhile isDigit = d :: ds) : IsNumeral (d :: ds) := by
  refine ⟨List.cons_ne_nil _ _, ?_⟩
  intro c hc
  rw [← h] at hc
  exact List.mem_takeWhile_imp hc

theorem digitsThenTerminator_numeral (s g post : List Char)
    (h : digitsThenTerminator s = some (g, post)) : IsNumeral g := by
  unfold digitsThenTerminator at h
  split at h
  · simp at h
  · simp at h
  · rename_i d ds c rest htake hdrop
    split at h
    · simp only [Option.some.injEq, Prod.mk.injEq] at h
      rw [← h.1]
      exact isNumeral_takeWhile s d ds htake
    · simp at h

theorem alt1_numeral (s g post : List Char) (h : alt1 s = some (g, post)) : IsNumeral g := by
  unfold alt1 at h
  obtain ⟨r, _, hr⟩ := List.exists_of_findSome?_eq_some h
  exact digitsThenTerminator_numeral r g post hr

theorem alt2_numeral (s g post : List Char) (h : alt2 s = some (g, post)) : IsNumeral g := by
  unfold alt2 at h
  split at h
  · rename_i t _
    split at h
    · rename_i d ds rest htake hdrop
      simp only [Option.some.injEq, Prod.mk.injEq] at h
      rw [← h.1]
      exact isNumeral_takeWhile t d ds htake
    · simp at h
  · simp at h

theorem alt3_numeral (s g post : List Char) (h : alt3 s = some (g, post)) : IsNumeral g := by
  unfold alt3 at h
  simp only at h
  split at h
  · simp at h
  · simp at h
  · rename_i d ds c rest htake hdrop
    have hnum := isNumeral_takeWhile _ d ds htake
    split at h
    · simp only [Option.some.injEq, Prod.mk.injEq] at h
      rw [← h.1]; exact hnum
    · split at h
      · split at h
        · split at h
          · simp only [Option.some.injEq, Prod.mk.injEq] at h
            rw [← h.1]; exact hnum
          · simp at h
        · simp at h
      · simp at h

theorem searchAlt23_nil (pre : List Char) : searchAlt23 pre [] = none := rfl

theorem searchAlt23_cons (pre : List Char) (c : Char) (t : List Char) :
    searchAlt23 pre (c :: t) =
      match alt2 (c :: t) with
      | some (g, post) => some ⟨pre, none, some g, none, post⟩
      | none =>
        match alt3 (c :: t) with
        | some (g, post) => some ⟨pre, none, none, some g, post⟩
        | none => searchAlt23 (pre ++ [c]) t := rfl

theorem searchAlt23_numeral (s : List Char) :
    ∀ (pre : List Char) (m : ReMatch), searchAlt23 pre s = some m →
      ∃ g, IsNumeral g ∧ m.number = some g := by
  induction s with
  | nil => intro pre m h; rw [searchAlt23_nil] at h; simp at h
  | cons c t ih =>
    intro pre m h
    rw [searchAlt23_cons] at h
    split at h
    · rename_i g post h2
      simp only [Option.some.injEq] at h
      have hnum := alt2_numeral _ g post h2
      refine ⟨g, hnum, ?_⟩
      obtain ⟨d, ds, rfl⟩ := List.exists_cons_of_ne_nil hnum.1
      rw [← h]
      simp only [ReMatch.number, orGroup]
    · split at h
      · rename_i g post h3
        simp only [Option.some.injEq] at h
        have hnum := alt3_numeral _ g post h3
        refine ⟨g, hnum, ?_⟩
        obtain ⟨d, ds, rfl⟩ := List.exists_cons_of_ne_nil hnum.1
        rw [← h]
        simp only [ReMatch.number, orGroup]
      · exact ih _ m h

/-- The number taken from a match is a non-empty run of digits, so
`match[1] || match[2] || match[3]` is never `undefined`. -/
theorem questionNumberMatch_numeral (line : List Char) (m : ReMatch)
    (h : questionNumberMatch line = some m) : ∃ g, IsNumeral g ∧ m.number = some g := by
  unfold questionNumberMatch at h
  split at h
  · rename_i g post h1
    simp only [Option.some.injEq] at h
    have hnum := alt1_numeral _ g post h1
    refine ⟨g, hnum, ?_⟩
    obtain ⟨d, ds, rfl⟩ := List.exists_cons_of_ne_nil hnum.1
    rw [← h]
    simp only [ReMatch.number, orGroup]
  · exact searchAlt23_numeral line [] m h

/-- A line that passes `/^\s*\d+\s+[A-Z]/` matches the first alternative of the
numbered-line pattern: its digits are followed by a white space. -/
theorem bareNumberCapital_matches (line : List Char) (h : bareNumberCapital line = true) :
    (questionNumberMatch line).isSome = true := by
  unfold bareNumberCapital at h
  simp only at h
  split at h
  · rename_i d ds w ws u rest htake hws hrest
    have hdrop : ((line.dropWhile isWs).dropWhile isDigit) ≠ [] := by
      intro hnil
      rw [hnil] at hws
      simp at hws
    obtain ⟨c, tl, hc⟩ := List.exists_cons_of_ne_nil hdrop
    have hcws : isWs c = true := by
      rw [hc] at hws
      by_cases hw : isWs c = true
      · exact hw
      · simp [List.takeWhile_cons, hw] at hws
    have hdt : digitsThenTerminator (line.dropWhile isWs) = some (d :: ds, tl) := by
      unfold digitsThenTerminator
      rw [htake, hc]
      simp [isNumberTerminator, hcws]
    have h1 : (alt1 line).isSome = true := by
      unfold alt1
      rw [List.findSome?_isSome_iff]
      refine ⟨line.dropWhile isWs, ?_, by rw [hdt]; rfl⟩
      unfold prefixRests
      simp [List.dropWhile_idempotent]
    unfold questionNumberMatch
    cases h1' : alt1 line with
    | none => rw [h1'] at h1; simp at h1
    | some gp => rfl
  · simp at h

/-! ## The simple patterns, as sets of strings -/

theorem char_le_iff (a b : Char) : a ≤ b ↔ a.toNat ≤ b.toNat := by
  rw [Char.le_def]
  exact Iff.rfl

theorem isDigit_iff (c : Char) : isDigit c = true ↔ (48 ≤ c.toNat ∧ c.toNat ≤ 57) := by
  unfold isDigit
  simp only [Bool.and_eq_true, decide_eq_true_eq, char_le_iff]
  exact Iff.rfl

theorem isUpper_iff (c : Char) : isUpper c = true ↔ (65 ≤ c.toNat ∧ c.toNat ≤ 90) := by
  unfold isUpper
  simp only [Bool.and_eq_true, decide_eq_true_eq, char_le_iff]
  exact Iff.rfl

/-- A digit is not a white space. -/
theorem isWs_of_isDigit (c : Char) (h : isDigit c = true) : isWs c = false := by
  rw [isDigit_iff] at h
  unfold isWs
  simp only [Bool.or_eq_false_iff, Bool.and_eq_false_iff, decide_eq_false_iff_not]
  omega

/-- A white space is not a digit. -/
theorem isDigit_of_isWs (c : Char) (h : isWs c = true) : isDigit c = false := by
  cases hd : isDigit c with
  | false => rfl
  | true => rw [isWs_of_isDigit c hd] at h; simp at h

/-- A capital letter is not a white space. -/
theorem isWs_of_isUpper (c : Char) (h : isUpper c = true) : isWs c = false := by
  rw [isUpper_iff] at h
  unfold isWs
  simp only [Bool.or_eq_false_iff, Bool.and_eq_false_iff, decide_eq_false_iff_not]
  omega

/-- A run of `p` followed by a character outside `p` is what `takeWhile` and
`dropWhile` split off. -/
theorem span_run {p : Char → Bool} (run : List Char) (c : Char) (rest : List Char)
    (hrun : ∀ x ∈ run, p x = true) (hc : p c = false) :
    (run ++ c :: rest).takeWhile p = run ∧ (run ++ c :: rest).dropWhile p = c :: rest := by
  constructor
  · rw [List.takeWhile_append_of_pos hrun, List.takeWhile_cons_of_neg (by simp [hc])]
    simp
  · rw [List.dropWhile_append_of_pos hrun, List.dropWhile_cons_of_neg (by simp [hc])]

/-- The split of a list into its leading run of `p` and the rest. -/
theorem exists_run (p : Char → Bool) (s : List Char) :
    s = s.takeWhile p ++ s.dropWhile p ∧ (∀ x ∈ s.takeWhile p, p x = true) ∧
      ∀ c rest, s.dropWhile p = c :: rest → p c = false := by
  refine ⟨(List.takeWhile_append_dropWhile p s).symm, fun x hx => List.mem_takeWhile_imp hx, ?_⟩
  intro c rest h
  have := List.head?_dropWhile_not p s
  rw [h] at this
  simpa using this

/-- `/^\s*\d+/` accepts the lines made of white space, a digit, anything. -/
theorem leadingNumber_iff (line : List Char) :
    leadingNumber line = true ↔
      ∃ ws0 d rest, line = ws0 ++ d :: rest ∧ (∀ c ∈ ws0, isWs c = true) ∧ isDigit d = true := by
  unfold leadingNumber
  constructor
  · intro h
    obtain ⟨hsplit, hws, _⟩ := exists_run isWs line
    split at h
    · rename_i c rest hdrop
      exact ⟨line.takeWhile isWs, c, rest, by rw [← hdrop]; exact hsplit, hws, h⟩
    · simp at h
  · rintro ⟨ws0, d, rest, rfl, hws, hd⟩
    rw [(span_run ws0 d rest hws (isWs_of_isDigit d hd)).2]
    exact hd

/-- `/^\s*\d+\s+[A-Z]/` accepts the lines made of white space, a numeral, at
least one white space, a capital letter, anything. -/
theorem bareNumberCapital_iff (line : List Char) :
    bareNumberCapital line = true ↔
      ∃ ws0 ds ws u rest, line = ws0 ++ (ds ++ (ws ++ u :: rest)) ∧
        (∀ c ∈ ws0, isWs c = true) ∧ IsNumeral ds ∧
        ws ≠ [] ∧ (∀ c ∈ ws, isWs c = true) ∧ isUpper u = true := by
  constructor
  · intro h
    unfold bareNumberCapital at h
    simp only at h
    obtain ⟨h0, hws0, _⟩ := exists_run isWs line
    obtain ⟨h1, hds, _⟩ := exists_run isDigit (line.dropWhile isWs)
    obtain ⟨h2, hws, _⟩ := exists_run isWs ((line.dropWhile isWs).dropWhile isDigit)
    split at h
    · rename_i d ds w ws u rest htake hwtake hrest
      refine ⟨line.takeWhile isWs, d :: ds, w :: ws, u, rest, ?_, hws0, ?_, by simp, ?_, h⟩
      · rw [← htake, ← hwtake, ← hrest, ← h2, ← h1]
        exact h0
      · exact isNumeral_takeWhile _ d ds htake
      · rw [← hwtake]
        exact hws
    · simp at h
  · rintro ⟨ws0, ds, ws, u, rest, rfl, hws0, hds, hne, hws, hu⟩
    obtain ⟨d, ds, rfl⟩ := List.exists_cons_of_ne_nil hds.1
    obtain ⟨w, ws, rfl⟩ := List.exists_cons_of_ne_nil hne
    have hd : isDigit d = true := hds.2 d (List.mem_cons_self _ _)
    have hw : isWs w = true := hws w (List.mem_cons_self _ _)
    have e0 : (ws0 ++ ((d :: ds) ++ ((w :: ws) ++ u :: rest))).dropWhile isWs =
        (d :: ds) ++ ((w :: ws) ++ u :: rest) :=
      (span_run ws0 d (ds ++ ((w :: ws) ++ u :: rest)) hws0 (isWs_of_isDigit d hd)).2
    have e1 := span_run (d :: ds) w (ws ++ u :: rest) hds.2 (isDigit_of_isWs w hw)
    have e2 := span_run (w :: ws) u rest hws (isWs_of_isUpper u hu)
    unfold bareNumberCapital
    simp only [e0]
    simp only [List.cons_append, List.append_assoc] at e1 e2 ⊢
    rw [e1.1, e1.2, e2.1, e2.2]
    exact hu

/-- `/\s\d+\s/` at the head of a string. -/
theorem wsDigitsWsAt_iff (s : List Char) :
    wsDigitsWsAt s = true ↔
      ∃ a ds b post, s = a :: (ds ++ b :: post) ∧ isWs a = true ∧ IsNumeral ds ∧
        isWs b = true := by
  constructor
  · intro h
    cases s with
    | nil => simp [wsDigitsWsAt] at h
    | cons a t =>
      simp only [wsDigitsWsAt, Bool.and_eq_true] at h
      obtain ⟨ha, h⟩ := h
      obtain ⟨h1, _, _⟩ := exists_run isDigit t
      split at h
      · rename_i d ds b post htake hdrop
        refine ⟨a, d :: ds, b, post, ?_, ha, isNumeral_takeWhile _ d ds htake, h⟩
        rw [← htake, ← hdrop, ← h1]
      · simp at h
  · rintro ⟨a, ds, b, post, rfl, ha, hds, hb⟩
    obtain ⟨d, ds, rfl⟩ := List.exists_cons_of_ne_nil hds.1
    have e := span_run (d :: ds) b post hds.2 (isDigit_of_isWs b hb)
    simp only [wsDigitsWsAt, ha, Bool.true_and]
    rw [e.1, e.2]
    exact hb

/-- `/\s\d+\s/` accepts the lines that contain a white space, a numeral and a
white space in a row. -/
theorem embeddedNumber_iff (line : List Char) :
    embeddedNumber line = true ↔
      ∃ pre a ds b post, line = pre ++ a :: (ds ++ b :: post) ∧ isWs a = true ∧
        IsNumeral ds ∧ isWs b = true := by
  induction line with
  | nil =>
    simp only [embeddedNumber, Bool.false_eq_true, false_iff]
    rintro ⟨pre, a, ds, b, post, h, _⟩
    cases pre <;> simp at h
  | cons c t ih =>
    simp only [embeddedNumber, Bool.or_eq_true, wsDigitsWsAt_iff, ih]
    constructor
    · rintro (⟨a, ds, b, post, h, rest⟩ | ⟨pre, a, ds, b, post, h, rest⟩)
      · exact ⟨[], a, ds, b, post, h, rest⟩
      · exact ⟨c :: pre, a, ds, b, post, by rw [h]; rfl, rest⟩
    · rintro ⟨pre, a, ds, b, post, h, rest⟩
      cases pre with
      | nil => exact Or.inl ⟨a, ds, b, post, h, rest⟩
      | cons c2 pre =>
        simp only [List.cons_append, List.cons.injEq] at h
        exact Or.inr ⟨pre, a, ds, b, post, h.2, rest⟩

/-! ## The score without layout information -/

theorem indentationKnown_false (ind : Option Int) : indentationKnown false ind = false := rfl

theorem marginSignal_false (thr : Option Int) (ind : Option Int) :
    marginSignal false thr ind = 0 := rfl

theorem continuationIndentSignal_false (thr : Option Int) (st : SegState)
    (ind : Option Int) : continuationIndentSignal false thr st ind = 0 := by
  simp [continuationIndentSignal, indentationKnown]

theorem sentenceContinuationSignal_eq (st : SegState) (line : List Char) :
    sentenceContinuationSignal st line =
      -25 * indicator (openSentence st && startsWithLowercase line) := by
  unfold sentenceContinuationSignal openSentence indicator
  cases st.currentQuestion <;> cases st.currentAnswer.getLast? <;> simp

/-- Without layout information the two layout signals drop out of the sum. -/
theorem confidence_without_layout (thr : Option Int) (st : SegState) (line : List Char)
    (ind : Option Int) :
    newQuestionConfidence false thr st line ind = scoreWithoutLayout st line := by
  unfold newQuestionConfidence scoreWithoutLayout
  rw [marginSignal_false, continuationIndentSignal_false, sentenceContinuationSignal_eq]
  unfold patternSignal blankLineSignal bareNumberSignal embeddedNumberSignal matchesPattern
  generalize (openSentence st && startsWithLowercase line) = b
  cases (questionNumberMatch line).isSome <;> cases st.previousLineWasEmpty <;>
    cases bareNumberCapital line <;> cases embeddedNumber line <;>
    cases leadingNumber line <;> cases b <;> simp [indicator]

/-- The decision of line 217 without layout information. -/
theorem isLikelyNewQuestion_without_layout (thr : Option Int) (st : SegState)
    (line : List Char) (ind : Option Int) :
    isLikelyNewQuestion false thr st line ind = true ↔ 40 ≤ scoreWithoutLayout st line := by
  unfold isLikelyNewQuestion
  rw [confidence_without_layout]
  simp

theorem hasLayoutInfo_of_noBoxes (blocks : List Annotation) (h : NoBoxes blocks) :
    hasLayoutInfo blocks = false := by
  cases blocks with
  | nil => rfl
  | cons b rest =>
    have hb : b.boundingPoly = none := h b (List.mem_cons_self b rest)
    simp [hasLayoutInfo, hb]

/-- Without layout information the records depend on the text alone. -/
theorem segment_without_layout (fullText : List Char) (blocks : List Annotation)
    (h : hasLayoutInfo blocks = false) :
    segment fullText blocks =
      .returns (emittedRecords false none
        ((splitLines fullText).zip ((splitLines fullText).map fun _ => none))) := by
  simp [segment, lineIndentations, leftMarginThreshold, h]

/-! ## C1: when no text is detected -/

/-- C1. The failure object `{success: false, message: "No text detected"}` is
returned for an absent or empty annotation array, and a returned object has
`success: false` only then; for every non-empty array (its bounding polygons
having at least one corner each) the call returns `success: true` with a list
of records; for the array whose single element has empty text that list is
empty. -/
theorem no_text_detected_iff_absent_or_empty (t : Option (List Annotation)) :
    ((t = none ∨ t = some []) → extractQuestionsAndAnswers t = .returns noTextDetected) ∧
    (∀ r, extractQuestionsAndAnswers t = .returns r →
      (r.success = false ↔ (t = none ∨ t = some []))) ∧
    (∀ first blocks, t = some (first :: blocks) → BoxesHaveCorners blocks →
      ∃ records, extractQuestionsAndAnswers t = .returns ⟨true, none, some records⟩) ∧
    extractQuestionsAndAnswers (some [⟨[], none⟩]) = .returns ⟨true, none, some []⟩ := by
  refine ⟨?_, ?_, ?_, by decide⟩
  · rintro (rfl | rfl) <;> rfl
  · intro r hr
    constructor
    · intro hfalse
      match t, hr with
      | none, _ => exact Or.inl rfl
      | some [], _ => exact Or.inr rfl
      | some (first :: blocks), hr =>
        have := extract_cons_success first blocks r hr
        simp [this] at hfalse
    · rintro (rfl | rfl) <;>
      · simp [extractQuestionsAndAnswers] at hr
        rw [← hr]
  · rintro first blocks rfl hb
    obtain ⟨records, hrec⟩ := segment_returns first.description blocks hb
    exact ⟨sortByQuestionNumber records, by simp [extractQuestionsAndAnswers, hrec]⟩

/-- C1 at a document with one boxed block. -/
theorem no_text_detected_iff_absent_or_empty_witness :
    BoxesHaveCorners [boxed "1. A" 10] ∧
    ∃ records, extractQuestionsAndAnswers (some [textOnly "1. A", boxed "1. A" 10]) =
      .returns ⟨true, none, some records⟩ :=
  ⟨by decide,
   (no_text_detected_iff_absent_or_empty (some [textOnly "1. A", boxed "1. A" 10])).2.2.1
     _ _ rfl (by decide)⟩

/-! ## C2: the final sort -/

/-- Insertion keeps, for each number, the records with that number in order, the
inserted one in front of them. -/
theorem filter_orderedInsert (n : Nat) (a : AnswerRecord) (l : List AnswerRecord) :
    (l.orderedInsert numberLe a).filter (fun r => parseInt r.questionNumber = n) =
      (a :: l).filter (fun r => parseInt r.questionNumber = n) := by
  induction l with
  | nil => rfl
  | cons b l ih =>
    by_cases hab : numberLe a b
    · simp [List.orderedInsert, hab]
    · have hlt : parseInt b.questionNumber < parseInt a.questionNumber := by
        unfold numberLe at hab; omega
      simp only [List.orderedInsert, hab, if_false]
      by_cases ha : parseInt a.questionNumber = n
      · have hb : ¬ parseInt b.questionNumber = n := by omega
        simp only [List.filter_cons, hb, ha, decide_True, decide_False, if_true] at ih ⊢
        simpa using ih
      · by_cases hb : parseInt b.questionNumber = n
        · simp only [List.filter_cons, hb, ha, decide_True, decide_False, if_true] at ih ⊢
          simpa using ih
        · simp only [List.filter_cons, hb, ha, decide_True, decide_False] at ih ⊢
          simpa using ih

/-- The sort is stable: the records of each number keep their order. -/
theorem filter_sortByQuestionNumber (n : Nat) (l : List AnswerRecord) :
    (sortByQuestionNumber l).filter (fun r => parseInt r.questionNumber = n) =
      l.filter (fun r => parseInt r.questionNumber = n) := by
  induction l with
  | nil => rfl
  | cons a l ih =>
    unfold sortByQuestionNumber at ih ⊢
    rw [List.insertionSort, filter_orderedInsert, List.filter_cons, List.filter_cons, ih]

/-- C2. When the call returns on a non-empty array, its list is the emitted
records of `segment` sorted by the value of `questionNumber`: a permutation of
them, non-decreasing in that value, in which the records of each value keep
their emission order; records numbered 10, 2, 1 come out as 1, 2, 10. -/
theorem output_is_stable_numeric_sort (first : Annotation) (blocks : List Annotation)
    (records : List AnswerRecord)
    (h : segment first.description blocks = .returns records) :
    (∃ out, extractQuestionsAndAnswers (some (first :: blocks)) =
        .returns ⟨true, none, some out⟩ ∧
      out.Perm records ∧
      out.Sorted (fun a b => parseInt a.questionNumber ≤ parseInt b.questionNumber) ∧
      ∀ n, out.filter (fun r => parseInt r.questionNumber = n) =
        records.filter (fun r => parseInt r.questionNumber = n)) ∧
    segment "10. a\n\n2. b\n\n1. c".toList [] =
      .returns [⟨"10".toList, "a".toList, some 80⟩, ⟨"2".toList, "b".toList, some 80⟩,
        ⟨"1".toList, "c".toList, none⟩] ∧
    extractQuestionsAndAnswers (some [textOnly "10. a\n\n2. b\n\n1. c"]) =
      .returns ⟨true, none, some [⟨"1".toList, "c".toList, none⟩,
        ⟨"2".toList, "b".toList, some 80⟩, ⟨"10".toList, "a".toList, some 80⟩]⟩ := by
  refine ⟨⟨sortByQuestionNumber records, ?_, ?_, ?_, ?_⟩, by decide, by decide⟩
  · simp [extractQuestionsAndAnswers, h]
  · exact List.perm_insertionSort numberLe records
  · exact List.sorted_insertionSort numberLe records
  · intro n
    exact filter_sortByQuestionNumber n records

/-- C2 at a document whose two records share the number 3 and follow a 7. -/
theorem output_is_stable_numeric_sort_witness :
    segment "7. x\n\n3. first\n\n3. second".toList [] =
      .returns [⟨"7".toList, "x".toList, some 80⟩, ⟨"3".toList, "first".toList, some 80⟩,
        ⟨"3".toList, "second".toList, none⟩] ∧
    ∃ out, extractQuestionsAndAnswers (some [textOnly "7. x\n\n3. first\n\n3. second"]) =
        .returns ⟨true, none, some out⟩ ∧
      out.Perm [⟨"7".toList, "x".toList, some 80⟩, ⟨"3".toList, "first".toList, some 80⟩,
        ⟨"3".toList, "second".toList, none⟩] ∧
      out.Sorted (fun a b => parseInt a.questionNumber ≤ parseInt b.questionNumber) ∧
      ∀ n, out.filter (fun r => parseInt r.questionNumber = n) =
        [(⟨"7".toList, "x".toList, some 80⟩ : AnswerRecord),
          ⟨"3".toList, "first".toList, some 80⟩,
          ⟨"3".toList, "second".toList, none⟩].filter
            (fun r => parseInt r.questionNumber = n) :=
  ⟨by decide,
   (output_is_stable_numeric_sort (textOnly "7. x\n\n3. first\n\n3. second") [] _
     (by decide)).1⟩

/-! ## C3: segmentation without layout information -/

theorem capturedNumber_eq_none (line : List Char) (h : capturedNumber line = none) :
    questionNumberMatch line = none := by
  unfold capturedNumber at h
  cases hm : questionNumberMatch line with
  | none => rfl
  | some m =>
    obtain ⟨g, _, hg⟩ := questionNumberMatch_numeral line m hm
    rw [hm] at h
    simp [hg] at h

theorem capturedNumber_eq_some (line number : List Char) (h : capturedNumber line = some number) :
    ∃ m, questionNumberMatch line = some m ∧ m.number = some number := by
  unfold capturedNumber at h
  cases hm : questionNumberMatch line with
  | none => rw [hm] at h; simp at h
  | some m => rw [hm] at h; exact ⟨m, rfl, by simpa using h⟩

theorem specScore_openQuestion (st : SegState) (line : List Char) :
    specScore st.openQuestion st.previousLineWasEmpty line = scoreWithoutLayout st line := by
  have : specUnfinished st.openQuestion = openSentence st := by
    unfold specUnfinished openSentence SegState.openQuestion
    cases st.currentQuestion <;> simp
  unfold specScore scoreWithoutLayout
  rw [this]

/-- Without layout information a line that does not match the pattern scores
at most 30. -/
theorem scoreWithoutLayout_le_of_no_match (st : SegState) (line : List Char)
    (h : questionNumberMatch line = none) : scoreWithoutLayout st line ≤ 30 := by
  have hbare : bareNumberCapital line = false := by
    cases hb : bareNumberCapital line with
    | false => rfl
    | true =>
      have := bareNumberCapital_matches line hb
      rw [h] at this
      simp at this
  unfold scoreWithoutLayout matchesPattern
  rw [h, hbare]
  generalize (openSentence st && startsWithLowercase line) = b1
  generalize (!(none : Option ReMatch).isSome && embeddedNumber line && !leadingNumber line) = b2
  cases st.previousLineWasEmpty <;> cases b1 <;> cases b2 <;> simp [indicator]

theorem closeOpenQuestion_eq (st : SegState) (confidence : Option Int) :
    closeOpenQuestion st confidence =
      st.questionsAndAnswers ++ specClose st.openQuestion confidence := by
  unfold closeOpenQuestion specClose SegState.openQuestion
  cases st.currentQuestion with
  | none => simp
  | some q =>
    cases st.currentAnswer with
    | nil => simp
    | cons a as => simp

/-- One step of the second pass without layout information, in the terms of
`specRecords`. -/
theorem processLine_without_layout (st : SegState) (raw : List Char) :
    (trim raw = [] →
      processLine false none st (raw, none) = { st with previousLineWasEmpty := true }) ∧
    (trim raw ≠ [] → ∀ number, capturedNumber (trim raw) = some number →
      40 ≤ specScore st.openQuestion st.previousLineWasEmpty (trim raw) →
      (processLine false none st (raw, none)).openQuestion =
          some (number, firstAnswerLines (trim raw)) ∧
        (processLine false none st (raw, none)).previousLineWasEmpty = false ∧
        (processLine false none st (raw, none)).questionsAndAnswers =
          st.questionsAndAnswers ++ specClose st.openQuestion
            (some (specScore st.openQuestion st.previousLineWasEmpty (trim raw)))) ∧
    (trim raw ≠ [] →
      (capturedNumber (trim raw) = none ∨
        ¬ 40 ≤ specScore st.openQuestion st.previousLineWasEmpty (trim raw)) →
      (processLine false none st (raw, none)).openQuestion =
          st.openQuestion.map (fun o => (o.1, o.2 ++ [trim raw])) ∧
        (processLine false none st (raw, none)).previousLineWasEmpty = false ∧
        (processLine false none st (raw, none)).questionsAndAnswers =
          st.questionsAndAnswers) := by
  have hscore : newQuestionConfidence false none st (trim raw) none =
        specScore st.openQuestion st.previousLineWasEmpty (trim raw) ∧
      (isLikelyNewQuestion false none st (trim raw) none = true ↔
        40 ≤ specScore st.openQuestion st.previousLineWasEmpty (trim raw)) := by
    rw [specScore_openQuestion]
    exact ⟨confidence_without_layout none st (trim raw) none,
      isLikelyNewQuestion_without_layout none st (trim raw) none⟩
  refine ⟨?_, ?_, ?_⟩
  · intro h
    simp [processLine, h]
  · intro hne number hnum h40
    obtain ⟨m, hm, hmn⟩ := capturedNumber_eq_some _ _ hnum
    have hnew := hscore.2.mpr h40
    simp only [processLine, hne, if_false, hnew, if_true]
    refine ⟨?_, rfl, ?_⟩
    · simp [startQuestion, SegState.openQuestion, nextQuestion, hm, hmn]
    · simp only [startQuestion]
      rw [closeOpenQuestion_eq, hscore.1]
  · intro hne hcont
    have hnot : isLikelyNewQuestion false none st (trim raw) none = false := by
      cases hb : isLikelyNewQuestion false none st (trim raw) none with
      | false => rfl
      | true =>
        have h40 := hscore.2.mp hb
        rcases hcont with hnone | hlt
        · have := scoreWithoutLayout_le_of_no_match st (trim raw)
            (capturedNumber_eq_none _ hnone)
          rw [specScore_openQuestion] at h40
          omega
        · exact absurd h40 hlt
    simp only [processLine, hne, if_false, hnot]
    unfold continueAnswer SegState.openQuestion
    cases st.currentQuestion with
    | none => simp
    | some q => simp [indentationKnown]

theorem specRecords_cons (openQ : Option (List Char × List (List Char))) (afterBlank : Bool)
    (raw : List Char) (rest : List (List Char)) :
    specRecords openQ afterBlank (raw :: rest) =
      if trim raw = [] then specRecords openQ true rest
      else
        match capturedNumber (trim raw) with
        | some number =>
          if 40 ≤ specScore openQ afterBlank (trim raw) then
            specClose openQ (some (specScore openQ afterBlank (trim raw))) ++
              specRecords (some (number, firstAnswerLines (trim raw))) false rest
          else
            specRecords (openQ.map fun o => (o.1, o.2 ++ [trim raw])) false rest
        | none => specRecords (openQ.map fun o => (o.1, o.2 ++ [trim raw])) false rest := rfl

/-- The second pass without layout information emits what `specRecords`
describes, from any state on. -/
theorem secondPass_refines_spec (lines : List (List Char)) :
    ∀ st : SegState,
      closeOpenQuestion
          ((lines.zip (lines.map fun _ => (none : Option Int))).foldl
            (processLine false none) st) none =
        st.questionsAndAnswers ++
          specRecords st.openQuestion st.previousLineWasEmpty lines := by
  induction lines with
  | nil =>
    intro st
    exact closeOpenQuestion_eq st none
  | cons raw rest ih =>
    intro st
    simp only [List.map_cons, List.zip_cons_cons, List.foldl_cons]
    rw [ih, specRecords_cons]
    obtain ⟨hblank, hnew, hcont⟩ := processLine_without_layout st raw
    by_cases hne : trim raw = []
    · rw [hblank hne, if_pos hne]
      rfl
    · rw [if_neg hne]
      cases hnum : capturedNumber (trim raw) with
      | none =>
        obtain ⟨h1, h2, h3⟩ := hcont hne (Or.inl hnum)
        simp only [h1, h2, h3]
      | some number =>
        by_cases h40 : 40 ≤ specScore st.openQuestion st.previousLineWasEmpty (trim raw)
        · obtain ⟨h1, h2, h3⟩ := hnew hne number hnum h40
          simp only [h1, h2, h3, h40, if_true, List.append_assoc]
        · obtain ⟨h1, h2, h3⟩ := hcont hne (Or.inr h40)
          simp only [h1, h2, h3, h40, if_false]

theorem specClose_numbers (openQ : Option (List Char × List (List Char)))
    (confidence : Option Int) :
    ((specClose openQ confidence).map (·.questionNumber)).Sublist (openNumber openQ) := by
  unfold specClose openNumber
  split <;> simp

/-- The numbers of the records of `specRecords` are, in order, numbers captured
from lines of the document, after the number of the question already open. -/
theorem specRecords_numbers (lines : List (List Char)) :
    ∀ (openQ : Option (List Char × List (List Char))) (afterBlank : Bool),
      ((specRecords openQ afterBlank lines).map (·.questionNumber)).Sublist
        (openNumber openQ ++ lines.filterMap fun raw => capturedNumber (trim raw)) := by
  induction lines with
  | nil =>
    intro openQ afterBlank
    simpa [specRecords] using specClose_numbers openQ none
  | cons raw rest ih =>
    intro openQ afterBlank
    have hcont : openNumber (openQ.map fun o => (o.1, o.2 ++ [trim raw])) = openNumber openQ := by
      cases openQ <;> rfl
    rw [specRecords_cons]
    by_cases hne : trim raw = []
    · have hnone : capturedNumber (trim raw) = none := by rw [hne]; rfl
      rw [if_pos hne]
      simp only [List.filterMap_cons, hnone]
      exact ih openQ true
    · rw [if_neg hne]
      cases hnum : capturedNumber (trim raw) with
      | none =>
        simp only [List.filterMap_cons, hnum]
        have := ih (openQ.map fun o => (o.1, o.2 ++ [trim raw])) false
        rw [hcont] at this
        exact this
      | some number =>
        simp only [List.filterMap_cons, hnum]
        by_cases h40 : 40 ≤ specScore openQ afterBlank (trim raw)
        · simp only [h40, if_true, List.map_append]
          exact (specClose_numbers openQ _).append
            (ih (some (number, firstAnswerLines (trim raw))) false)
        · simp only [h40, if_false]
          have := ih (openQ.map fun o => (o.1, o.2 ++ [trim raw])) false
          rw [hcont] at this
          exact this.trans ((List.sublist_cons_self _ _).append_left _)

/-- C3. For a document without layout information the records before sorting
are those of `specRecords`: a question is started exactly by a non-empty line
that matches the numbered-line pattern and scores at least 40, in document
order, it carries the number captured from that line, and it gives a record
when it gathers at least one answer line; the returned list is these records
sorted by number.  The numbers of the records before sorting are, in order,
numbers captured from lines of the document.  The text `1. Paris is the capital`, blank, `2. Madrid is
the capital` gives the two records 1 and 2 with these answers. -/
theorem records_without_layout (first : Annotation) (blocks : List Annotation)
    (h : hasLayoutInfo blocks = false) :
    segment first.description blocks =
      .returns (specRecords none false (splitLines first.description)) ∧
    extractQuestionsAndAnswers (some (first :: blocks)) =
      .returns ⟨true, none,
        some (sortByQuestionNumber (specRecords none false (splitLines first.description)))⟩ ∧
    ((specRecords none false (splitLines first.description)).map (·.questionNumber)).Sublist
      ((splitLines first.description).filterMap fun raw => capturedNumber (trim raw)) ∧
    specRecords none false
        (splitLines "1. Paris is the capital\n\n2. Madrid is the capital".toList) =
      [⟨"1".toList, "Paris is the capital".toList, some 80⟩,
        ⟨"2".toList, "Madrid is the capital".toList, none⟩] ∧
    extractQuestionsAndAnswers
        (some [textOnly "1. Paris is the capital\n\n2. Madrid is the capital"]) =
      .returns ⟨true, none, some [⟨"1".toList, "Paris is the capital".toList, some 80⟩,
        ⟨"2".toList, "Madrid is the capital".toList, none⟩]⟩ := by
  have hseg : segment first.description blocks =
      .returns (specRecords none false (splitLines first.description)) := by
    rw [segment_without_layout _ _ h]
    unfold emittedRecords secondPass
    rw [secondPass_refines_spec]
    rfl
  refine ⟨hseg, ?_, ?_, by decide, by decide⟩
  · simp only [extractQuestionsAndAnswers, hseg]
  · simpa [openNumber] using specRecords_numbers (splitLines first.description) none false

/-- C3 on the text `3) c`, `tail`, blank, `1) a` with an unboxed block. -/
theorem records_without_layout_witness :
    hasLayoutInfo [textOnly "tail"] = false ∧
    segment "3) c\ntail\n\n1) a".toList [textOnly "tail"] =
      .returns [⟨"3".toList, "c tail".toList, some 80⟩, ⟨"1".toList, "a".toList, none⟩] ∧
    extractQuestionsAndAnswers (some [textOnly "3) c\ntail\n\n1) a", textOnly "tail"]) =
      .returns ⟨true, none, some [⟨"1".toList, "a".toList, none⟩,
        ⟨"3".toList, "c tail".toList, some 80⟩]⟩ :=
  ⟨by decide,
   ((records_without_layout (textOnly "3) c\ntail\n\n1) a") [textOnly "tail"]
      (by decide)).1).trans (by decide),
   ((records_without_layout (textOnly "3) c\ntail\n\n1) a") [textOnly "tail"]
      (by decide)).2.1).trans (by decide)⟩

/-! ## C4: one question and its continuation lines -/

/-- C4, as stated, fails on the text `1.`: it consists of one new-question line
(score 50) followed by no line at all, the remainder after the marker is empty,
and the result holds no record instead of a single one. -/
theorem lone_marker_yields_no_record :
    splitLines "1.".toList = ["1.".toList] ∧
    newQuestionConfidence false none SegState.initial (trim "1.".toList) none = 50 ∧
    isLikelyNewQuestion false none SegState.initial (trim "1.".toList) none = true ∧
    continuationsOnly (processLine false none SegState.initial ("1.".toList, none)) [] = true ∧
    firstAnswerLines (trim "1.".toList) = [] ∧
    extractQuestionsAndAnswers (some [textOnly "1."]) = .returns ⟨true, none, some []⟩ := by
  decide

theorem continuationsOnly_cons (st : SegState) (raw : List Char) (rest : List (List Char)) :
    continuationsOnly st (raw :: rest) =
      (decide (trim raw ≠ []) &&
        decide (newQuestionConfidence false none st (trim raw) none < 40) &&
        continuationsOnly (processLine false none st (raw, none)) rest) := rfl

/-- Lines that all continue the open question are appended to its answer, and
nothing else changes but the blank-line flag. -/
theorem foldl_continuationsOnly (rest : List (List Char)) :
    ∀ (st : SegState) (number : List Char), st.currentQuestion = some number →
      continuationsOnly st rest = true →
      ((rest.zip (rest.map fun _ => (none : Option Int))).foldl
          (processLine false none) st).currentQuestion = some number ∧
      ((rest.zip (rest.map fun _ => (none : Option Int))).foldl
          (processLine false none) st).currentAnswer = st.currentAnswer ++ rest.map trim ∧
      ((rest.zip (rest.map fun _ => (none : Option Int))).foldl
          (processLine false none) st).questionsAndAnswers = st.questionsAndAnswers := by
  induction rest with
  | nil => intro st number hq _; simp [hq]
  | cons raw rest ih =>
    intro st number hq hcont
    rw [continuationsOnly_cons] at hcont
    simp only [Bool.and_eq_true, decide_eq_true_eq] at hcont
    obtain ⟨⟨hne, hlt⟩, hrest⟩ := hcont
    have hnot : isLikelyNewQuestion false none st (trim raw) none = false := by
      unfold isLikelyNewQuestion
      simp only [decide_eq_false_iff_not, ge_iff_le]
      omega
    have hstep : processLine false none st (raw, none) =
        { st with currentAnswer := st.currentAnswer ++ [trim raw]
                  previousLineWasEmpty := false } := by
      simp [processLine, hne, hnot, continueAnswer, hq, indentationKnown]
    have hq2 : (processLine false none st (raw, none)).currentQuestion = some number := by
      rw [hstep]; exact hq
    have hca : (processLine false none st (raw, none)).currentAnswer =
        st.currentAnswer ++ [trim raw] := by rw [hstep]
    have hqa : (processLine false none st (raw, none)).questionsAndAnswers =
        st.questionsAndAnswers := by rw [hstep]
    simp only [List.map_cons, List.zip_cons_cons, List.foldl_cons]
    obtain ⟨h1, h2, h3⟩ := ih (processLine false none st (raw, none)) number hq2 hrest
    refine ⟨h1, ?_, h3.trans hqa⟩
    rw [h2, hca]
    simp

/-- C4, amended. For a document without layout information whose text is one
new-question line followed only by lines that are non-empty and score below
40, the answer lines are the question line's remainder (left out when empty)
followed by the later lines, trimmed, in order.  When there is at least one
answer line the result is the single record of the captured number whose
answer is these lines joined by single spaces, without a confidence; when
there is none (an empty remainder and no later line) the result has no record. -/
theorem single_question_answer (first : Annotation) (blocks : List Annotation)
    (q : List Char) (rest : List (List Char))
    (hlayout : hasLayoutInfo blocks = false)
    (hlines : splitLines first.description = q :: rest)
    (hq : trim q ≠ [])
    (hnew : isLikelyNewQuestion false none SegState.initial (trim q) none = true)
    (hrest : continuationsOnly (processLine false none SegState.initial (q, none)) rest = true) :
    ∃ number, capturedNumber (trim q) = some number ∧
      extractQuestionsAndAnswers (some (first :: blocks)) =
        .returns ⟨true, none, some
          (match firstAnswerLines (trim q) ++ rest.map trim with
           | [] => []
           | a :: as => [⟨number, joinSpace (a :: as), none⟩])⟩ := by
  have h40 := (isLikelyNewQuestion_without_layout none SegState.initial (trim q) none).mp hnew
  cases hnum : capturedNumber (trim q) with
  | none =>
    have := scoreWithoutLayout_le_of_no_match SegState.initial (trim q)
      (capturedNumber_eq_none _ hnum)
    omega
  | some number =>
    obtain ⟨m, hm, hmn⟩ := capturedNumber_eq_some _ _ hnum
    refine ⟨number, rfl, ?_⟩
    have hstart : processLine false none SegState.initial (q, none) =
        startQuestion false none SegState.initial (trim q) none := by
      simp [processLine, hq, hnew]
    have hcq : (processLine false none SegState.initial (q, none)).currentQuestion =
        some number := by
      rw [hstart]
      simp [startQuestion, nextQuestion, hm, hmn]
    have hca : (processLine false none SegState.initial (q, none)).currentAnswer =
        firstAnswerLines (trim q) := by
      rw [hstart]; rfl
    have hqa : (processLine false none SegState.initial (q, none)).questionsAndAnswers = [] := by
      rw [hstart]; rfl
    obtain ⟨h1, h2, h3⟩ := foldl_continuationsOnly rest _ number hcq hrest
    rw [hca] at h2
    rw [hqa] at h3
    have hseg : segment first.description blocks =
        .returns (match firstAnswerLines (trim q) ++ rest.map trim with
           | [] => []
           | a :: as => [⟨number, joinSpace (a :: as), none⟩]) := by
      rw [segment_without_layout _ _ hlayout, hlines]
      simp only [emittedRecords, secondPass, List.map_cons, List.zip_cons_cons,
        List.foldl_cons]
      unfold closeOpenQuestion
      rw [h1, h2, h3]
      cases firstAnswerLines (trim q) ++ rest.map trim <;> simp
    simp only [extractQuestionsAndAnswers, hseg]
    cases firstAnswerLines (trim q) ++ rest.map trim <;> rfl

/-- C4, amended, on the text `1) The mitochondria`, `is the powerhouse`, `of the
cell.`: one record for question 1 with the three lines joined by single spaces. -/
theorem single_question_answer_witness :
    splitLines "1) The mitochondria\nis the powerhouse\nof the cell.".toList =
      ["1) The mitochondria".toList, "is the powerhouse".toList, "of the cell.".toList] ∧
    isLikelyNewQuestion false none SegState.initial (trim "1) The mitochondria".toList) none =
      true ∧
    continuationsOnly
        (processLine false none SegState.initial ("1) The mitochondria".toList, none))
        ["is the powerhouse".toList, "of the cell.".toList] = true ∧
    extractQuestionsAndAnswers
        (some [textOnly "1) The mitochondria\nis the powerhouse\nof the cell."]) =
      .returns ⟨true, none,
        some [⟨"1".toList, "The mitochondria is the powerhouse of the cell.".toList, none⟩]⟩ ∧
    ∃ number, capturedNumber (trim "1) The mitochondria".toList) = some number ∧
      extractQuestionsAndAnswers
          (some [textOnly "1) The mitochondria\nis the powerhouse\nof the cell."]) =
        .returns ⟨true, none, some
          (match firstAnswerLines (trim "1) The mitochondria".toList) ++
              ["is the powerhouse".toList, "of the cell.".toList].map trim with
           | [] => []
           | a :: as => [⟨number, joinSpace (a :: as), none⟩])⟩ :=
  ⟨by decide, by decide, by decide, by decide,
   single_question_answer
      (textOnly "1) The mitochondria\nis the powerhouse\nof the cell.") []
      "1) The mitochondria".toList ["is the powerhouse".toList, "of the cell.".toList]
      (by decide) (by decide) (by decide) (by decide) (by decide)⟩

/-! ## C5: the score without layout information -/

/-- C5. Without layout information the confidence computed for a line is
50 [pattern match] + 30 [previous line blank] + 40 [no match, digits then
white space then a capital] - 20 [no match, an embedded number, no leading
number] - 25 [open question whose last accumulated line is unfinished, line
starting in lower case], and the line starts a new question exactly when that
sum is at least 40.  The conditions are spelled out: which lines are a number,
white space and a capital; which contain a number between white spaces; which
start with a number; which start in lower case; and when the open question's
last line is unfinished. -/
theorem score_without_layout (thr : Option Int) (st : SegState) (line : List Char)
    (ind : Option Int) :
    newQuestionConfidence false thr st line ind =
      50 * indicator (matchesPattern line) +
      30 * indicator st.previousLineWasEmpty +
      40 * indicator (!matchesPattern line && bareNumberCapital line) -
      20 * indicator (!matchesPattern line && embeddedNumber line && !leadingNumber line) -
      25 * indicator (openSentence st && startsWithLowercase line) ∧
    (isLikelyNewQuestion false thr st line ind = true ↔
      40 ≤ 50 * indicator (matchesPattern line) +
        30 * indicator st.previousLineWasEmpty +
        40 * indicator (!matchesPattern line && bareNumberCapital line) -
        20 * indicator (!matchesPattern line && embeddedNumber line && !leadingNumber line) -
        25 * indicator (openSentence st && startsWithLowercase line)) ∧
    (bareNumberCapital line = true ↔
      ∃ ws0 ds ws u rest, line = ws0 ++ (ds ++ (ws ++ u :: rest)) ∧
        (∀ c ∈ ws0, isWs c = true) ∧ IsNumeral ds ∧
        ws ≠ [] ∧ (∀ c ∈ ws, isWs c = true) ∧ isUpper u = true) ∧
    (embeddedNumber line = true ↔
      ∃ pre a ds b post, line = pre ++ a :: (ds ++ b :: post) ∧ isWs a = true ∧
        IsNumeral ds ∧ isWs b = true) ∧
    (leadingNumber line = true ↔
      ∃ ws0 d rest, line = ws0 ++ d :: rest ∧ (∀ c ∈ ws0, isWs c = true) ∧
        isDigit d = true) ∧
    (startsWithLowercase line = true ↔ ∃ c rest, line = c :: rest ∧ isLower c = true) ∧
    (openSentence st = true ↔
      ∃ q previousLine, st.currentQuestion = some q ∧
        st.currentAnswer.getLast? = some previousLine ∧
        ¬ ∃ c, previousLine.getLast? = some c ∧ (c = '.' ∨ c = '!' ∨ c = '?')) := by
  refine ⟨?_, ?_, bareNumberCapital_iff line, embeddedNumber_iff line, leadingNumber_iff line,
    ?_, ?_⟩
  · rw [confidence_without_layout]
    rfl
  · rw [isLikelyNewQuestion_without_layout]
    rfl
  · cases line with
    | nil => simp [startsWithLowercase]
    | cons c rest => simp [startsWithLowercase]
  · unfold openSentence endsWithPunctuation
    cases st.currentQuestion with
    | none => simp
    | some q =>
      cases st.currentAnswer.getLast? with
      | none => simp
      | some previousLine =>
        cases hlast : previousLine.getLast? with
        | none => simp [hlast]
        | some c => simp [hlast, and_assoc]

/-! ## C6: the left-margin signal -/

/-- For a resolved indentation other than 0 the signal is +20 exactly when layout
information is present and the indentation is at most the threshold. -/
theorem marginSignal_of_nonzero (hasLayout : Bool) (t x : Int) (hx : x ≠ 0) :
    marginSignal hasLayout (some t) (some x) = 20 ↔ (hasLayout = true ∧ x ≤ t) := by
  cases hasLayout <;>
    simp [marginSignal, isAtLeftMargin, indentationKnown, leThreshold, hx]

/-- C6. On `leftEdgeDocument` layout information is present, the threshold is
15 and the line `1. A` resolves to `leftX = 0`, which is at most the threshold;
yet the margin signal is 0 and the score of the line is 50, not 70: line 172
tests `lineIndentations[i]` for truthiness and 0 is falsy.  One pixel to the
right the same line gets the +20 and scores 70. -/
theorem margin_signal_skips_left_edge :
    hasLayoutInfo leftEdgeDocument.tail = true ∧
    leftMarginThreshold leftEdgeDocument.tail = some 15 ∧
    lineIndentations leftEdgeDocument.tail (splitLines "1. A".toList) =
      .returns [some 0] ∧
    (0 : Int) ≤ 15 ∧
    marginSignal (hasLayoutInfo leftEdgeDocument.tail)
      (leftMarginThreshold leftEdgeDocument.tail) (some 0) = 0 ∧
    newQuestionConfidence (hasLayoutInfo leftEdgeDocument.tail)
      (leftMarginThreshold leftEdgeDocument.tail) SegState.initial "1. A".toList (some 0) = 50 ∧
    leftMarginThreshold [boxed "1. A" 1] = some 15 ∧
    marginSignal true (some 15) (some 1) = 20 ∧
    newQuestionConfidence true (some 15) SegState.initial "1. A".toList (some 1) = 70 := by
  decide

/-! ## C7: the continuation-indentation signal -/

/-- C7, as stated, fails on `negativeMarginBlocks` with the text `1. A`, `b`:
when `b` is scored a question is open, layout information is present, its
`leftX` -70 is 5 away from the running average -75 and above the threshold -85,
and the signal is 0, because the average is not positive. -/
theorem continuation_signal_needs_positive_average :
    hasLayoutInfo negativeMarginBlocks = true ∧
    leftMarginThreshold negativeMarginBlocks = some (-85) ∧
    lineIndentations negativeMarginBlocks (splitLines "1. A\nb".toList) =
      .returns [some (-75), some (-70)] ∧
    (secondPass true (some (-85)) [("1. A".toList, some (-75))]).currentQuestion =
      some "1".toList ∧
    (secondPass true (some (-85)) [("1. A".toList, some (-75))]).averageAnswerIndentation =
      -75 ∧
    |(((-70 : Int) : Rat)) - (-75)| < 15 ∧
    ¬ ((-70 : Int) ≤ -85) ∧
    continuationIndentSignal true (some (-85))
      (secondPass true (some (-85)) [("1. A".toList, some (-75))]) (some (-70)) = 0 := by
  decide!

/-- C7, amended. For a line whose resolved `leftX` is not 0, the signal is -30
exactly when a question is open, layout information is present, the running
average answer indentation is positive, `leftX` is less than 15 away from it,
and `leftX` is above the margin threshold; otherwise it is 0. -/
theorem continuation_signal_iff (hasLayout : Bool) (t : Int) (st : SegState) (x : Int)
    (hx : x ≠ 0) :
    (continuationIndentSignal hasLayout (some t) st (some x) = -30 ↔
      (st.currentQuestion.isSome = true ∧ hasLayout = true ∧
        0 < st.averageAnswerIndentation ∧
        |(x : Rat) - st.averageAnswerIndentation| < 15 ∧ ¬ x ≤ t)) ∧
    (continuationIndentSignal hasLayout (some t) st (some x) = -30 ∨
      continuationIndentSignal hasLayout (some t) st (some x) = 0) := by
  unfold continuationIndentSignal isAtLeftMargin indentationKnown leThreshold
  cases hasLayout <;> cases st.currentQuestion <;>
    by_cases havg : 0 < st.averageAnswerIndentation <;>
    by_cases hnear : |(x : Rat) - st.averageAnswerIndentation| < 15 <;>
    by_cases hle : x ≤ t <;> simp [hx, havg, hnear, hle]

/-- C7, amended, on `indentedAnswerBlocks`: the line `b` at 35 follows the
question line at 30 and receives the -30. -/
theorem continuation_signal_iff_witness :
    (35 : Int) ≠ 0 ∧
    leftMarginThreshold indentedAnswerBlocks = some 25 ∧
    continuationIndentSignal true (some 25)
      (secondPass true (some 25) [("1. A".toList, some 30)]) (some 35) = -30 :=
  ⟨by decide, by decide,
   (continuation_signal_iff true 25 (secondPass true (some 25) [("1. A".toList, some 30)]) 35
     (by decide)).1.mpr (by decide!)⟩

/-! ## C8: the two layout signals on one line -/

/-- C8, as stated, fails: on no line do the +20 of the margin signal and the
-30 of the continuation-indentation signal both contribute. -/
theorem margin_and_continuation_never_both :
    ¬ ∃ (hasLayout : Bool) (thr : Option Int) (st : SegState) (ind : Option Int),
      marginSignal hasLayout thr ind = 20 ∧
      continuationIndentSignal hasLayout thr st ind = -30 := by
  rintro ⟨hasLayout, thr, st, ind, hm, hc⟩
  unfold marginSignal at hm
  unfold continuationIndentSignal at hc
  cases hmar : isAtLeftMargin hasLayout thr ind
  · simp [hmar] at hm
  · simp only [hmar, Bool.not_true, Bool.and_false] at hc
    split at hc <;> simp at hc

/-- C8, amended. On every line the two layout signals contribute +20 and 0, or
0 and -30, or 0 and 0: the -30 is only given to a line that is not at the left
margin, so they never offset each other.  Both occur: in the text `1. A`, `b`
laid out as `indentedAnswerBlocks` the line `b` gets 0 and -30, and in the text
`h` with the same blocks the line `h` gets +20 and 0. -/
theorem margin_and_continuation_exclusive :
    (∀ (hasLayout : Bool) (thr : Option Int) (st : SegState) (ind : Option Int),
      (marginSignal hasLayout thr ind = 20 ∧
        continuationIndentSignal hasLayout thr st ind = 0) ∨
      (marginSignal hasLayout thr ind = 0 ∧
        continuationIndentSignal hasLayout thr st ind = -30) ∨
      (marginSignal hasLayout thr ind = 0 ∧
        continuationIndentSignal hasLayout thr st ind = 0)) ∧
    (lineIndentations indentedAnswerBlocks (splitLines "1. A\nb".toList) =
        .returns [some 30, some 35] ∧
      marginSignal true (some 25) (some 35) = 0 ∧
      continuationIndentSignal true (some 25)
        (secondPass true (some 25) [("1. A".toList, some 30)]) (some 35) = -30) ∧
    (lineIndentations indentedAnswerBlocks (splitLines "h".toList) = .returns [some 10] ∧
      marginSignal true (some 25) (some 10) = 20 ∧
      continuationIndentSignal true (some 25) SegState.initial (some 10) = 0) := by
  refine ⟨?_, by decide!, by decide⟩
  intro hasLayout thr st ind
  unfold marginSignal continuationIndentSignal
  cases hmar : isAtLeftMargin hasLayout thr ind
  · simp only [Bool.false_eq_true, if_false, Bool.not_false, Bool.and_true]
    split
    · split <;> simp
    · simp
  · simp

/-! ## C9: the margin threshold -/

theorem roundedPos_dvd (x : Int) : 10 ∣ roundedPos x := by
  unfold roundedPos
  exact Dvd.intro_left _ rfl

theorem roundedPos_eq_iff (x m : Int) (hm : 10 ∣ m) :
    roundedPos x = m ↔ (m - 5 ≤ x ∧ x < m + 5) := by
  unfold roundedPos
  omega

theorem keys_bump (k : Int) (g : List (Int × Nat)) :
    keys (bump k g) = if k ∈ keys g then keys g else keys g ++ [k] := by
  induction g with
  | nil => simp [bump, keys]
  | cons e g ih =>
    obtain ⟨k2, n⟩ := e
    unfold keys at ih ⊢
    by_cases h : k2 = k
    · simp [bump, h]
    · have h2 : ¬ k = k2 := fun e => h e.symm
      simp only [bump, h, if_false, List.map_cons, List.mem_cons, h2, false_or, ih]
      split <;> simp

theorem mem_bump_of_ne (k : Int) (g : List (Int × Nat)) (e : Int × Nat) (he : e.1 ≠ k) :
    e ∈ bump k g ↔ e ∈ g := by
  induction g with
  | nil =>
    simp only [bump, List.mem_singleton, List.not_mem_nil, iff_false]
    rintro rfl
    exact he rfl
  | cons f g ih =>
    obtain ⟨k2, n⟩ := f
    by_cases h : k2 = k
    · subst h
      simp only [bump, if_true, List.mem_cons]
      constructor
      · rintro (rfl | h)
        · exact absurd rfl he
        · exact Or.inr h
      · rintro (rfl | h)
        · exact absurd rfl he
        · exact Or.inr h
    · simp only [bump, h, if_false, List.mem_cons, ih]

theorem mem_bump_key (k : Int) (g : List (Int × Nat)) (n : Nat) (hnd : (keys g).Nodup)
    (h : (k, n) ∈ bump k g) :
    (k ∉ keys g ∧ n = 1) ∨ (∃ n0, (k, n0) ∈ g ∧ n = n0 + 1) := by
  induction g with
  | nil =>
    simp only [bump, List.mem_singleton, Prod.mk.injEq, true_and] at h
    exact Or.inl ⟨by simp [keys], h⟩
  | cons f g ih =>
    obtain ⟨k2, n2⟩ := f
    have hnd2 : k2 ∉ keys g ∧ (keys g).Nodup := by
      simpa [keys] using hnd
    by_cases hk : k2 = k
    · subst hk
      simp only [bump, if_true, List.mem_cons, Prod.mk.injEq, true_and] at h
      rcases h with h | h
      · exact Or.inr ⟨n2, List.mem_cons_self _ _, h⟩
      · exact absurd (List.mem_map_of_mem Prod.fst h) hnd2.1
    · simp only [bump, hk, if_false, List.mem_cons, Prod.mk.injEq] at h
      rcases h with h | h
      · exact absurd h.1.symm hk
      · rcases ih hnd2.2 h with ⟨h1, h2⟩ | ⟨n0, h1, h2⟩
        · refine Or.inl ⟨?_, h2⟩
          simp only [keys, List.map_cons, List.mem_cons, not_or]
          exact ⟨fun e => hk e.symm, h1⟩
        · exact Or.inr ⟨n0, List.mem_cons_of_mem _ h1, h2⟩

theorem Grouped.bump {ps : List Int} {g : List (Int × Nat)} (h : Grouped ps g) (p : Int) :
    Grouped (ps ++ [p]) (bump (roundedPos p) g) := by
  refine ⟨?_, ?_, ?_⟩
  · rw [keys_bump]
    split
    · exact h.nodup
    · rename_i hk
      exact List.Nodup.append h.nodup (List.nodup_singleton _) (by simpa using hk)
  · intro e he
    by_cases hek : e.1 = roundedPos p
    · obtain ⟨k, n⟩ := e
      simp only at hek
      subst hek
      simp only [List.countP_append, List.countP_singleton, decide_True, if_true]
      rcases mem_bump_key _ g n h.nodup he with ⟨h1, h2⟩ | ⟨n0, h1, h2⟩
      · have hz : ps.countP (fun q => roundedPos q = roundedPos p) = 0 := by
          rw [List.countP_eq_zero]
          intro q hq hqe
          simp only [decide_eq_true_eq] at hqe
          exact h1 (hqe ▸ h.complete q hq)
        simp only at hz ⊢
        omega
      · have := (h.count _ h1).1
        simp only at this ⊢
        omega
    · have he2 : e ∈ g := (mem_bump_of_ne _ g e hek).mp he
      have := h.count e he2
      have hne : ¬ roundedPos p = e.1 := fun x => hek x.symm
      simp only [List.countP_append, List.countP_singleton, hne, decide_False]
      simpa using this
  · intro q hq
    rw [keys_bump]
    rcases List.mem_append.mp hq with hq | hq
    · have := h.complete q hq
      split
      · exact this
      · exact List.mem_append_left _ this
    · simp only [List.mem_singleton] at hq
      subst hq
      split
      · assumption
      · simp

theorem grouped_foldl (ps : List Int) :
    ∀ (ps0 : List Int) (g : List (Int × Nat)), Grouped ps0 g →
      Grouped (ps0 ++ ps) (ps.foldl (fun g pos => bump (roundedPos pos) g) g) := by
  induction ps with
  | nil => intro ps0 g h; simpa using h
  | cons p ps ih =>
    intro ps0 g h
    have := ih (ps0 ++ [p]) _ (h.bump p)
    simpa using this

theorem grouped_groupedPositions (ps : List Int) : Grouped ps (groupedPositions ps) := by
  have := grouped_foldl ps [] [] ⟨by simp [keys], by simp, by simp⟩
  simpa [groupedPositions] using this

theorem mem_objectEntries (g : List (Int × Nat)) (e : Int × Nat) :
    e ∈ objectEntries g ↔ e ∈ g := by
  unfold objectEntries
  rw [List.mem_append, List.mem_insertionSort, List.mem_filter, List.mem_filter]
  cases isArrayIndex e.1 <;> simp

/-- The loop of lines 104-109 ends on an entry of the greatest count. -/
theorem mostCommon_spec (entries : List (Int × Nat)) :
    ∀ (init : Int × Nat),
      (entries.foldl (fun best e => if e.2 > best.2 then e else best) init = init ∨
        entries.foldl (fun best e => if e.2 > best.2 then e else best) init ∈ entries) ∧
      init.2 ≤ (entries.foldl (fun best e => if e.2 > best.2 then e else best) init).2 ∧
      ∀ e ∈ entries,
        e.2 ≤ (entries.foldl (fun best e => if e.2 > best.2 then e else best) init).2 := by
  induction entries with
  | nil => intro init; simp
  | cons e entries ih =>
    intro init
    simp only [List.foldl_cons]
    by_cases hgt : e.2 > init.2
    · rw [if_pos hgt]
      obtain ⟨h1, h2, h3⟩ := ih e
      refine ⟨Or.inr ?_, by omega, ?_⟩
      · rcases h1 with h1 | h1
        · rw [h1]; exact List.mem_cons_self _ _
        · exact List.mem_cons_of_mem _ h1
      · intro f hf
        rcases List.mem_cons.mp hf with rfl | hf
        · exact h2
        · exact h3 f hf
    · rw [if_neg hgt]
      obtain ⟨h1, h2, h3⟩ := ih init
      refine ⟨?_, h2, ?_⟩
      · rcases h1 with h1 | h1
        · exact Or.inl h1
        · exact Or.inr (List.mem_cons_of_mem _ h1)
      · intro f hf
        rcases List.mem_cons.mp hf with rfl | hf
        · omega
        · exact h3 f hf

/-- For a non-empty list of positions the most common position is a bucket
that holds at least as many positions as any other. -/
theorem mostCommonPosition_spec (ps : List Int) (hps : ps ≠ []) :
    10 ∣ mostCommonPosition ps ∧
    0 < ps.countP (fun p => roundedPos p = mostCommonPosition ps) ∧
    ∀ m, ps.countP (fun p => roundedPos p = m) ≤
      ps.countP (fun p => roundedPos p = mostCommonPosition ps) := by
  have hg := grouped_groupedPositions ps
  obtain ⟨h1, _, h3⟩ := mostCommon_spec (objectEntries (groupedPositions ps)) (0, 0)
  obtain ⟨p, hp⟩ := List.exists_mem_of_ne_nil ps hps
  have hkey := hg.complete p hp
  obtain ⟨e, he, hek⟩ := List.mem_map.mp hkey
  have hepos := (hg.count e he).2
  have hle := h3 e ((mem_objectEntries _ e).mpr he)
  have hbest : mostCommon (objectEntries (groupedPositions ps)) ∈ groupedPositions ps := by
    unfold mostCommon
    rcases h1 with h1 | h1
    · rw [h1] at hle
      simp only at hle
      omega
    · exact (mem_objectEntries _ _).mp h1
  have hcount := hg.count _ hbest
  have hfst : (mostCommon (objectEntries (groupedPositions ps))).1 = mostCommonPosition ps := rfl
  rw [hfst] at hcount
  refine ⟨?_, ?_, ?_⟩
  · obtain ⟨q, hq⟩ : ∃ q ∈ ps, roundedPos q = mostCommonPosition ps := by
      have h0 : 0 < ps.countP (fun p => roundedPos p = mostCommonPosition ps) := by
        have := hcount.2
        omega
      obtain ⟨q, hq, hqe⟩ := List.countP_pos_iff.mp h0
      exact ⟨q, hq, by simpa using hqe⟩
    rw [← hq.2]
    exact roundedPos_dvd q
  · have := hcount.2
    omega
  · intro m
    by_cases hm : m ∈ keys (groupedPositions ps)
    · obtain ⟨f, hf, hfk⟩ := List.mem_map.mp hm
      have hfc := (hg.count f hf).1
      have hfle := h3 f ((mem_objectEntries _ f).mpr hf)
      rw [hfk] at hfc
      have hb := hcount.1
      unfold mostCommon at hb
      omega
    · have hz : ps.countP (fun p => roundedPos p = m) = 0 := by
        rw [List.countP_eq_zero]
        intro q hq hqe
        simp only [decide_eq_true_eq] at hqe
        exact hm (hqe ▸ hg.complete q hq)
      omega

theorem bucketCount_eq (blocks : List Annotation) (m : Int) (hm : 10 ∣ m) :
    bucketCount blocks m =
      (leftMarginPositions blocks).countP (fun p => roundedPos p = m) := by
  unfold bucketCount leftMarginPositions
  apply List.countP_congr
  intro x _
  simp only [decide_eq_true_eq]
  exact (roundedPos_eq_iff x m hm).symm

/-- C9. When layout information is present and some block has a bounding box
with a corner, the margin threshold is `m + 15` for a multiple `m` of 10 whose
bucket is not empty and holds at least as many of the boxed blocks (all of
them, matched to a line or not) as the bucket of any other multiple of 10; and
every line of the document is processed with that one threshold. -/
theorem margin_threshold_is_mode_plus_15 (blocks : List Annotation)
    (hlayout : hasLayoutInfo blocks = true)
    (hbox : ∃ b ∈ blocks, ∃ x, blockLeftX b = some x) :
    ∃ m, leftMarginThreshold blocks = some (m + 15) ∧ 10 ∣ m ∧
      0 < bucketCount blocks m ∧
      (∀ m2, 10 ∣ m2 → bucketCount blocks m2 ≤ bucketCount blocks m) ∧
      ∀ fullText inds, lineIndentations blocks (splitLines fullText) = .returns inds →
        segment fullText blocks =
          .returns (closeOpenQuestion
            (((splitLines fullText).zip inds).foldl (processLine true (some (m + 15)))
              SegState.initial) none) := by
  obtain ⟨b, hb, x, hx⟩ := hbox
  have hmem : x ∈ leftMarginPositions blocks :=
    List.mem_filterMap.mpr ⟨b, hb, hx⟩
  have hne : leftMarginPositions blocks ≠ [] := List.ne_nil_of_mem hmem
  obtain ⟨h1, h2, h3⟩ := mostCommonPosition_spec (leftMarginPositions blocks) hne
  have hthr : leftMarginThreshold blocks =
      some (mostCommonPosition (leftMarginPositions blocks) + 15) := by
    unfold leftMarginThreshold
    rw [hlayout]
    cases hps : leftMarginPositions blocks with
    | nil => exact absurd hps hne
    | cons p ps => rfl
  refine ⟨mostCommonPosition (leftMarginPositions blocks), hthr, h1, ?_, ?_, ?_⟩
  · rw [bucketCount_eq blocks _ h1]
    exact h2
  · intro m2 hm2
    rw [bucketCount_eq blocks _ h1, bucketCount_eq blocks _ hm2]
    exact h3 m2
  · intro fullText inds hinds
    simp only [segment, hinds, hthr, hlayout, emittedRecords, secondPass]

/-- C9 on `indentedAnswerBlocks`: two blocks at 10, one at 30 and one at 35 give
the buckets 10, 30 and 40, and the threshold 10 + 15. -/
theorem margin_threshold_is_mode_plus_15_witness :
    hasLayoutInfo indentedAnswerBlocks = true ∧
    blockLeftX (boxed "h" 10) = some 10 ∧
    leftMarginThreshold indentedAnswerBlocks = some 25 ∧
    bucketCount indentedAnswerBlocks 10 = 2 ∧
    ∃ m, leftMarginThreshold indentedAnswerBlocks = some (m + 15) ∧ 10 ∣ m ∧
      0 < bucketCount indentedAnswerBlocks m ∧
      (∀ m2, 10 ∣ m2 → bucketCount indentedAnswerBlocks m2 ≤ bucketCount indentedAnswerBlocks m) :=
  ⟨by decide, by decide, by decide, by decide,
   (margin_threshold_is_mode_plus_15 indentedAnswerBlocks (by decide)
      ⟨boxed "h" 10, by decide, 10, by decide⟩).imp
     (fun _ h => ⟨h.1, h.2.1, h.2.2.1, h.2.2.2.1⟩)⟩

/-! ## C10: documents without bounding boxes -/

/-- C10. If no block carries a bounding box, the margin signal and the
continuation-indentation signal are 0 on every line, and the result depends
only on the full text: two such block lists (the empty one included) give the
same records and the same returned object for the same `fullText`. -/
theorem result_depends_only_on_text (fullText : List Char) (poly1 poly2 : Option BoundingPoly)
    (blocks1 blocks2 : List Annotation) (h1 : NoBoxes blocks1) (h2 : NoBoxes blocks2) :
    (∀ (st : SegState) (ind : Option Int),
      marginSignal (hasLayoutInfo blocks1) (leftMarginThreshold blocks1) ind = 0 ∧
      continuationIndentSignal (hasLayoutInfo blocks1) (leftMarginThreshold blocks1) st ind
        = 0) ∧
    segment fullText blocks1 = segment fullText blocks2 ∧
    extractQuestionsAndAnswers (some (⟨fullText, poly1⟩ :: blocks1)) =
      extractQuestionsAndAnswers (some (⟨fullText, poly2⟩ :: blocks2)) ∧
    extractQuestionsAndAnswers (some (⟨fullText, poly1⟩ :: blocks1)) =
      extractQuestionsAndAnswers (some [⟨fullText, none⟩]) := by
  have e1 := segment_without_layout fullText blocks1 (hasLayoutInfo_of_noBoxes blocks1 h1)
  have e2 := segment_without_layout fullText blocks2 (hasLayoutInfo_of_noBoxes blocks2 h2)
  have e3 := segment_without_layout fullText [] rfl
  refine ⟨?_, ?_, ?_, ?_⟩
  · intro st ind
    rw [hasLayoutInfo_of_noBoxes blocks1 h1]
    exact ⟨marginSignal_false _ _, continuationIndentSignal_false _ _ _⟩
  · rw [e1, e2]
  · simp only [extractQuestionsAndAnswers, e1, e2]
  · simp only [extractQuestionsAndAnswers, e1, e3]

/-- C10 on the text `1. A`, `b` with two different lists of unboxed blocks. -/
theorem result_depends_only_on_text_witness :
    NoBoxes [textOnly "1. A", textOnly "b"] ∧ NoBoxes [textOnly "zzz"] ∧
    extractQuestionsAndAnswers
        (some (⟨"1. A\nb".toList, none⟩ :: [textOnly "1. A", textOnly "b"])) =
      extractQuestionsAndAnswers (some (⟨"1. A\nb".toList, none⟩ :: [textOnly "zzz"])) :=
  ⟨by decide, by decide,
   (result_depends_only_on_text "1. A\nb".toList none none
     [textOnly "1. A", textOnly "b"] [textOnly "zzz"] (by decide) (by decide)).2.2.1⟩

/-! ## C11: the records pushed by the second pass -/

/-- `join(' ')` puts one space between consecutive lines. -/
theorem joinSpace_eq_intercalate : ∀ l : List (List Char), joinSpace l = [' '].intercalate l
  | [] => rfl
  | [a] => by simp [joinSpace, List.intercalate, List.intersperse]
  | a :: b :: rest => by
    have ih := joinSpace_eq_intercalate (b :: rest)
    rw [joinSpace, ih]
    simp [List.intercalate, List.intersperse]

/-- C11. When a non-empty line is classified as a new question while a
question `q` with the accumulated lines `a :: as` is open, the pass appends
exactly one record: number `q`, answer the accumulated lines joined by single
spaces, confidence the score of the line that fired the decision (computed on
that line, in the state it was met); that score is at least 40.  At the end of
input a still-open question with accumulated lines is appended without a
confidence. -/
theorem closing_records (hasLayout : Bool) (thr : Option Int) (st : SegState)
    (q a : List Char) (as : List (List Char))
    (hq : st.currentQuestion = some q) (ha : st.currentAnswer = a :: as) :
    (∀ (raw : List Char) (ind : Option Int), trim raw ≠ [] →
      isLikelyNewQuestion hasLayout thr st (trim raw) ind = true →
      (processLine hasLayout thr st (raw, ind)).questionsAndAnswers =
          st.questionsAndAnswers ++
            [⟨q, [' '].intercalate (a :: as),
              some (newQuestionConfidence hasLayout thr st (trim raw) ind)⟩] ∧
        40 ≤ newQuestionConfidence hasLayout thr st (trim raw) ind) ∧
    closeOpenQuestion st none =
      st.questionsAndAnswers ++ [⟨q, [' '].intercalate (a :: as), none⟩] := by
  constructor
  · intro raw ind hne hnew
    constructor
    · simp only [processLine, hne, if_false, hnew, if_true, startQuestion, closeOpenQuestion,
        hq, ha, joinSpace_eq_intercalate]
    · simpa [isLikelyNewQuestion] using hnew
  · simp only [closeOpenQuestion, hq, ha, joinSpace_eq_intercalate]

/-- C11 on the text `1. Paris is`, `the capital`, blank, `2. Madrid`: the record
of question 1 carries the score 80 of the line `2. Madrid`, the record of
question 2 carries none. -/
theorem closing_records_witness :
    (secondPass false none [("1. Paris is".toList, none), ("the capital".toList, none),
        ("".toList, none)]).currentQuestion = some "1".toList ∧
    (secondPass false none [("1. Paris is".toList, none), ("the capital".toList, none),
        ("".toList, none)]).currentAnswer = ["Paris is".toList, "the capital".toList] ∧
    newQuestionConfidence false none
        (secondPass false none [("1. Paris is".toList, none), ("the capital".toList, none),
          ("".toList, none)]) (trim "2. Madrid".toList) none = 80 ∧
    (processLine false none
        (secondPass false none [("1. Paris is".toList, none), ("the capital".toList, none),
          ("".toList, none)]) ("2. Madrid".toList, none)).questionsAndAnswers =
      [⟨"1".toList, "Paris is the capital".toList, some 80⟩] ∧
    emittedRecords false none [("1. Paris is".toList, none), ("the capital".toList, none),
        ("".toList, none), ("2. Madrid".toList, none)] =
      [⟨"1".toList, "Paris is the capital".toList, some 80⟩,
        ⟨"2".toList, "Madrid".toList, none⟩] :=
  ⟨by decide, by decide, by decide,
   (((closing_records false none
      (secondPass false none [("1. Paris is".toList, none), ("the capital".toList, none),
        ("".toList, none)]) "1".toList "Paris is".toList ["the capital".toList]
      (by decide) (by decide)).1 "2. Madrid".toList none (by decide) (by decide)).1).trans
      (by decide),
   by decide⟩

/-! ## C12: the running average of the answer indentation -/

theorem noNewQuestion_cons (hasLayout : Bool) (thr : Option Int) (st : SegState)
    (e : List Char × Option Int) (rest : List (List Char × Option Int)) :
    noNewQuestion hasLayout thr st (e :: rest) =
      ((decide (trim e.1 = []) || !isLikelyNewQuestion hasLayout thr st (trim e.1) e.2) &&
        noNewQuestion hasLayout thr (processLine hasLayout thr st e) rest) := rfl

/-- What a line that starts no question does to the question, the count and
the average. -/
theorem processLine_average (hasLayout : Bool) (thr : Option Int) (st : SegState)
    (e : List Char × Option Int)
    (h : (decide (trim e.1 = []) || !isLikelyNewQuestion hasLayout thr st (trim e.1) e.2) = true) :
    (processLine hasLayout thr st e).currentQuestion = st.currentQuestion ∧
    (processLine hasLayout thr st e).answerIndentationCount =
      st.answerIndentationCount +
        (contributions hasLayout st.currentQuestion.isSome [e]).length ∧
    (processLine hasLayout thr st e).averageAnswerIndentation *
        ((processLine hasLayout thr st e).answerIndentationCount : Rat) =
      st.averageAnswerIndentation * (st.answerIndentationCount : Rat) +
        (((contributions hasLayout st.currentQuestion.isSome [e]).sum : Int) : Rat) := by
  obtain ⟨raw, ind⟩ := e
  by_cases hne : trim raw = []
  · have hstep : processLine hasLayout thr st (raw, ind) =
        { st with previousLineWasEmpty := true } := by simp [processLine, hne]
    rw [hstep]
    cases st.currentQuestion <;> simp [contributions, hne]
  · simp only [hne, decide_False, Bool.false_or, Bool.not_eq_true'] at h
    have hstep : processLine hasLayout thr st (raw, ind) =
        continueAnswer hasLayout st (trim raw) ind := by simp [processLine, hne, h]
    rw [hstep]
    unfold continueAnswer
    cases hq : st.currentQuestion with
    | none => simp [contributions]
    | some q =>
      by_cases hk : indentationKnown hasLayout ind = true
      · have hind : ∃ x, ind = some x := by
          cases ind with
          | none => simp [indentationKnown] at hk
          | some x => exact ⟨x, rfl⟩
        obtain ⟨x, rfl⟩ := hind
        have hc : contributions hasLayout (some q).isSome [(raw, some x)] = [x] := by
          simp [contributions, hne, hk]
        rw [hc]
        simp only [hk, if_true, List.length_singleton, List.sum_singleton, Option.getD_some,
          true_and, Nat.cast_add, Nat.cast_one]
        have hpos : ((st.answerIndentationCount : Rat) + 1) ≠ 0 := by positivity
        field_simp
      · simp [hk, contributions, hne]

/-- Over lines that start no question the count grows by the number of
contributing lines and count times average grows by their sum. -/
theorem foldl_average (hasLayout : Bool) (thr : Option Int)
    (entries : List (List Char × Option Int)) :
    ∀ st : SegState, noNewQuestion hasLayout thr st entries = true →
      (entries.foldl (processLine hasLayout thr) st).currentQuestion = st.currentQuestion ∧
      (entries.foldl (processLine hasLayout thr) st).answerIndentationCount =
        st.answerIndentationCount +
          (contributions hasLayout st.currentQuestion.isSome entries).length ∧
      (entries.foldl (processLine hasLayout thr) st).averageAnswerIndentation *
          ((entries.foldl (processLine hasLayout thr) st).answerIndentationCount : Rat) =
        st.averageAnswerIndentation * (st.answerIndentationCount : Rat) +
          (((contributions hasLayout st.currentQuestion.isSome entries).sum : Int) : Rat) := by
  induction entries with
  | nil => intro st _; simp [contributions]
  | cons e rest ih =>
    intro st h
    rw [noNewQuestion_cons, Bool.and_eq_true] at h
    obtain ⟨h1, h2, h3⟩ := processLine_average hasLayout thr st e h.1
    obtain ⟨i1, i2, i3⟩ := ih (processLine hasLayout thr st e) h.2
    rw [h1] at i1 i2 i3
    have hsplit : contributions hasLayout st.currentQuestion.isSome (e :: rest) =
        contributions hasLayout st.currentQuestion.isSome [e] ++
          contributions hasLayout st.currentQuestion.isSome rest := by
      unfold contributions
      cases st.currentQuestion.isSome
      · simp
      · simp only [if_true]
        rw [← List.filterMap_append]
        rfl
    simp only [List.foldl_cons]
    refine ⟨i1, ?_, ?_⟩
    · rw [i2, h2, hsplit, List.length_append]
      omega
    · rw [i3, h3, hsplit, List.sum_append]
      push_cast
      ring

/-- C12. After a line that starts a question with indentation `x0` (0 when none
is resolved), over following lines none of which starts a question, the count
is `k + 1` and the running average is `(x0 + x1 + ... + xk) / (k + 1)` in exact
arithmetic, where `x1 .. xk` are the indentations contributed by those lines.
A new question sets the average to its own indentation and the count to 1, and
a contributing line updates them to `(avg * count + x) / (count + 1)` and
`count + 1`. -/
theorem running_average (hasLayout : Bool) (thr : Option Int) (st0 : SegState)
    (raw0 : List Char) (ind0 : Option Int) (entries : List (List Char × Option Int))
    (hne : trim raw0 ≠ [])
    (hnew : isLikelyNewQuestion hasLayout thr st0 (trim raw0) ind0 = true)
    (hcont : noNewQuestion hasLayout thr (processLine hasLayout thr st0 (raw0, ind0))
      entries = true) :
    ((processLine hasLayout thr st0 (raw0, ind0)).averageAnswerIndentation =
        (currentIndentation hasLayout ind0 : Int) ∧
      (processLine hasLayout thr st0 (raw0, ind0)).answerIndentationCount = 1) ∧
    (entries.foldl (processLine hasLayout thr)
        (processLine hasLayout thr st0 (raw0, ind0))).answerIndentationCount =
      (contributions hasLayout
        (processLine hasLayout thr st0 (raw0, ind0)).currentQuestion.isSome entries).length
        + 1 ∧
    (entries.foldl (processLine hasLayout thr)
        (processLine hasLayout thr st0 (raw0, ind0))).averageAnswerIndentation =
      (((currentIndentation hasLayout ind0 : Int) : Rat) +
          (((contributions hasLayout
            (processLine hasLayout thr st0 (raw0, ind0)).currentQuestion.isSome
            entries).sum : Int) : Rat)) /
        (((contributions hasLayout
          (processLine hasLayout thr st0 (raw0, ind0)).currentQuestion.isSome
          entries).length : Rat) + 1) ∧
    (∀ (st : SegState) (q line : List Char) (x : Int), st.currentQuestion = some q →
      indentationKnown hasLayout (some x) = true →
      (continueAnswer hasLayout st line (some x)).averageAnswerIndentation =
          (st.averageAnswerIndentation * st.answerIndentationCount + (x : Rat)) /
            (st.answerIndentationCount + 1) ∧
        (continueAnswer hasLayout st line (some x)).answerIndentationCount =
          st.answerIndentationCount + 1) := by
  have hstart : processLine hasLayout thr st0 (raw0, ind0) =
      startQuestion hasLayout thr st0 (trim raw0) ind0 := by
    simp [processLine, hne, hnew]
  have havg : (processLine hasLayout thr st0 (raw0, ind0)).averageAnswerIndentation =
      (currentIndentation hasLayout ind0 : Int) := by rw [hstart]; rfl
  have hcount : (processLine hasLayout thr st0 (raw0, ind0)).answerIndentationCount = 1 := by
    rw [hstart]; rfl
  obtain ⟨_, h2, h3⟩ := foldl_average hasLayout thr entries _ hcont
  rw [hcount] at h2
  rw [hcount, havg] at h3
  refine ⟨⟨havg, hcount⟩, by omega, ?_, ?_⟩
  · rw [h2] at h3
    have hpos : (((contributions hasLayout
        (processLine hasLayout thr st0 (raw0, ind0)).currentQuestion.isSome
        entries).length : Rat) + 1) ≠ 0 := by positivity
    rw [eq_div_iff hpos]
    rw [Nat.cast_add, Nat.cast_one, mul_one] at h3
    linarith
  · intro st q line x hq hk
    simp [continueAnswer, hq, hk]

/-- C12 on a question line at 30 followed by continuation lines at 35 and 40
(margin threshold 25): the count is 3 and the average (30 + 35 + 40) / 3. -/
theorem running_average_witness :
    isLikelyNewQuestion true (some 25) SegState.initial (trim "1. A".toList) (some 30) = true ∧
    noNewQuestion true (some 25)
        (processLine true (some 25) SegState.initial ("1. A".toList, some 30))
        [("b".toList, some 35), ("c".toList, some 40)] = true ∧
    contributions true true [("b".toList, some 35), ("c".toList, some 40)] = [35, 40] ∧
    ([("b".toList, some 35), ("c".toList, some 40)].foldl (processLine true (some 25))
        (processLine true (some 25) SegState.initial
          ("1. A".toList, some 30))).answerIndentationCount = 3 ∧
    ([("b".toList, some 35), ("c".toList, some 40)].foldl (processLine true (some 25))
        (processLine true (some 25) SegState.initial
          ("1. A".toList, some 30))).averageAnswerIndentation = 35 :=
  ⟨by decide, by decide!, by decide,
   ((running_average true (some 25) SegState.initial "1. A".toList (some 30)
      [("b".toList, some 35), ("c".toList, some 40)] (by decide) (by decide)
      (by decide!)).2.1).trans (by decide),
   ((running_average true (some 25) SegState.initial "1. A".toList (some 30)
      [("b".toList, some 35), ("c".toList, some 40)] (by decide) (by decide)
      (by decide!)).2.2.1).trans (by decide!)⟩

/-! ## C13: one more blank line after a blank line -/

/-- A line without a line feed is the first piece of the split. -/
theorem splitLines_append_lf (l : List Char) (hl : '\n' ∉ l) (rest : List Char) :
    splitLines (l ++ '\n' :: rest) = l :: splitLines rest := by
  induction l with
  | nil => simp [splitLines]
  | cons c l ih =>
    have hc : c ≠ '\n' := fun h => hl (h ▸ List.mem_cons_self _ _)
    have hl2 : '\n' ∉ l := fun h => hl (List.mem_cons_of_mem _ h)
    have e := ih hl2
    simp only [List.cons_append, splitLines, hc, if_false, List.append_eq]
    rw [e]

theorem splitLines_of_no_lf (l : List Char) (hl : '\n' ∉ l) : splitLines l = [l] := by
  induction l with
  | nil => rfl
  | cons c l ih =>
    have hc : c ≠ '\n' := fun h => hl (h ▸ List.mem_cons_self _ _)
    have hl2 : '\n' ∉ l := fun h => hl (List.mem_cons_of_mem _ h)
    simp only [splitLines, hc, if_false, ih hl2]

/-- Every non-empty list of lines without line feeds is the split of a text. -/
theorem splitLines_joinLines : ∀ (ls : List (List Char)), ls ≠ [] →
    (∀ l ∈ ls, '\n' ∉ l) → splitLines (joinLines ls) = ls
  | [], h, _ => absurd rfl h
  | [a], _, hl => splitLines_of_no_lf a (hl a (List.mem_singleton_self a))
  | a :: b :: rest, _, hl => by
    rw [joinLines, splitLines_append_lf a (hl a (List.mem_cons_self _ _)),
      splitLines_joinLines (b :: rest) (List.cons_ne_nil _ _)
        (fun l h => hl l (List.mem_cons_of_mem _ h))]

theorem lineIndentation_blank (blocks : List Annotation) (b : List Char) (hb : trim b = []) :
    lineIndentation blocks b = .returns none := by
  simp [lineIndentation, hb]

theorem collectIndentations_cons (blocks : List Annotation) (raw : List Char)
    (rest : List (List Char)) :
    collectIndentations blocks (raw :: rest) =
      match lineIndentation blocks raw with
      | .throws e => .throws e
      | .returns v =>
        match collectIndentations blocks rest with
        | .throws e => .throws e
        | .returns vs => .returns (v :: vs) := rfl

/-- The first pass gives the inserted blank line an empty slot and leaves the
other slots as they are; it throws on the one text exactly when it throws on
the other. -/
theorem collectIndentations_insert (blocks : List Annotation) (b b2 : List Char)
    (post : List (List Char)) (hb : trim b = []) (hb2 : trim b2 = []) :
    ∀ pre : List (List Char),
      (∀ e, collectIndentations blocks (pre ++ b :: post) = .throws e →
        collectIndentations blocks (pre ++ b :: b2 :: post) = .throws e) ∧
      (∀ inds, collectIndentations blocks (pre ++ b :: post) = .returns inds →
        ∃ ip ipost, ip.length = pre.length ∧ inds = ip ++ none :: ipost ∧
          collectIndentations blocks (pre ++ b :: b2 :: post) =
            .returns (ip ++ none :: none :: ipost)) := by
  intro pre
  induction pre with
  | nil =>
    simp only [List.nil_append, collectIndentations_cons, lineIndentation_blank blocks b hb,
      lineIndentation_blank blocks b2 hb2]
    cases collectIndentations blocks post with
    | throws e => simp
    | returns vs =>
      refine ⟨by simp, ?_⟩
      intro inds h
      simp only [Outcome.returns.injEq] at h
      exact ⟨[], vs, rfl, by simp [← h], rfl⟩
  | cons raw pre ih =>
    simp only [List.cons_append, collectIndentations_cons]
    cases lineIndentation blocks raw with
    | throws e => simp
    | returns v =>
      cases h1 : collectIndentations blocks (pre ++ b :: post) with
      | throws e =>
        rw [ih.1 e h1]
        simp
      | returns vs =>
        obtain ⟨ip, ipost, hlen, hvs, h2⟩ := ih.2 vs h1
        rw [h2]
        refine ⟨by simp, ?_⟩
        intro inds h
        simp only [Outcome.returns.injEq] at h
        exact ⟨v :: ip, ipost, by simp [hlen], by simp [← h, hvs], rfl⟩

theorem lineIndentations_insert (blocks : List Annotation) (b b2 : List Char)
    (pre post : List (List Char)) (hb : trim b = []) (hb2 : trim b2 = []) :
    (∀ e, lineIndentations blocks (pre ++ b :: post) = .throws e →
      lineIndentations blocks (pre ++ b :: b2 :: post) = .throws e) ∧
    (∀ inds, lineIndentations blocks (pre ++ b :: post) = .returns inds →
      ∃ ip ipost, ip.length = pre.length ∧ inds = ip ++ none :: ipost ∧
        lineIndentations blocks (pre ++ b :: b2 :: post) =
          .returns (ip ++ none :: none :: ipost)) := by
  unfold lineIndentations
  cases hasLayoutInfo blocks with
  | true => simpa using collectIndentations_insert blocks b b2 post hb hb2 pre
  | false =>
    refine ⟨by simp, ?_⟩
    intro inds h
    simp only [Bool.false_eq_true, if_false, Outcome.returns.injEq] at h
    refine ⟨pre.map fun _ => none, post.map fun _ => none, by simp, by simp [← h], ?_⟩
    simp

/-- A second blank line changes nothing in the state of the second pass. -/
theorem processLine_blank_twice (hasLayout : Bool) (thr : Option Int) (st : SegState)
    (b b2 : List Char) (hb : trim b = []) (hb2 : trim b2 = []) :
    processLine hasLayout thr (processLine hasLayout thr st (b, none)) (b2, none) =
      processLine hasLayout thr st (b, none) := by
  simp [processLine, hb, hb2]

theorem foldl_insert_blank (hasLayout : Bool) (thr : Option Int) (b b2 : List Char)
    (pre post : List (List Char)) (ip ipost : List (Option Int)) (hlen : ip.length = pre.length)
    (hb : trim b = []) (hb2 : trim b2 = []) (st : SegState) :
    ((pre ++ b :: b2 :: post).zip (ip ++ none :: none :: ipost)).foldl
        (processLine hasLayout thr) st =
      ((pre ++ b :: post).zip (ip ++ none :: ipost)).foldl (processLine hasLayout thr) st := by
  rw [List.zip_append hlen.symm, List.zip_append hlen.symm]
  simp only [List.zip_cons_cons, List.foldl_append, List.foldl_cons]
  rw [processLine_blank_twice hasLayout thr _ b b2 hb hb2]

/-- The records before sorting are the same with and without the extra blank
line. -/
theorem segment_insert_blank (blocks : List Annotation) (text1 text2 b b2 : List Char)
    (pre post : List (List Char))
    (h1 : splitLines text1 = pre ++ b :: post)
    (h2 : splitLines text2 = pre ++ b :: b2 :: post)
    (hb : trim b = []) (hb2 : trim b2 = []) :
    segment text2 blocks = segment text1 blocks := by
  unfold segment
  simp only [h1, h2]
  obtain ⟨hthrow, hret⟩ := lineIndentations_insert blocks b b2 pre post hb hb2
  cases h : lineIndentations blocks (pre ++ b :: post) with
  | throws e => rw [hthrow e h]
  | returns inds =>
    obtain ⟨ip, ipost, hlen, hinds, h3⟩ := hret inds h
    rw [h3, hinds]
    simp only [emittedRecords, secondPass]
    rw [foldl_insert_blank (hasLayoutInfo blocks) (leftMarginThreshold blocks) b b2 pre post ip ipost
      hlen hb hb2]

/-- C13. For every document, with or without layout data, a text whose lines
are those of another text with one more blank (empty or white-space-only) line
put directly after a blank line gives the same result: the same returned
object or the same exception.  Every list of lines is the split of a text, so
this covers every place where such a line can be inserted. -/
theorem blank_line_insertion (first1 first2 : Annotation) (blocks : List Annotation)
    (b b2 : List Char) (pre post : List (List Char))
    (h1 : splitLines first1.description = pre ++ b :: post)
    (h2 : splitLines first2.description = pre ++ b :: b2 :: post)
    (hb : trim b = []) (hb2 : trim b2 = []) :
    extractQuestionsAndAnswers (some (first2 :: blocks)) =
      extractQuestionsAndAnswers (some (first1 :: blocks)) ∧
    (('\n' ∉ b ∧ '\n' ∉ b2 ∧ (∀ l ∈ pre, '\n' ∉ l) ∧ (∀ l ∈ post, '\n' ∉ l)) →
      splitLines (joinLines (pre ++ b :: post)) = pre ++ b :: post ∧
      splitLines (joinLines (pre ++ b :: b2 :: post)) = pre ++ b :: b2 :: post) := by
  constructor
  · simp only [extractQuestionsAndAnswers,
      segment_insert_blank blocks first1.description first2.description b b2 pre post h1 h2 hb hb2]
  · rintro ⟨hlb, hlb2, hpre, hpost⟩
    constructor
    · apply splitLines_joinLines _ (by simp)
      intro l hl
      rcases List.mem_append.mp hl with h | h
      · exact hpre l h
      · rcases List.mem_cons.mp h with rfl | h
        · exact hlb
        · exact hpost l h
    · apply splitLines_joinLines _ (by simp)
      intro l hl
      rcases List.mem_append.mp hl with h | h
      · exact hpre l h
      · rcases List.mem_cons.mp h with rfl | h
        · exact hlb
        · rcases List.mem_cons.mp h with rfl | h
          · exact hlb2
          · exact hpost l h

/-- C13 on a document with layout: `1. A`, blank, `note` against the same text
with a line of a space and a tab after the blank line. -/
theorem blank_line_insertion_witness :
    splitLines "1. A\n\nnote".toList = ["1. A".toList] ++ [] :: ["note".toList] ∧
    splitLines "1. A\n\n \t\nnote".toList =
      ["1. A".toList] ++ [] :: " \t".toList :: ["note".toList] ∧
    trim " \t".toList = [] ∧
    extractQuestionsAndAnswers
        (some (textOnly "1. A\n\n \t\nnote" :: [boxed "1. A" 10, boxed "note" 12])) =
      extractQuestionsAndAnswers
        (some (textOnly "1. A\n\nnote" :: [boxed "1. A" 10, boxed "note" 12])) ∧
    extractQuestionsAndAnswers
        (some (textOnly "1. A\n\nnote" :: [boxed "1. A" 10, boxed "note" 12])) =
      .returns ⟨true, none, some [⟨"1".toList, "A note".toList, none⟩]⟩ :=
  ⟨by decide, by decide, by decide,
   (blank_line_insertion (textOnly "1. A\n\nnote") (textOnly "1. A\n\n \t\nnote")
      [boxed "1. A" 10, boxed "note" 12] [] " \t".toList ["1. A".toList] ["note".toList]
      (by decide) (by decide) (by decide) (by decide)).1,
   by decide!⟩

/-! ## C14: a response that is a complete JSON value -/

/-- C14: when `JSON.parse` accepts the whole trimmed response, the ladder yields
exactly that value from its first step (line 856) and runs none of the later
steps, whatever the two patterns would find in the text.  The five-field
record parses to itself, and lines 1012-1024 applied to it keep the five
fields. -/
theorem direct_parse_wins (parse : List Char → Option Json) (text : List Char) (v : Json)
    (h : parse (trim text) = some v) :
    extractionLadder parse text = .direct v ∧
    (extractionLadder parse text).feedbackData = v ∧
    extractionLadder jsonParse fiveFieldText = .direct fiveFieldRecord ∧
    formattedFeedback fiveFieldRecord none = .returns
      { strengths := [.str "a".toList]
        areasForImprovement := [.str "b".toList]
        missingConcepts := [.str "c".toList]
        topicsToImprove := [.str "d".toList]
        subjectArea := some (.str "Math".toList)
        educationalLevel := .str "Unknown".toList } := by
  refine ⟨?_, ?_, by decide, by decide⟩
  · simp [extractionLadder, h]
  · simp [extractionLadder, h, LadderResult.feedbackData]

/-- C14 at a JSON string that holds a fenced block: the string is the result. -/
theorem direct_parse_wins_witness :
    jsonParse (trim "\"```[1]```\"".toList) = some (.str "```[1]```".toList) ∧
    extractionLadder jsonParse "\"```[1]```\"".toList = .direct (.str "```[1]```".toList) :=
  ⟨by decide, (direct_parse_wins jsonParse _ _ (by decide)).1⟩

/-! ## C15: a fenced block inside prose -/

theorem lazyUntilFence_cons (c : Char) (t : List Char) :
    lazyUntilFence (c :: t) =
      if fence.isPrefixOf (c :: t) then some ([], fence)
      else if c = '\n' && fence.isPrefixOf t then some ([], '\n' :: fence)
      else
        match lazyUntilFence t with
        | some (capture, closing) => some (c :: capture, closing)
        | none => none :=
  rfl

theorem fencedBlockMatch_cons (c : Char) (t : List Char) :
    fencedBlockMatch (c :: t) =
      if fence.isPrefixOf (c :: t) then
        match fenceAt ((c :: t).drop 3) with
        | some m => some m
        | none => fencedBlockMatch t
      else fencedBlockMatch t :=
  rfl

theorem fenceFree_cons (c : Char) (t : List Char) :
    fenceFree (c :: t) = (!fence.isPrefixOf (c :: t ++ fence) && fenceFree t) :=
  rfl

theorem fence_isPrefixOf_append (l s : List Char) :
    fence.isPrefixOf (l ++ fence ++ s) = fence.isPrefixOf (l ++ fence) := by
  rcases l with _ | ⟨a, _ | ⟨b, _ | ⟨c, l⟩⟩⟩ <;> simp [fence, List.isPrefixOf]

theorem fence_isPrefixOf_self (s : List Char) : fence.isPrefixOf (fence ++ s) = true := by
  simp [fence, List.isPrefixOf]

theorem fenceFree_suffix (a b : List Char) (h : fenceFree (a ++ b) = true) :
    fenceFree b = true := by
  induction a with
  | nil => simpa using h
  | cons c a ih =>
    rw [List.cons_append, fenceFree_cons] at h
    simp only [Bool.and_eq_true] at h
    exact ih h.2

theorem fenceFree_head (c : Char) (t s : List Char) (h : fenceFree (c :: t) = true) :
    fence.isPrefixOf (c :: (t ++ fence ++ s)) = false := by
  rw [fenceFree_cons] at h
  simp only [Bool.and_eq_true, Bool.not_eq_true'] at h
  have e : c :: (t ++ fence ++ s) = (c :: t) ++ fence ++ s := rfl
  rw [e, fence_isPrefixOf_append]
  exact h.1

theorem fenceFree_tail (c : Char) (t : List Char) (h : fenceFree (c :: t) = true) :
    fenceFree t = true := fenceFree_suffix [c] t h

theorem fencedBlockMatch_skip (pre s : List Char) (m : List Char × List Char)
    (hpre : fenceFree pre = true) (hm : fenceAt s = some m) :
    fencedBlockMatch (pre ++ fence ++ s) = some m := by
  induction pre with
  | nil =>
    have e : [] ++ fence ++ s = fence.head! :: (fence.tail ++ s) := rfl
    have e3 : (fence.head! :: (fence.tail ++ s)).drop 3 = s := rfl
    rw [e, fencedBlockMatch_cons, e3, hm, ← e]
    simp [fence_isPrefixOf_self]
  | cons c p ih =>
    have e : (c :: p) ++ fence ++ s = c :: (p ++ fence ++ s) := rfl
    rw [e, fencedBlockMatch_cons, fenceFree_head c p s hpre]
    simpa using ih (fenceFree_tail c p hpre)

theorem lazyUntilFence_fenceFree (body post : List Char) (h : fenceFree body = true) :
    ∃ capture closing, lazyUntilFence (body ++ fence ++ post) = some (capture, closing) ∧
      (capture = body ∨ capture ++ ['\n'] = body) := by
  induction body with
  | nil =>
    refine ⟨[], fence, ?_, Or.inl rfl⟩
    have e : [] ++ fence ++ post = fence.head! :: (fence.tail ++ post) := rfl
    rw [e, lazyUntilFence_cons, ← e]
    simp [fence_isPrefixOf_self]
  | cons c t ih =>
    have e : (c :: t) ++ fence ++ post = c :: (t ++ fence ++ post) := rfl
    rw [e, lazyUntilFence_cons, fenceFree_head c t post h]
    have ht := fenceFree_tail c t h
    by_cases hc : (c = '\n' && fence.isPrefixOf (t ++ fence ++ post)) = true
    · have hnil : t = [] := by
        rcases t with _ | ⟨d, t⟩
        · rfl
        · have := fenceFree_head d t post ht
          simp only [Bool.and_eq_true, decide_eq_true_eq] at hc
          rw [List.cons_append, List.cons_append, this] at hc
          exact absurd hc.2 (by simp)
      subst hnil
      simp only [Bool.and_eq_true, decide_eq_true_eq] at hc
      refine ⟨[], '\n' :: fence, ?_, Or.inr (by simp [hc.1])⟩
      simp [hc.1, fence_isPrefixOf_self]
    · obtain ⟨capture, closing, hl, hcap⟩ := ih ht
      refine ⟨c :: capture, closing, ?_, ?_⟩
      · simp only [Bool.not_eq_true] at hc
        simp only [hc, hl, Bool.false_eq_true, if_false]
      · rcases hcap with hcap | hcap
        · exact Or.inl (by rw [hcap])
        · exact Or.inr (by rw [List.cons_append, hcap])

theorem trim_dropWhile (s : List Char) : trim (s.dropWhile isWs) = trim s := by
  unfold trim
  rw [List.dropWhile_idempotent]

theorem dropWhile_append_of_ne_nil (p : Char → Bool) (a b : List Char)
    (h : a.dropWhile p ≠ []) : (a ++ b).dropWhile p = a.dropWhile p ++ b := by
  induction a with
  | nil => simp at h
  | cons c a ih =>
    by_cases hc : p c = true
    · simp only [List.cons_append, List.dropWhile_cons, hc, if_true] at h ⊢
      exact ih h
    · simp [List.dropWhile_cons, hc]

theorem trim_append_ws (s : List Char) (w : Char) (hw : isWs w = true) :
    trim (s ++ [w]) = trim s := by
  unfold trim
  by_cases h : s.dropWhile isWs = []
  · have hall : ∀ c ∈ s, isWs c = true := by
      simpa [List.dropWhile_eq_nil_iff] using h
    have h2 : (s ++ [w]).dropWhile isWs = [] := by
      rw [List.dropWhile_eq_nil_iff]
      intro c hcm
      rcases List.mem_append.1 hcm with hcm | hcm
      · exact hall c hcm
      · simp at hcm
        rw [hcm]
        exact hw
    rw [h, h2]
  · rw [dropWhile_append_of_ne_nil isWs s [w] h]
    simp [List.dropWhile_cons, hw]

theorem dropWhile_ne_nil_of_trim (s : List Char) (h : trim s ≠ []) :
    s.dropWhile isWs ≠ [] := by
  intro e
  apply h
  simp [trim, e]

theorem fenceAt_tagged (tag inner post : List Char)
    (htag : tag = [] ∧ inner.head? ≠ some 'j' ∨ tag = "json".toList)
    (hinner : fenceFree inner = true) (hne : trim inner ≠ []) :
    ∃ capture whole, fenceAt (tag ++ inner ++ fence ++ post) = some (capture, whole) ∧
      trim capture = trim inner := by
  have hbody : inner.dropWhile isWs ≠ [] := dropWhile_ne_nil_of_trim inner hne
  have hfree : fenceFree (inner.dropWhile isWs) = true := by
    apply fenceFree_suffix (inner.takeWhile isWs)
    rw [List.takeWhile_append_dropWhile]
    exact hinner
  obtain ⟨capture, closing, hl, hcap⟩ := lazyUntilFence_fenceFree _ post hfree
  have htrim : trim capture = trim inner := by
    rcases hcap with hcap | hcap
    · rw [hcap, trim_dropWhile]
    · rw [← trim_dropWhile inner, ← hcap, trim_append_ws _ _ (by decide)]
  have hdrop : (inner ++ fence ++ post).dropWhile isWs =
      inner.dropWhile isWs ++ fence ++ post := by
    rw [List.append_assoc, dropWhile_append_of_ne_nil isWs inner _ hbody, List.append_assoc]
  rcases htag with ⟨ht, hj⟩ | ht
  · subst ht
    have hp : "json".toList.isPrefixOf ([] ++ inner ++ fence ++ post) = false := by
      rcases inner with _ | ⟨c, inner⟩
      · simp [fence, List.isPrefixOf]
      · have hc : c ≠ 'j' := fun e => hj (by simp [e])
        simp [List.isPrefixOf, Ne.symm hc]
    refine ⟨capture,
      fence ++ [] ++ (inner ++ fence ++ post).takeWhile isWs ++ capture ++ closing, ?_, htrim⟩
    unfold fenceAt
    simp only [hp]
    simp only [Bool.false_eq_true, if_false, List.length_nil, List.drop_zero, List.nil_append,
      hdrop, hl, List.append_nil]
  · subst ht
    have hp : "json".toList.isPrefixOf ("json".toList ++ inner ++ fence ++ post) = true := by
      simp [List.isPrefixOf]
    have hd : ("json".toList ++ inner ++ fence ++ post).drop "json".toList.length =
        inner ++ fence ++ post := rfl
    refine ⟨capture,
      fence ++ "json".toList ++ (inner ++ fence ++ post).takeWhile isWs ++ capture ++ closing,
      ?_, htrim⟩
    unfold fenceAt
    simp only [hp]
    simp only [if_true, hd, hdrop, hl]

/-- C15: let the text be prose, an opening fence with the tag `json` or without
a tag, a content, a closing fence and more prose, where the opening fence is
the first of the text (no fence begins in the prose before it) and the closing
fence is the first after the content (no fence begins in the content), and let
the content not be blank.  When `JSON.parse` rejects the whole trimmed text and
accepts the trimmed content with value `v`, the ladder yields `v` from its
second step, which is what the first step yields on the content alone. -/
theorem fenced_block_parse (parse : List Char → Option Json)
    (pre tag inner post : List Char) (v : Json)
    (htag : tag = [] ∧ inner.head? ≠ some 'j' ∨ tag = "json".toList)
    (hpre : fenceFree pre = true) (hinner : fenceFree inner = true) (hne : trim inner ≠ [])
    (hfail : parse (trim (pre ++ fence ++ (tag ++ inner ++ fence ++ post))) = none)
    (hv : parse (trim inner) = some v) :
    extractionLadder parse (pre ++ fence ++ (tag ++ inner ++ fence ++ post)) = .fromMatch v ∧
    extractionLadder parse inner = .direct v := by
  obtain ⟨capture, whole, hat, htrim⟩ := fenceAt_tagged tag inner post htag hinner hne
  have hcap : capture ≠ [] := by
    intro e
    apply hne
    rw [← htrim, e]
    rfl
  have hm : jsonMatchString (pre ++ fence ++ (tag ++ inner ++ fence ++ post)) = some capture := by
    unfold jsonMatchString
    rw [fencedBlockMatch_skip pre _ _ hpre hat]
    simp [hcap]
  constructor
  · unfold extractionLadder
    rw [hfail, hm]
    simp only [htrim, hv]
  · unfold extractionLadder
    rw [hv]

/-- C15 at the object `a: 1` in a block tagged `json` between two sentences. -/
theorem fenced_block_parse_witness :
    extractionLadder jsonParse
        ("Here is the feedback:\n".toList ++ fence ++
          ("json".toList ++ "\n\x7b\"a\": 1\x7d\n".toList ++ fence ++ "\nDone.".toList)) =
      .fromMatch (.obj [("a".toList, .num 1 0)]) :=
  (fenced_block_parse jsonParse "Here is the feedback:\n".toList "json".toList
    "\n\x7b\"a\": 1\x7d\n".toList "\nDone.".toList (.obj [("a".toList, .num 1 0)])
    (Or.inr rfl) (by decide) (by decide) (by decide) (by decide) (by decide)).1

/-! ## C16: prose with two headings -/

/-- C16 (counterexample): for the prose with the two headings, `missingConcepts`
and `topicsToImprove` are empty arrays after manual extraction, and lines
1018-1021 keep an empty array: neither field is its one-element placeholder
list. -/
theorem absent_headings_give_empty_lists :
    extractionLadder jsonParse twoHeadingProse =
      .manual (extractFeedbackFromText twoHeadingProse) ∧
    (extractFeedbackFromText twoHeadingProse).missingConcepts = [] ∧
    (extractFeedbackFromText twoHeadingProse).topicsToImprove = [] ∧
    formatListField ((extractFeedbackFromText twoHeadingProse).toJson.field "missingConcepts")
        "Some key concepts from the reference answer are missing" ≠
      [.str "Some key concepts from the reference answer are missing".toList] ∧
    formatListField ((extractFeedbackFromText twoHeadingProse).toJson.field "topicsToImprove")
        "Core subject fundamentals" ≠
      [.str "Core subject fundamentals".toList] := by
  decide

/-- C16 (amended): when `JSON.parse` rejects the prose with the two headings,
the ladder reaches manual extraction at line 870, which returns
`strengths = ["a","b"]`, `areasForImprovement = ["c"]`, empty arrays for
`missingConcepts` and `topicsToImprove`, and `subjectArea = "General academics"`;
lines 1014-1021 leave the four arrays as they are. -/
theorem prose_with_two_headings (parse : List Char → Option Json)
    (h : parse (trim twoHeadingProse) = none) :
    extractionLadder parse twoHeadingProse = .manual
      { strengths := ["a".toList, "b".toList]
        areasForImprovement := ["c".toList]
        missingConcepts := []
        topicsToImprove := []
        subjectArea := "General academics".toList } ∧
    formatListField ((extractionLadder parse twoHeadingProse).feedbackData.field "strengths")
        "Good attempt at answering the question" = [.str "a".toList, .str "b".toList] ∧
    formatListField
        ((extractionLadder parse twoHeadingProse).feedbackData.field "areasForImprovement")
        "Work on being more specific in your answers" = [.str "c".toList] ∧
    formatListField
        ((extractionLadder parse twoHeadingProse).feedbackData.field "missingConcepts")
        "Some key concepts from the reference answer are missing" = [] ∧
    formatListField
        ((extractionLadder parse twoHeadingProse).feedbackData.field "topicsToImprove")
        "Core subject fundamentals" = [] := by
  have hm : jsonMatchString twoHeadingProse = none := by decide
  have he : extractionLadder parse twoHeadingProse =
      .manual (extractFeedbackFromText twoHeadingProse) := by
    simp [extractionLadder, h, hm]
  rw [he]
  decide

/-- C16 (amended) with the parser model. -/
theorem prose_with_two_headings_witness :
    jsonParse (trim twoHeadingProse) = none ∧
    extractionLadder jsonParse twoHeadingProse = .manual
      { strengths := ["a".toList, "b".toList]
        areasForImprovement := ["c".toList]
        missingConcepts := []
        topicsToImprove := []
        subjectArea := "General academics".toList } :=
  ⟨by decide, (prose_with_two_headings jsonParse (by decide)).1⟩

/-! ## C17: when a later step of the ladder runs -/

/-- C17 (counterexample): the object `keylessText` has none of the expected
keys, yet the first step keeps it; inside prose, the second step parses it from
the brace span and keeps it as well.  Manual extraction runs in neither case. -/
theorem keyless_value_is_kept :
    lacksExpectedKeys keylessValue = true ∧
    extractionLadder jsonParse keylessText = .direct keylessValue ∧
    extractionLadder jsonParse keylessInProse = .fromMatch keylessValue := by
  decide

/-- C17 (amended): the step that produces `feedbackData` is decided by what
throws, never by the keys of a parsed value.  The first step gives `v` exactly
when `JSON.parse` accepts the trimmed text with value `v`; the second gives `v`
exactly when the first parse throws, a pattern matches and its text parses to
`v`; manual extraction runs exactly when the first parse throws and either no
pattern matches (line 870) or parsing the matched text throws (line 876). -/
theorem later_step_iff_previous_throws (parse : List Char → Option Json) (text : List Char) :
    (∀ v, extractionLadder parse text = .direct v ↔ parse (trim text) = some v) ∧
    (∀ v, extractionLadder parse text = .fromMatch v ↔
      parse (trim text) = none ∧
        ∃ s, jsonMatchString text = some s ∧ parse (trim s) = some v) ∧
    (∀ fb, extractionLadder parse text = .manualAfterError fb ↔
      parse (trim text) = none ∧
        (∃ s, jsonMatchString text = some s ∧ parse (trim s) = none) ∧
        fb = extractFeedbackFromText text) ∧
    (∀ fb, extractionLadder parse text = .manual fb ↔
      parse (trim text) = none ∧ jsonMatchString text = none ∧
        fb = extractFeedbackFromText text) := by
  unfold extractionLadder
  cases h1 : parse (trim text) with
  | some v1 => simp
  | none =>
    cases h2 : jsonMatchString text with
    | none => simp [eq_comm]
    | some s =>
      cases h3 : parse (trim s) with
      | none => simp [h3, eq_comm]
      | some v2 => simp [h3]

/-- C17 (amended) at the object without the expected keys. -/
theorem later_step_iff_previous_throws_witness :
    jsonParse (trim keylessText) = some keylessValue ∧
    extractionLadder jsonParse keylessText = .direct keylessValue :=
  ⟨by decide, ((later_step_iff_previous_throws jsonParse keylessText).1 keylessValue).2
    (by decide)⟩

/-! ## C18: the brace span -/

theorem dropWhile_until_brace (pre rest : List Char) (hpre : '{' ∉ pre) :
    (pre ++ '{' :: rest).dropWhile (fun c => c != '{') = '{' :: rest := by
  induction pre with
  | nil => simp
  | cons c p ih =>
    have hc : c ≠ '{' := fun e => hpre (by simp [e])
    have hp : '{' ∉ p := fun e => hpre (List.mem_cons_of_mem _ e)
    simp [List.dropWhile_cons, hc, ih hp]

theorem rdropWhile_until_brace (mid post : List Char) (hpost : '}' ∉ post) :
    (mid ++ '}' :: post).rdropWhile (fun c => c != '}') = mid ++ ['}'] := by
  induction post using List.reverseRecOn with
  | nil => simp [List.rdropWhile_concat]
  | append_singleton p c ih =>
    have hc : c ≠ '}' := fun e => hpost (by simp [e])
    have hp : '}' ∉ p := fun e => hpost (by simp [e])
    have e : mid ++ '}' :: (p ++ [c]) = (mid ++ '}' :: p) ++ [c] := by simp
    rw [e, List.rdropWhile_concat]
    simp [hc, ih hp]

theorem braceSpanMatch_first_to_last (pre mid post : List Char)
    (hpre : '{' ∉ pre) (hpost : '}' ∉ post) :
    braceSpanMatch (pre ++ '{' :: (mid ++ '}' :: post)) = some ('{' :: (mid ++ ['}'])) := by
  unfold braceSpanMatch
  rw [dropWhile_until_brace pre _ hpre]
  simp only [rdropWhile_until_brace mid post hpost]
  cases mid <;> simp

/-- C18 (counterexample): in `objectThenBrace` no fenced block matches, and the
brace pattern takes the whole text up to the last closing brace, not the
object that the first closing brace ends; parsing it throws, so the second
step yields nothing and line 876 falls back to manual extraction. -/
theorem brace_span_runs_to_last_brace :
    fencedBlockMatch objectThenBrace = none ∧
    jsonMatchString objectThenBrace = some objectThenBrace ∧
    jsonParse (trim objectThenBrace) = none ∧
    jsonParse "\x7b\"a\":1\x7d".toList = some (.obj [("a".toList, .num 1 0)]) ∧
    extractionLadder jsonParse objectThenBrace =
      .manualAfterError (extractFeedbackFromText objectThenBrace) := by
  decide

/-- C18 (amended): when no fenced block matches, the text handed to
`JSON.parse` in the second step is the span from the first opening brace to the
last closing brace of the text; when the first parse throws, the ladder yields
the value of that span, or falls back to manual extraction when the span does
not parse. -/
theorem brace_span_first_to_last (parse : List Char → Option Json) (pre mid post : List Char)
    (hpre : '{' ∉ pre) (hpost : '}' ∉ post)
    (hfence : fencedBlockMatch (pre ++ '{' :: (mid ++ '}' :: post)) = none)
    (hfail : parse (trim (pre ++ '{' :: (mid ++ '}' :: post))) = none) :
    jsonMatchString (pre ++ '{' :: (mid ++ '}' :: post)) = some ('{' :: (mid ++ ['}'])) ∧
    extractionLadder parse (pre ++ '{' :: (mid ++ '}' :: post)) =
      match parse (trim ('{' :: (mid ++ ['}']))) with
      | some v => .fromMatch v
      | none => .manualAfterError (extractFeedbackFromText (pre ++ '{' :: (mid ++ '}' :: post))) := by
  have hm : jsonMatchString (pre ++ '{' :: (mid ++ '}' :: post)) =
      some ('{' :: (mid ++ ['}'])) := by
    unfold jsonMatchString
    rw [hfence]
    exact braceSpanMatch_first_to_last pre mid post hpre hpost
  refine ⟨hm, ?_⟩
  unfold extractionLadder
  rw [hfail, hm]

/-- C18 (amended) at an object between two words of prose. -/
theorem brace_span_first_to_last_witness :
    extractionLadder jsonParse ("Result: ".toList ++ '{' :: ("\"a\":1".toList ++ '}' :: " done".toList)) =
      .fromMatch (.obj [("a".toList, .num 1 0)]) :=
  (brace_span_first_to_last jsonParse "Result: ".toList "\"a\":1".toList " done".toList
    (by decide) (by decide) (by decide) (by decide)).2.trans (by decide)

/-! ## C19: where the capture of a section ends -/

theorem captureSection_cons (c : Char) (t : List Char) :
    captureSection (c :: t) = if atSectionEnd (c :: t) then [] else c :: captureSection t :=
  rfl

theorem atSectionEnd_of_ne_lf (c : Char) (t : List Char) (hc : c ≠ '\n') :
    atSectionEnd (c :: t) = false := by
  rcases t with _ | ⟨a, _ | ⟨b, t⟩⟩ <;> simp [atSectionEnd, hc]

/-- C19: the capture of a section ends in front of the first following line
that begins with two letters of either case, because the flag `i` of the
pattern also applies to the classes `[A-Z]` and `[a-z]`.  In
`lowercaseLineSection` the line `also good` ends the capture of `Strengths`, and
the bullet after it is lost. -/
theorem two_letters_end_capture (line rest : List Char) (a b : Char)
    (hline : '\n' ∉ line) (ha : isLetterCI a = true) (hb : isLetterCI b = true) :
    captureSection (line ++ '\n' :: a :: b :: rest) = line ∧
    matchSection lowercaseLineSection "Strengths" = ["a".toList] ∧
    matchSection "Strengths:\n- a\n2. b\n* c\n(d)".toList "Strengths" =
      ["a".toList, "b".toList, "c".toList, "(d)".toList] := by
  refine ⟨?_, by decide, by decide⟩
  induction line with
  | nil => simp [captureSection_cons, atSectionEnd, ha, hb]
  | cons c l ih =>
    have hc : c ≠ '\n' := fun e => hline (by simp [e])
    have hl : '\n' ∉ l := fun e => hline (List.mem_cons_of_mem _ e)
    rw [List.cons_append, captureSection_cons, atSectionEnd_of_ne_lf _ _ hc]
    simp [ih hl]

/-- C19 at the line `also good`. -/
theorem two_letters_end_capture_witness :
    captureSection "- a\nalso good\n- b".toList = "- a".toList :=
  (two_letters_end_capture "- a".toList "so good\n- b".toList 'a' 'l'
    (by decide) (by decide) (by decide)).1

/-! ## C20: `extractTopics` -/

theorem removeFirstBullet_cons (c : Char) (t : List Char) :
    removeFirstBullet (c :: t) =
      if c = '-' || c = '*' then t.dropWhile isWs else c :: removeFirstBullet t :=
  rfl

theorem removeFirstBullet_inner (pre rest : List Char)
    (hpre : ∀ c ∈ pre, c ≠ '-' ∧ c ≠ '*') :
    removeFirstBullet (pre ++ '-' :: rest) = pre ++ rest.dropWhile isWs := by
  induction pre with
  | nil => simp [removeFirstBullet_cons]
  | cons c p ih =>
    have hc := hpre c (by simp)
    have hp : ∀ d ∈ p, d ≠ '-' ∧ d ≠ '*' := fun d hd => hpre d (List.mem_cons_of_mem _ hd)
    rw [List.cons_append, removeFirstBullet_cons]
    simp [hc.1, hc.2, ih hp]

/-- C20: the alternatives `-\s*` and `\*\s*` of the marker pattern carry no `^`,
so on a line without a leading number marker the first hyphen is removed
wherever it stands, with the white space after it: `well-known fact` comes
back as `wellknown fact` and `2 * 3 = 6` as `2 3 = 6`. -/
theorem hyphen_removed_inside_line (pre rest : List Char)
    (hpre : ∀ c ∈ pre, c ≠ '-' ∧ c ≠ '*')
    (hnum : numberMarker (pre ++ '-' :: rest) = none) :
    removeMarker (pre ++ '-' :: rest) = pre ++ rest.dropWhile isWs ∧
    extractTopics "well-known fact".toList = ["wellknown fact".toList] ∧
    extractTopics "2 * 3 = 6".toList = ["2 3 = 6".toList] := by
  refine ⟨?_, by decide, by decide⟩
  unfold removeMarker
  rw [hnum]
  exact removeFirstBullet_inner pre rest hpre

/-- C20 at the line `well-known fact`. -/
theorem hyphen_removed_inside_line_witness :
    removeMarker "well-known fact".toList = "wellknown fact".toList :=
  (hyphen_removed_inside_line "well".toList "known fact".toList (by decide) (by decide)).1

/-! ## The parts of a match of the numbered-line pattern -/

theorem digitsThenTerminator_suffix (s g post : List Char)
    (h : digitsThenTerminator s = some (g, post)) : post <:+ s := by
  unfold digitsThenTerminator at h
  split at h
  · cases h
  · cases h
  · rename_i d ds c rest _ hdrop
    split at h
    · simp only [Option.some.injEq, Prod.mk.injEq] at h
      rw [← h.2]
      exact (List.suffix_cons c rest).trans (hdrop ▸ List.dropWhile_suffix isDigit)
    · cases h

theorem stripQuestionWord_suffix (s t : List Char) (h : stripQuestionWord s = some t) :
    t <:+ s := by
  unfold stripQuestionWord at h
  split at h
  · rename_i q u e s4 t5 i o n rest
    split at h
    · simp only [Option.some.injEq] at h
      rw [← h]
      exact ⟨[q, u, e, s4, t5, i, o, n], rfl⟩
    · cases h
  · cases h

theorem prefixRests_suffix (s r : List Char) (h : r ∈ prefixRests s) : r <:+ s := by
  unfold prefixRests at h
  simp only [List.mem_append, List.mem_map, List.mem_singleton] at h
  have hs1 : s.dropWhile isWs <:+ s := List.dropWhile_suffix isWs
  rcases h with ⟨x, hx, rfl⟩ | rfl
  · refine (List.dropWhile_suffix isWs).trans ?_
    rcases hx with (hx | hx) | hx
    · refine List.IsSuffix.trans ?_ hs1
      split at hx
      · rename_i q t hq
        split at hx
        · split at hx
          · rename_i t2
            simp only [List.mem_cons, List.mem_singleton, List.not_mem_nil, or_false] at hx
            rcases hx with rfl | rfl
            · exact ⟨[q, '.'], by rw [hq]; rfl⟩
            · exact ⟨[q], by rw [hq]; rfl⟩
          · simp only [List.mem_singleton] at hx
            rw [hx]
            exact ⟨[q], by rw [hq]; rfl⟩
        · simp at hx
      · simp at hx
    · refine List.IsSuffix.trans ?_ hs1
      split at hx
      · rename_i t ht
        simp only [List.mem_singleton] at hx
        rw [hx]
        exact stripQuestionWord_suffix _ _ ht
      · simp at hx
    · rw [hx]
      exact hs1
  · exact List.suffix_refl _

theorem alt1_suffix (s g post : List Char) (h : alt1 s = some (g, post)) : post <:+ s := by
  unfold alt1 at h
  obtain ⟨r, hr, hd⟩ := List.exists_of_findSome?_eq_some h
  exact (digitsThenTerminator_suffix r g post hd).trans (prefixRests_suffix s r hr)

theorem alt2_suffix (s g post : List Char) (h : alt2 s = some (g, post)) : post <:+ s := by
  unfold alt2 at h
  split at h
  · rename_i t ht
    split at h
    · rename_i d ds rest _ hdrop
      simp only [Option.some.injEq, Prod.mk.injEq] at h
      rw [← h.2]
      refine List.IsSuffix.trans ?_ (ht ▸ List.dropWhile_suffix isWs)
      refine List.IsSuffix.trans ?_ (List.suffix_cons '(' t)
      exact (List.suffix_cons ')' rest).trans (hdrop ▸ List.dropWhile_suffix isDigit)
    · cases h
  · cases h

theorem alt3_suffix (s g post : List Char) (h : alt3 s = some (g, post)) : post <:+ s := by
  unfold alt3 at h
  simp only at h
  split at h
  · cases h
  · cases h
  · rename_i d ds c rest _ hdrop
    have hrest : rest <:+ s :=
      ((List.suffix_cons c rest).trans (hdrop ▸ List.dropWhile_suffix isDigit)).trans
        (List.dropWhile_suffix isWs)
    split at h
    · simp only [Option.some.injEq, Prod.mk.injEq] at h
      rw [← h.2]
      exact hrest
    · split at h
      · split at h
        · rename_i e rest2
          split at h
          · simp only [Option.some.injEq, Prod.mk.injEq] at h
            rw [← h.2]
            exact (List.suffix_cons e rest2).trans hrest
          · cases h
        · cases h
      · cases h

theorem searchAlt23_parts (s : List Char) :
    ∀ (pre : List Char) (m : ReMatch), searchAlt23 pre s = some m →
      ∃ skipped rest, s = skipped ++ rest ∧ m.pre = pre ++ skipped ∧ m.post <:+ rest := by
  induction s with
  | nil => intro pre m h; simp [searchAlt23_nil] at h
  | cons c t ih =>
    intro pre m h
    rw [searchAlt23_cons] at h
    cases h2 : alt2 (c :: t) with
    | some gp =>
      rw [h2] at h
      simp only [Option.some.injEq] at h
      refine ⟨[], c :: t, rfl, by rw [← h]; simp, ?_⟩
      rw [← h]
      exact alt2_suffix (c :: t) gp.1 gp.2 h2
    | none =>
      rw [h2] at h
      cases h3 : alt3 (c :: t) with
      | some gp =>
        rw [h3] at h
        simp only [Option.some.injEq] at h
        refine ⟨[], c :: t, rfl, by rw [← h]; simp, ?_⟩
        rw [← h]
        exact alt3_suffix (c :: t) gp.1 gp.2 h3
      | none =>
        rw [h3] at h
        obtain ⟨skipped, rest, hs, hp, hpost⟩ := ih (pre ++ [c]) m h
        exact ⟨c :: skipped, rest, by rw [hs]; rfl, by rw [hp]; simp, hpost⟩

/-- A match of the numbered-line pattern splits the line into the text before
the match, the match and the text after it. -/
theorem questionNumberMatch_parts (line : List Char) (m : ReMatch)
    (h : questionNumberMatch line = some m) :
    ∃ matched, line = m.pre ++ matched ++ m.post := by
  unfold questionNumberMatch at h
  cases h1 : alt1 line with
  | some gp =>
    rw [h1] at h
    simp only [Option.some.injEq] at h
    obtain ⟨matched, hm⟩ := alt1_suffix line gp.1 gp.2 h1
    exact ⟨matched, by rw [← h]; simpa using hm.symm⟩
  | none =>
    rw [h1] at h
    obtain ⟨skipped, rest, hs, hp, ⟨matched, hm⟩⟩ := searchAlt23_parts line [] m h
    refine ⟨matched, ?_⟩
    rw [hp, hs, ← hm]
    simp

/-! ## The data at line 1012 and the record built from it -/

theorem field_ne_null (feedbackData : Json) (key : String) (v : Json)
    (h : feedbackData.field key = some v) : ∃ members, feedbackData = .obj members := by
  cases feedbackData with
  | obj members => exact ⟨members, rfl⟩
  | null => simp [Json.field] at h
  | bool b => simp [Json.field] at h
  | num m x => simp [Json.field] at h
  | str s => simp [Json.field] at h
  | arr items => simp [Json.field] at h

theorem formatListField_single (v : Json) (placeholder : String)
    (hlist : ∀ items, v ≠ .arr items) :
    formatListField (some v) placeholder =
      if v.truthy then [v] else [.str placeholder.toList] := by
  cases v with
  | arr items => exact absurd rfl (hlist items)
  | null => rfl
  | bool b => rfl
  | num m x => rfl
  | str s => rfl
  | obj members => rfl

/-- The list fields of the record built at lines 1013-1024. -/
theorem formattedFeedback_listField (feedbackData : Json) (educationalLevel : Option Json)
    (hnull : feedbackData ≠ .null) :
    ∃ record, formattedFeedback feedbackData educationalLevel = .returns record ∧
      record.subjectArea = feedbackData.field "subjectArea" ∧
      ∀ key placeholder, (key, placeholder) ∈ placeholders →
        record.listField key = formatListField (feedbackData.field key) placeholder := by
  have hform : ∃ record, formattedFeedback feedbackData educationalLevel = .returns record ∧
      record.subjectArea = feedbackData.field "subjectArea" ∧
      record.strengths =
        formatListField (feedbackData.field "strengths")
          "Good attempt at answering the question" ∧
      record.areasForImprovement =
        formatListField (feedbackData.field "areasForImprovement")
          "Work on being more specific in your answers" ∧
      record.missingConcepts =
        formatListField (feedbackData.field "missingConcepts")
          "Some key concepts from the reference answer are missing" ∧
      record.topicsToImprove =
        formatListField (feedbackData.field "topicsToImprove") "Core subject fundamentals" := by
    cases feedbackData with
    | null => exact absurd rfl hnull
    | bool b => exact ⟨_, rfl, rfl, rfl, rfl, rfl, rfl⟩
    | num m x => exact ⟨_, rfl, rfl, rfl, rfl, rfl, rfl⟩
    | str s => exact ⟨_, rfl, rfl, rfl, rfl, rfl, rfl⟩
    | arr items => exact ⟨_, rfl, rfl, rfl, rfl, rfl, rfl⟩
    | obj members => exact ⟨_, rfl, rfl, rfl, rfl, rfl, rfl⟩
  obtain ⟨record, hr, hs, h1, h2, h3, h4⟩ := hform
  refine ⟨record, hr, hs, ?_⟩
  intro key placeholder hk
  simp only [placeholders, List.mem_cons, Prod.mk.injEq, List.mem_singleton,
    List.not_mem_nil, or_false] at hk
  rcases hk with ⟨rfl, rfl⟩ | ⟨rfl, rfl⟩ | ⟨rfl, rfl⟩ | ⟨rfl, rfl⟩
  · exact h1
  · exact h2
  · exact h3
  · exact h4

theorem lookupMember_cons (key k : List Char) (v : Json) (rest : List (List Char × Json)) :
    lookupMember key ((k, v) :: rest) =
      match lookupMember key rest with
      | some later => some later
      | none => if k = key then some v else none := rfl

theorem lookupMember_append_same (key : List Char) (v : Json) :
    ∀ members : List (List Char × Json), lookupMember key (members ++ [(key, v)]) = some v
  | [] => by simp [lookupMember_cons, lookupMember]
  | (k, w) :: rest => by
    rw [List.cons_append, lookupMember_cons, lookupMember_append_same key v rest]

theorem lookupMember_append_other (key k2 : List Char) (v : Json) (h : key ≠ k2) :
    ∀ members : List (List Char × Json),
      lookupMember key (members ++ [(k2, v)]) = lookupMember key members
  | [] => by simp [lookupMember_cons, lookupMember, Ne.symm h]
  | (k, w) :: rest => by
    rw [List.cons_append, lookupMember_cons, lookupMember_cons,
      lookupMember_append_other key k2 v h rest]

theorem setSubjectArea_field_other (feedbackData value : Json) (key : String)
    (h : key.toList ≠ "subjectArea".toList) :
    (setSubjectArea feedbackData value).field key = feedbackData.field key := by
  cases feedbackData with
  | obj members =>
    show lookupMember key.toList (members ++ [("subjectArea".toList, value)]) =
      lookupMember key.toList members
    exact lookupMember_append_other _ _ value h members
  | arr items =>
    show lookupMember key.toList [("subjectArea".toList, value)] = none
    rw [lookupMember_cons]
    simp only [lookupMember]
    rw [if_neg (Ne.symm h)]
  | null => rfl
  | bool b => rfl
  | num m x => rfl
  | str s => rfl

theorem setSubjectArea_obj (members : List (List Char × Json)) (value : Json) :
    (setSubjectArea (.obj members) value).field "subjectArea" = some value ∧
    setSubjectArea (.obj members) value ≠ .null := by
  constructor
  · exact lookupMember_append_same _ value members
  · intro h
    cases h

theorem subjectStillGeneric_returns (feedbackData : Json) (b : Bool)
    (h : subjectStillGeneric feedbackData = .returns b) :
    ∃ s, feedbackData.field "subjectArea" = some (.str s) := by
  unfold subjectStillGeneric at h
  split at h
  · rename_i s hs
    exact ⟨s, hs⟩
  · cases h

/-- What line 1012 finds in `feedbackData`: a string as `subjectArea`, and the
other fields as the ladder or the retry left them. -/
theorem finalFeedbackData_fields (parse : List Char → Option Json)
    (numberText : Int → Int → List Char) (c : ModelCalls) (data : Json)
    (h : finalFeedbackData parse numberText c = .returns data) :
    ∃ extracted, extractedData parse c = .returns extracted ∧ data ≠ .null ∧
      (∃ s, data.field "subjectArea" = some (.str s)) ∧
      ∀ key : String, key.toList ≠ "subjectArea".toList →
        data.field key = extracted.field key := by
  unfold finalFeedbackData at h
  cases he : extractedData parse c with
  | throws e => rw [he] at h; cases h
  | returns extracted =>
    rw [he] at h
    simp only at h
    cases hm : subjectMissingOrGeneric extracted with
    | throws e => rw [hm] at h; cases h
    | returns replace =>
      rw [hm] at h
      simp only at h
      generalize hadopt : (if replace = true then
        setSubjectArea extracted (.str c.detectedSubjectArea) else extracted) = adopted at h
      have hother : ∀ key : String, key.toList ≠ "subjectArea".toList →
          adopted.field key = extracted.field key := by
        intro key hk
        rw [← hadopt]
        split
        · exact setSubjectArea_field_other _ _ key hk
        · rfl
      cases hg : subjectStillGeneric adopted with
      | throws e => rw [hg] at h; cases h
      | returns generic =>
        rw [hg] at h
        obtain ⟨s, hs⟩ := subjectStillGeneric_returns adopted generic hg
        obtain ⟨members, hobj⟩ := field_ne_null adopted "subjectArea" _ hs
        have hnn : adopted ≠ .null := by
          rw [hobj]
          intro h0
          cases h0
        have hset : ∀ value : List Char,
            (∃ s, (setSubjectArea adopted (.str value)).field "subjectArea" = some (.str s)) ∧
            setSubjectArea adopted (.str value) ≠ .null := by
          intro value
          rw [hobj]
          exact ⟨⟨value, (setSubjectArea_obj members _).1⟩, (setSubjectArea_obj members _).2⟩
        refine ⟨extracted, rfl, ?_⟩
        cases generic with
        | false =>
          simp only [Outcome.returns.injEq] at h
          rw [← h]
          exact ⟨hnn, ⟨s, hs⟩, hother⟩
        | true =>
          simp only at h
          cases hi : inferredSubject (allFeedbackText numberText adopted) with
          | none =>
            rw [hi] at h
            simp only [Outcome.returns.injEq] at h
            rw [← h]
            exact ⟨hnn, ⟨s, hs⟩, hother⟩
          | some subject =>
            rw [hi] at h
            simp only [Outcome.returns.injEq] at h
            rw [← h]
            refine ⟨(hset subject.toList).2, (hset subject.toList).1, ?_⟩
            intro key hk
            rw [setSubjectArea_field_other _ _ key hk]
            exact hother key hk

theorem placeholder_key_ne_subjectArea (key placeholder : String)
    (h : (key, placeholder) ∈ placeholders) : key.toList ≠ "subjectArea".toList := by
  simp only [placeholders, List.mem_cons, Prod.mk.injEq, List.mem_singleton,
    List.not_mem_nil, or_false] at h
  rcases h with ⟨rfl, _⟩ | ⟨rfl, _⟩ | ⟨rfl, _⟩ | ⟨rfl, _⟩ <;> decide

/-- The five-field record comes back from `getAIFeedback` with its five fields;
for the prose with two headings the two absent list fields come back empty and
the default subject area is replaced by the detected one (line 958). -/
theorem example_responses_returned :
    getAIFeedback jsonParse (fun _ _ => [])
        (some ⟨"Physics".toList, none, fiveFieldText, none⟩) =
      { strengths := [.str "a".toList]
        areasForImprovement := [.str "b".toList]
        missingConcepts := [.str "c".toList]
        topicsToImprove := [.str "d".toList]
        subjectArea := some (.str "Math".toList)
        educationalLevel := .str "Unknown".toList } ∧
    getAIFeedback jsonParse (fun _ _ => [])
        (some ⟨"Physics".toList, none, twoHeadingProse, none⟩) =
      { strengths := [.str "a".toList, .str "b".toList]
        areasForImprovement := [.str "c".toList]
        missingConcepts := []
        topicsToImprove := []
        subjectArea := some (.str "Physics".toList)
        educationalLevel := .str "Unknown".toList } := by
  constructor <;> decide!

/-! ## C21: a list field that holds a single value -/

/-- C21 (counterexample): a list field that holds the empty string, the number
0, `false` or `null` comes out as the placeholder list, not as the list of that
value; the response `emptyStrengthsText` is returned with the placeholder as
`strengths`. -/
theorem falsy_single_value_gets_placeholder :
    formatListField (some (.str [])) "Good attempt at answering the question" =
      [.str "Good attempt at answering the question".toList] ∧
    formatListField (some (.num 0 0)) "Good attempt at answering the question" =
      [.str "Good attempt at answering the question".toList] ∧
    formatListField (some (.bool false)) "Good attempt at answering the question" =
      [.str "Good attempt at answering the question".toList] ∧
    formatListField (some .null) "Good attempt at answering the question" =
      [.str "Good attempt at answering the question".toList] ∧
    (getAIFeedback jsonParse (fun _ _ => [])
        (some ⟨"Physics".toList, none, emptyStrengthsText, none⟩)).strengths =
      [.str "Good attempt at answering the question".toList] := by
  refine ⟨rfl, rfl, rfl, rfl, ?_⟩
  decide!

/-- C21 (amended): let a list field of the extracted data hold a value that is
not an array, and let lines 1013-1024 be reached (no statement before them
throws).  Then the field of the returned record is the one-element list of
that value if the value is truthy, and the placeholder list of the field if it
is falsy (`null`, `false`, 0 or the empty string). -/
theorem single_value_is_wrapped (parse : List Char → Option Json)
    (numberText : Int → Int → List Char) (c : ModelCalls) (extracted : Json)
    (key placeholder : String) (v : Json)
    (hkey : (key, placeholder) ∈ placeholders)
    (hex : extractedData parse c = .returns extracted)
    (hv : extracted.field key = some v) (hlist : ∀ items, v ≠ .arr items)
    (hreach : ∃ data, finalFeedbackData parse numberText c = .returns data) :
    (getAIFeedback parse numberText (some c)).listField key =
      if v.truthy then [v] else [.str placeholder.toList] := by
  obtain ⟨data, hdata⟩ := hreach
  obtain ⟨extracted2, hex2, hnn, _, hother⟩ :=
    finalFeedbackData_fields parse numberText c data hdata
  rw [hex] at hex2
  simp only [Outcome.returns.injEq] at hex2
  obtain ⟨record, hr, _, hf⟩ := formattedFeedback_listField data c.educationalLevel hnn
  have hget : getAIFeedback parse numberText (some c) = record := by
    unfold getAIFeedback
    simp only [hdata, hr]
  rw [hget, hf key placeholder hkey,
    hother key (placeholder_key_ne_subjectArea key placeholder hkey), ← hex2, hv]
  exact formatListField_single v placeholder hlist

/-- C21 (amended) on the response `singleStrengthText`: the string `clear` is
returned as a one-element list. -/
theorem single_value_is_wrapped_witness :
    extractedData jsonParse ⟨"Physics".toList, none, singleStrengthText, none⟩ =
      .returns (.obj [("strengths".toList, .str "clear".toList),
        ("areasForImprovement".toList, .arr [.str "b".toList]),
        ("missingConcepts".toList, .arr [.str "c".toList]),
        ("topicsToImprove".toList, .arr [.str "d".toList]),
        ("subjectArea".toList, .str "Math".toList)]) ∧
    (getAIFeedback jsonParse (fun _ _ => [])
        (some ⟨"Physics".toList, none, singleStrengthText, none⟩)).listField "strengths" =
      [.str "clear".toList] :=
  ⟨by decide!,
   single_value_is_wrapped jsonParse (fun _ _ => [])
     ⟨"Physics".toList, none, singleStrengthText, none⟩
     (.obj [("strengths".toList, .str "clear".toList),
        ("areasForImprovement".toList, .arr [.str "b".toList]),
        ("missingConcepts".toList, .arr [.str "c".toList]),
        ("topicsToImprove".toList, .arr [.str "d".toList]),
        ("subjectArea".toList, .str "Math".toList)])
     "strengths" "Good attempt at answering the question" (.str "clear".toList)
     (by decide) (by decide!) (by decide) (by intro items h; cases h)
     ⟨.obj [("strengths".toList, .str "clear".toList),
        ("areasForImprovement".toList, .arr [.str "b".toList]),
        ("missingConcepts".toList, .arr [.str "c".toList]),
        ("topicsToImprove".toList, .arr [.str "d".toList]),
        ("subjectArea".toList, .str "Math".toList)], by decide!⟩⟩

/-! ## C22: the shape of the record returned by `getAIFeedback` -/

/-- C22 (counterexample): the response `numericSubjectText` is parsed by the
first step of the ladder; `missingConcepts` and `topicsToImprove` are absent
from the parsed value.  Line 957 then calls `toLowerCase` on the number 5, the
error is caught at line 1028, and the record returned is the fixed record of
the `catch` block: its `missingConcepts` is not the placeholder list of line
1019 and its `topicsToImprove` has two entries. -/
theorem error_record_after_extraction :
    extractedData jsonParse ⟨"Physics".toList, none, numericSubjectText, none⟩ =
      .returns (.obj [("strengths".toList, .arr [.str "a".toList]),
        ("subjectArea".toList, .num 5 0)]) ∧
    getAIFeedback jsonParse (fun _ _ => [])
        (some ⟨"Physics".toList, none, numericSubjectText, none⟩) = errorFeedback ∧
    errorFeedback.strengths ≠ [.str "a".toList] ∧
    errorFeedback.missingConcepts ≠
      [.str "Some key concepts from the reference answer are missing".toList] ∧
    errorFeedback.topicsToImprove ≠ [.str "Core subject fundamentals".toList] ∧
    errorFeedback.topicsToImprove.length = 2 := by
  refine ⟨by decide!, by decide!, by decide, by decide, by decide, rfl⟩

/-- C22 (amended): every record returned by `getAIFeedback` has the four list
fields as lists and a string as `subjectArea`.  It is either the fixed record
of the `catch` block (a call of the model failed, or a statement of lines
848-1024 threw), or the record of lines 1013-1024, in which every list field
is built from the field of the extracted data: the array itself, the
one-element list of a single value, and the placeholder list when the field is
absent. -/
theorem returned_record_shape (parse : List Char → Option Json)
    (numberText : Int → Int → List Char) (calls : Option ModelCalls) :
    (∃ s, (getAIFeedback parse numberText calls).subjectArea = some (.str s)) ∧
    (getAIFeedback parse numberText calls = errorFeedback ∨
      ∃ c extracted, calls = some c ∧ extractedData parse c = .returns extracted ∧
        ∀ key placeholder, (key, placeholder) ∈ placeholders →
          (getAIFeedback parse numberText calls).listField key =
              formatListField (extracted.field key) placeholder ∧
            (extracted.field key = none →
              (getAIFeedback parse numberText calls).listField key =
                [.str placeholder.toList])) ∧
    (calls = none → getAIFeedback parse numberText calls = errorFeedback) ∧
    (∀ c e, calls = some c → finalFeedbackData parse numberText c = .throws e →
      getAIFeedback parse numberText calls = errorFeedback) := by
  have herr : ∃ s, errorFeedback.subjectArea = some (.str s) := ⟨_, rfl⟩
  refine ⟨?_, ?_, ?_, ?_⟩
  · cases calls with
    | none => exact herr
    | some c =>
      unfold getAIFeedback
      simp only
      cases hf : finalFeedbackData parse numberText c with
      | throws e => exact herr
      | returns data =>
        obtain ⟨extracted, _, hnn, ⟨s, hs⟩, _⟩ :=
          finalFeedbackData_fields parse numberText c data hf
        obtain ⟨record, hr, hsub, _⟩ :=
          formattedFeedback_listField data c.educationalLevel hnn
        simp only [hr]
        exact ⟨s, by rw [hsub, hs]⟩
  · cases calls with
    | none => exact Or.inl rfl
    | some c =>
      unfold getAIFeedback
      simp only
      cases hf : finalFeedbackData parse numberText c with
      | throws e => exact Or.inl rfl
      | returns data =>
        obtain ⟨extracted, hex, hnn, _, hother⟩ :=
          finalFeedbackData_fields parse numberText c data hf
        obtain ⟨record, hr, _, hlist⟩ :=
          formattedFeedback_listField data c.educationalLevel hnn
        simp only [hr]
        refine Or.inr ⟨c, extracted, rfl, hex, ?_⟩
        intro key placeholder hk
        have hfield : record.listField key =
            formatListField (extracted.field key) placeholder := by
          rw [hlist key placeholder hk,
            hother key (placeholder_key_ne_subjectArea key placeholder hk)]
        refine ⟨hfield, ?_⟩
        intro hnone
        rw [hfield, hnone]
        rfl
  · intro h
    rw [h]
    rfl
  · intro c e h hf
    rw [h]
    unfold getAIFeedback
    simp only [hf]

/-- C22 (amended) on the response `keylessText`, an object without any of the
expected fields: every list field is its placeholder list and `subjectArea` is
the detected subject area. -/
theorem returned_record_shape_witness :
    getAIFeedback jsonParse (fun _ _ => [])
        (some ⟨"Physics".toList, none, keylessText, none⟩) =
      { strengths := [.str "Good attempt at answering the question".toList]
        areasForImprovement := [.str "Work on being more specific in your answers".toList]
        missingConcepts :=
          [.str "Some key concepts from the reference answer are missing".toList]
        topicsToImprove := [.str "Core subject fundamentals".toList]
        subjectArea := some (.str "Physics".toList)
        educationalLevel := .str "Unknown".toList } ∧
    ∃ s, (getAIFeedback jsonParse (fun _ _ => [])
        (some ⟨"Physics".toList, none, keylessText, none⟩)).subjectArea = some (.str s) :=
  ⟨by decide!,
   (returned_record_shape jsonParse (fun _ _ => [])
     (some ⟨"Physics".toList, none, keylessText, none⟩)).1⟩

/-! ## C23: `checkIfGenericFeedback` -/

theorem includes_iff (s phrase : List Char) : includes s phrase = true ↔ phrase <:+: s := by
  induction s with
  | nil =>
    rw [includes, List.infix_nil]
    simp
  | cons c t ih =>
    rw [includes, Bool.or_eq_true, ih, List.infix_cons_iff, List.isPrefixOf_iff_prefix]

theorem isGenericEntry_str (s : List Char) :
    isGenericEntry (.str s) = .returns (isBoilerplate (.str s)) := by
  show Outcome.returns _ = Outcome.returns (decide (ContainsBankPhrase s))
  congr 1
  rw [Bool.eq_iff_iff]
  simp only [List.any_eq_true, decide_eq_true_eq, ContainsBankPhrase, includes_iff]

theorem countGeneric_strings : ∀ (items : List Json) (genericCount : Nat),
    (∀ e ∈ items, e.isString = true) →
    countGeneric genericCount items = .returns (genericCount + items.countP isBoilerplate)
  | [], g, _ => by simp [countGeneric]
  | e :: rest, g, h => by
    have he := h e (by simp)
    cases e with
    | str s =>
      rw [countGeneric, isGenericEntry_str]
      simp only
      rw [countGeneric_strings rest _ (fun x hx => h x (List.mem_cons_of_mem _ hx)),
        List.countP_cons]
      cases isBoilerplate (.str s)
      · simp
      · simp
        omega
    | null => simp [Json.isString] at he
    | bool b => simp [Json.isString] at he
    | num m x => simp [Json.isString] at he
    | arr items => simp [Json.isString] at he
    | obj members => simp [Json.isString] at he

theorem checkField_strings (feedback : Json) (key : String) (counts : Nat × Nat)
    (h : ∀ e ∈ listEntries feedback key, e.isString = true) :
    checkField feedback key counts =
      .returns (counts.1 + (listEntries feedback key).countP isBoilerplate,
        counts.2 + (listEntries feedback key).length) := by
  unfold checkField
  unfold listEntries at h ⊢
  split
  · rename_i items hf
    rw [hf] at h
    simp only at h ⊢
    rw [countGeneric_strings items counts.1 h]
  · rename_i hf
    cases hv : feedback.field key with
    | none => simp
    | some v =>
      cases v with
      | arr items => exact absurd hv (hf items)
      | null => simp
      | bool b => simp
      | num m x => simp
      | str s => simp
      | obj members => simp

/-- The value of the function on a truthy record whose list entries are all
strings: the pool is not empty and the boilerplate entries are more than half
of it. -/
theorem checkIfGenericFeedback_strings (feedback : Json) (ht : feedback.truthy = true)
    (hstr : ∀ e ∈ feedbackPool feedback, e.isString = true) :
    checkIfGenericFeedback (some feedback) = .returns
      (decide (feedbackPool feedback ≠ [] ∧
        (feedbackPool feedback).length < 2 * (feedbackPool feedback).countP isBoilerplate)) := by
  unfold feedbackPool at hstr
  simp only [List.mem_append] at hstr
  unfold checkIfGenericFeedback
  simp only [ht, Bool.not_true, Bool.false_eq_true, if_false]
  rw [checkField_strings feedback "strengths" (0, 0) (fun e he => hstr e (Or.inl (Or.inl (Or.inl he))))]
  simp only
  rw [checkField_strings feedback "areasForImprovement" _
    (fun e he => hstr e (Or.inl (Or.inl (Or.inr he))))]
  simp only
  rw [checkField_strings feedback "missingConcepts" _ (fun e he => hstr e (Or.inl (Or.inr he)))]
  simp only
  rw [checkField_strings feedback "topicsToImprove" _ (fun e he => hstr e (Or.inr he))]
  simp only
  congr 1
  have hlen : (feedbackPool feedback).length =
      0 + (listEntries feedback "strengths").length +
        (listEntries feedback "areasForImprovement").length +
        (listEntries feedback "missingConcepts").length +
        (listEntries feedback "topicsToImprove").length := by
    unfold feedbackPool
    simp only [List.length_append]
    omega
  have hcnt : (feedbackPool feedback).countP isBoilerplate =
      0 + (listEntries feedback "strengths").countP isBoilerplate +
        (listEntries feedback "areasForImprovement").countP isBoilerplate +
        (listEntries feedback "missingConcepts").countP isBoilerplate +
        (listEntries feedback "topicsToImprove").countP isBoilerplate := by
    unfold feedbackPool
    simp only [List.countP_append]
    omega
  rw [← hlen, ← hcnt]
  generalize (feedbackPool feedback).countP isBoilerplate = g
  rw [Bool.eq_iff_iff]
  simp only [Bool.and_eq_true, decide_eq_true_eq, ne_eq, ← List.length_pos, gt_iff_lt]
  constructor
  · rintro ⟨hpos, hhalf⟩
    refine ⟨by omega, ?_⟩
    have hq : (0 : Rat) < ((feedbackPool feedback).length : Rat) := by exact_mod_cast hpos
    rw [lt_div_iff₀ hq] at hhalf
    have h2 : ((feedbackPool feedback).length : Rat) < 2 * (g : Rat) := by linarith
    exact_mod_cast h2
  · rintro ⟨hne, hhalf⟩
    have hpos : 0 < (feedbackPool feedback).length := by omega
    refine ⟨hpos, ?_⟩
    have hq : (0 : Rat) < ((feedbackPool feedback).length : Rat) := by exact_mod_cast hpos
    rw [lt_div_iff₀ hq]
    have h2 : ((feedbackPool feedback).length : Rat) < 2 * (g : Rat) := by exact_mod_cast hhalf
    linarith

theorem bank_phrase_is_boilerplate (phrase : List Char) (h : phrase ∈ genericPhrases) :
    isBoilerplate (.str phrase) = true := by
  have hlow : ∀ p ∈ genericPhrases, toLowerCase p = p := by decide
  unfold isBoilerplate
  simp only [decide_eq_true_eq]
  exact ⟨phrase, h, by rw [hlow phrase h]⟩

/-- C23: the function returns `true` for an absent record, and for a falsy
value in its place.  On a truthy record whose list entries are strings it
returns `true` exactly when the pool of the entries of the four list fields is
not empty and more than half of its entries hold a phrase of the bank, upper
and lower case taken as the same, each entry counted once.  So a non-empty
pool of bank phrases gives `true` and a pool without bank phrase gives
`false`.  An entry that is not a string makes the call throw. -/
theorem generic_iff_majority (feedback : Json)
    (hstr : ∀ e ∈ feedbackPool feedback, e.isString = true) :
    checkIfGenericFeedback none = .returns true ∧
    checkIfGenericFeedback (some .null) = .returns true ∧
    checkIfGenericFeedback (some feedback) = .returns
      (decide (feedback.truthy = false ∨
        (feedbackPool feedback ≠ [] ∧
          (feedbackPool feedback).length <
            2 * (feedbackPool feedback).countP isBoilerplate))) ∧
    (feedback.truthy = true → feedbackPool feedback ≠ [] →
      (∀ e ∈ feedbackPool feedback, ∃ phrase ∈ genericPhrases, e = .str phrase) →
      checkIfGenericFeedback (some feedback) = .returns true) ∧
    (feedback.truthy = true → (∀ e ∈ feedbackPool feedback, isBoilerplate e = false) →
      checkIfGenericFeedback (some feedback) = .returns false) ∧
    checkIfGenericFeedback (some (.obj [("strengths".toList, .arr [.num 1 0])])) =
      .throws .typeError := by
  refine ⟨rfl, rfl, ?_, ?_, ?_, by decide⟩
  · cases ht : feedback.truthy with
    | false => simp [checkIfGenericFeedback, ht]
    | true =>
      rw [checkIfGenericFeedback_strings feedback ht hstr]
      simp
  · intro ht hne hall
    rw [checkIfGenericFeedback_strings feedback ht hstr]
    have hc : (feedbackPool feedback).countP isBoilerplate = (feedbackPool feedback).length := by
      rw [List.countP_eq_length]
      intro e he
      obtain ⟨phrase, hp, rfl⟩ := hall e he
      exact bank_phrase_is_boilerplate phrase hp
    have hpos : 0 < (feedbackPool feedback).length := List.length_pos.2 hne
    simp only [hc, decide_eq_true_eq, Outcome.returns.injEq]
    exact ⟨hne, by omega⟩
  · intro ht hall
    rw [checkIfGenericFeedback_strings feedback ht hstr]
    have hc : (feedbackPool feedback).countP isBoilerplate = 0 := by
      rw [List.countP_eq_zero]
      intro e he
      simp [hall e he]
    simp [hc]

/-- C23 on a record with two boilerplate entries out of three. -/
theorem generic_iff_majority_witness :
    feedbackPool mostlyBoilerplate =
      [.str "Good attempt overall".toList, .str "Well done".toList,
        .str "Define entropy".toList] ∧
    (feedbackPool mostlyBoilerplate).countP isBoilerplate = 2 ∧
    checkIfGenericFeedback (some mostlyBoilerplate) = .returns true :=
  ⟨by decide, by decide,
   (generic_iff_majority mostlyBoilerplate (by decide)).2.2.1.trans (by decide)⟩

/-! ## C24: where the numbered-line pattern matches -/

theorem digitsThenTerminator_none_of_head (c : Char) (t : List Char) (hd : isDigit c = false) :
    digitsThenTerminator (c :: t) = none := by
  unfold digitsThenTerminator
  simp [List.takeWhile_cons, hd]

theorem digitsThenTerminator_none_of_digits (s : List Char) (h : ∀ c ∈ s, isDigit c = true) :
    digitsThenTerminator s = none := by
  unfold digitsThenTerminator
  have h1 : s.dropWhile isDigit = [] := by
    rw [List.dropWhile_eq_nil_iff]
    exact h
  rw [h1]
  cases s.takeWhile isDigit <;> rfl

theorem alt2_none_of_head (c : Char) (t : List Char) (hw : isWs c = false) (hp : c ≠ '(') :
    alt2 (c :: t) = none := by
  unfold alt2
  simp only [List.dropWhile_cons, hw, Bool.false_eq_true, if_false]
  split
  · rename_i t2 h
    simp only [List.cons.injEq] at h
    exact absurd h.1 hp
  · rfl

theorem alt3_none_of_head (c : Char) (t : List Char) (hw : isWs c = false)
    (hd : isDigit c = false) : alt3 (c :: t) = none := by
  unfold alt3
  simp [List.dropWhile_cons, List.takeWhile_cons, hw, hd]

theorem alt2_parenthesised (ws ds post : List Char) (hws : ∀ c ∈ ws, isWs c = true)
    (hds : IsNumeral ds) :
    alt2 (ws ++ '(' :: (ds ++ ')' :: post)) = some (ds, post) := by
  unfold alt2
  rw [(span_run ws '(' _ hws (by decide)).2]
  simp only
  obtain ⟨hne, hall⟩ := hds
  rw [(span_run ds ')' post hall (by decide)).1, (span_run ds ')' post hall (by decide)).2]
  obtain ⟨d, ds2, rfl⟩ := List.exists_cons_of_ne_nil hne
  rfl

theorem searchAlt23_skip (body rest : List Char)
    (hbody : ∀ c ∈ body, isWs c = false ∧ isDigit c = false ∧ c ≠ '(') :
    ∀ (acc : List Char), searchAlt23 acc (body ++ rest) = searchAlt23 (acc ++ body) rest := by
  induction body with
  | nil => intro acc; simp
  | cons c body ih =>
    intro acc
    obtain ⟨hw, hd, hp⟩ := hbody c (by simp)
    rw [List.cons_append, searchAlt23_cons, alt2_none_of_head c _ hw hp,
      alt3_none_of_head c _ hw hd]
    simp only
    rw [ih (fun x hx => hbody x (List.mem_cons_of_mem _ hx))]
    simp

theorem stripQuestionWord_none_of_head (c : Char) (t : List Char) (hq : eqCI 'q' c = false) :
    stripQuestionWord (c :: t) = none := by
  unfold stripQuestionWord
  split
  · rename_i q u e s4 t5 i o n rest h
    simp only [List.cons.injEq] at h
    rw [← h.1, hq]
    rfl
  · rfl

theorem alt1_none_of_head (s : List Char) (c : Char) (t : List Char)
    (hs : s.dropWhile isWs = c :: t) (hq : eqCI 'q' c = false) (hd : isDigit c = false) :
    alt1 s = none := by
  have hw : isWs c = false := by
    have := (exists_run isWs s).2.2 c t hs
    exact this
  have hcc : (c :: t).dropWhile isWs = c :: t := by
    simp [List.dropWhile_cons, hw]
  have hself : digitsThenTerminator s = none := by
    rcases s with _ | ⟨a, s2⟩
    · rfl
    · by_cases ha : isWs a = true
      · exact digitsThenTerminator_none_of_head a s2 (by
          cases hda : isDigit a with
          | false => rfl
          | true => exact absurd ha (by rw [isWs_of_isDigit a hda]; simp))
      · simp only [List.dropWhile_cons, ha, Bool.false_eq_true, if_false, List.cons.injEq] at hs
        rw [hs.1]
        exact digitsThenTerminator_none_of_head c s2 hd
  unfold alt1 prefixRests
  simp only [hs, hq, Bool.false_eq_true, if_false, stripQuestionWord_none_of_head c t hq,
    List.nil_append, List.map_cons, List.map_nil, hcc, List.singleton_append,
    List.findSome?_cons, digitsThenTerminator_none_of_head c t hd, hself, List.findSome?_nil]

/-- C24: the anchor `^` belongs to the first alternative only; the second and
third are tried at every position.  On a line made of a text without white
space, digit, `(` or a leading `q`, then white space and a parenthesised
number, the match starts behind that text and captures the number.  So
`see (2) above` and `It has 2) parts` match in the middle of the line, and the
second line of `1. Paris`, `It has 2) parts` is taken as question 2. -/
theorem match_inside_line (body ws ds post : List Char)
    (hbody : ∀ c ∈ body, isWs c = false ∧ isDigit c = false ∧ c ≠ '(' ∧ eqCI 'q' c = false)
    (hws : ∀ c ∈ ws, isWs c = true) (hds : IsNumeral ds) :
    questionNumberMatch (body ++ (ws ++ '(' :: (ds ++ ')' :: post))) =
      some ⟨body, none, some ds, none, post⟩ ∧
    questionNumberMatch "It has 2) parts".toList =
      some ⟨"It has".toList, none, none, some "2".toList, " parts".toList⟩ ∧
    extractQuestionsAndAnswers (some [textOnly "1. Paris\nIt has 2) parts"]) =
      .returns ⟨true, none, some [⟨"1".toList, "Paris".toList, some 50⟩,
        ⟨"2".toList, "It has parts".toList, none⟩]⟩ := by
  refine ⟨?_, by decide, by decide⟩
  have halt2 := alt2_parenthesised ws ds post hws hds
  have hhead : ∃ c t, (body ++ (ws ++ '(' :: (ds ++ ')' :: post))).dropWhile isWs = c :: t ∧
      eqCI 'q' c = false ∧ isDigit c = false := by
    rcases body with _ | ⟨b, body⟩
    · refine ⟨'(', ds ++ ')' :: post, ?_, by decide, by decide⟩
      rw [List.nil_append]
      exact (span_run ws '(' _ hws (by decide)).2
    · obtain ⟨hw, hd, _, hq⟩ := hbody b (by simp)
      exact ⟨b, body ++ (ws ++ '(' :: (ds ++ ')' :: post)),
        by simp [List.dropWhile_cons, hw], hq, hd⟩
  obtain ⟨c, t, hs, hq, hd⟩ := hhead
  unfold questionNumberMatch
  rw [alt1_none_of_head _ c t hs hq hd]
  simp only
  rw [searchAlt23_skip body _ (fun x hx => ⟨(hbody x hx).1, (hbody x hx).2.1, (hbody x hx).2.2.1⟩)]
  have hne : ws ++ '(' :: (ds ++ ')' :: post) ≠ [] := by simp
  obtain ⟨a, rest, har⟩ := List.exists_cons_of_ne_nil hne
  rw [har, searchAlt23_cons, ← har, halt2]
  simp

/-- C24 on the line `see (2) above`. -/
theorem match_inside_line_witness :
    questionNumberMatch "see (2) above".toList =
      some ⟨"see".toList, none, some "2".toList, none, " above".toList⟩ :=
  (match_inside_line "see".toList " ".toList "2".toList " above".toList
    (by decide) (by decide) ⟨by decide, by decide⟩).1

/-! ## C25: the formats named in the comment of the pattern -/

theorem searchAlt23_none_of_digits (s : List Char) (h : ∀ c ∈ s, isDigit c = true) :
    ∀ (acc : List Char), searchAlt23 acc s = none := by
  induction s with
  | nil => intro acc; rfl
  | cons c t ih =>
    intro acc
    have hc := h c (by simp)
    have hw : isWs c = false := isWs_of_isDigit c hc
    have h3 : alt3 (c :: t) = none := by
      unfold alt3
      have hd : (c :: t).dropWhile isWs = c :: t := by simp [List.dropWhile_cons, hw]
      have h1 : (c :: t).dropWhile isDigit = [] := by
        rw [List.dropWhile_eq_nil_iff]
        exact h
      simp only [hd, h1]
      cases (c :: t).takeWhile isDigit <;> rfl
    rw [searchAlt23_cons, alt2_none_of_head c t hw (by
      intro e
      rw [e] at hc
      exact absurd hc (by decide)), h3]
    exact ih (fun x hx => h x (List.mem_cons_of_mem _ hx)) _

theorem alt1_none_of_digits (s : List Char) (h : ∀ c ∈ s, isDigit c = true) :
    alt1 s = none ∧ alt1 ('Q' :: s) = none := by
  unfold alt1
  constructor
  · rw [List.findSome?_eq_none_iff]
    intro r hr
    have hs := prefixRests_suffix _ r hr
    exact digitsThenTerminator_none_of_digits r (fun x hx => h x (hs.subset hx))
  · rw [List.findSome?_eq_none_iff]
    intro r hr
    have hs := prefixRests_suffix _ r hr
    rcases List.suffix_cons_iff.1 hs with rfl | hs
    · exact digitsThenTerminator_none_of_head 'Q' s (by decide)
    · exact digitsThenTerminator_none_of_digits r (fun x hx => h x (hs.subset hx))

/-- C25: of the five formats named in the comment of the pattern, `1.`, `1)`
and `(1)` match and give the number 1, but a bare run of digits and `Q`
followed by digits do not match: every alternative wants a `.`, `)`, white
space, `:` or `-` behind the number, or parentheses around it.  The line `1`
starts no question. -/
theorem bare_digits_do_not_match (ds : List Char) (hds : IsNumeral ds) :
    questionNumberMatch ds = none ∧
    questionNumberMatch ('Q' :: ds) = none ∧
    (questionNumberMatch "1.".toList).map ReMatch.number = some (some "1".toList) ∧
    (questionNumberMatch "1)".toList).map ReMatch.number = some (some "1".toList) ∧
    (questionNumberMatch "(1)".toList).map ReMatch.number = some (some "1".toList) ∧
    extractQuestionsAndAnswers (some [textOnly "1\nParis"]) = .returns ⟨true, none, some []⟩ ∧
    extractQuestionsAndAnswers (some [textOnly "1.\nParis"]) =
      .returns ⟨true, none, some [⟨"1".toList, "Paris".toList, none⟩]⟩ := by
  refine ⟨?_, ?_, by decide, by decide, by decide, by decide, by decide⟩
  · unfold questionNumberMatch
    rw [(alt1_none_of_digits ds hds.2).1]
    exact searchAlt23_none_of_digits ds hds.2 []
  · unfold questionNumberMatch
    rw [(alt1_none_of_digits ds hds.2).2]
    simp only
    rw [searchAlt23_cons, alt2_none_of_head 'Q' ds (by decide) (by decide),
      alt3_none_of_head 'Q' ds (by decide) (by decide)]
    exact searchAlt23_none_of_digits ds hds.2 _

/-- C25 on the lines `1` and `Q1`. -/
theorem bare_digits_do_not_match_witness :
    questionNumberMatch "1".toList = none ∧ questionNumberMatch "Q1".toList = none :=
  ⟨(bare_digits_do_not_match "1".toList ⟨by decide, by decide⟩).1,
   (bare_digits_do_not_match "1".toList ⟨by decide, by decide⟩).2.1⟩

/-! ## C26: the similarity score of `extractMistralFeedback` -/

theorem clampScore_range (x : Rat) : 0 ≤ clampScore x ∧ clampScore x ≤ 100 := by
  unfold clampScore
  exact ⟨le_max_left _ _, max_le (by norm_num) (min_le_left _ _)⟩

theorem stripPrefixCI_parts : ∀ (p s rest : List Char), stripPrefixCI p s = some rest →
    ∃ lab, s = lab ++ rest ∧ lab.map Char.toLower = p.map Char.toLower
  | [], s, rest, h => by
    simp only [stripPrefixCI, Option.some.injEq] at h
    exact ⟨[], by simp [h], rfl⟩
  | _ :: _, [], rest, h => by simp [stripPrefixCI] at h
  | p :: ps, c :: s, rest, h => by
    simp only [stripPrefixCI] at h
    split at h
    · rename_i hpc
      obtain ⟨lab, hs, hl⟩ := stripPrefixCI_parts ps s rest h
      exact ⟨c :: lab, by rw [hs]; rfl, by simp [hl, hpc]⟩
    · cases h

theorem takeWhile_cons_head (p : Char → Bool) (s : List Char) (d : Char) (ds : List Char)
    (h : s.takeWhile p = d :: ds) : ∃ t, s = d :: t ∧ p d = true := by
  rcases s with _ | ⟨c, t⟩
  · simp at h
  · by_cases hc : p c = true
    · simp only [List.takeWhile_cons, hc, if_true, List.cons.injEq] at h
      exact ⟨t, by rw [h.1], by rw [← h.1]; exact hc⟩
    · simp [List.takeWhile_cons, hc] at h

theorem decimalAt_parts (s number rest : List Char) (h : decimalAt s = some (number, rest)) :
    ∃ ds frac, s = ds ++ frac ++ rest ∧ number = ds ++ frac ∧ ds = s.takeWhile isDigit ∧
      IsNumeral ds ∧ (frac = [] ∨ ∃ fs, IsNumeral fs ∧ frac = '.' :: fs) := by
  have hsplit := (List.takeWhile_append_dropWhile isDigit s).symm
  unfold decimalAt at h
  split at h
  · cases h
  · rename_i d ds rest0 htake hdrop
    have hnum : IsNumeral (d :: ds) := isNumeral_takeWhile s d ds htake
    split at h
    · rename_i hf
      simp only [Option.some.injEq, Prod.mk.injEq] at h
      refine ⟨d :: ds, [], ?_, by simp [h.1], htake.symm, hnum, Or.inl rfl⟩
      rw [← h.2, hsplit, htake, hdrop]
      simp
    · rename_i f fs hf
      simp only [Option.some.injEq, Prod.mk.injEq] at h
      refine ⟨d :: ds, '.' :: f :: fs, ?_, by simp [h.1], htake.symm, hnum,
        Or.inr ⟨f :: fs, isNumeral_takeWhile rest0 f fs hf, rfl⟩⟩
      have h2 := (List.takeWhile_append_dropWhile isDigit rest0).symm
      rw [← h.2]
      conv_lhs => rw [hsplit, htake, hdrop, h2, hf]
      simp
  · rename_i _ _ d ds htake _
    simp only [Option.some.injEq, Prod.mk.injEq] at h
    refine ⟨d :: ds, [], ?_, by simp [h.1], htake.symm,
      isNumeral_takeWhile s d ds htake, Or.inl rfl⟩
    rw [← h.2]
    conv_lhs => rw [hsplit, htake]
    simp

theorem decimalAt_head (s number rest : List Char) (h : decimalAt s = some (number, rest)) :
    ∃ d t, s = d :: t ∧ isDigit d = true := by
  obtain ⟨ds, frac, _, _, htake, hnum, _⟩ := decimalAt_parts s number rest h
  obtain ⟨d, ds2, hd⟩ := List.exists_cons_of_ne_nil hnum.1
  rw [hd] at htake
  obtain ⟨t, ht, hdig⟩ := takeWhile_cons_head isDigit s d ds2 htake.symm
  exact ⟨d, t, ht, hdig⟩

theorem ws_then_decimal (s capture : List Char)
    (h : (decimalAt (s.dropWhile isWs)).map Prod.fst = some capture) :
    ∃ ws d rest, s = ws ++ d :: rest ∧ (∀ c ∈ ws, isWs c = true) ∧ isDigit d = true := by
  cases hd : decimalAt (s.dropWhile isWs) with
  | none => rw [hd] at h; cases h
  | some gr =>
    obtain ⟨d, t, hdt, hdig⟩ := decimalAt_head _ gr.1 gr.2 hd
    refine ⟨s.takeWhile isWs, d, t, ?_, fun c hc => List.mem_takeWhile_imp hc, hdig⟩
    rw [← hdt, List.takeWhile_append_dropWhile]

theorem labelledScoreAt_parts (label : List Char) (colonRequired : Bool) (s capture : List Char)
    (h : labelledScoreAt label colonRequired s = some capture) :
    ∃ lab colon ws d rest, s = lab ++ colon ++ ws ++ d :: rest ∧
      lab.map Char.toLower = label.map Char.toLower ∧ (colon = [] ∨ colon = [':']) ∧
      (∀ c ∈ ws, isWs c = true) ∧ isDigit d = true := by
  unfold labelledScoreAt at h
  split at h
  · cases h
  · rename_i rest hstrip
    obtain ⟨lab, hs, hl⟩ := stripPrefixCI_parts label s _ hstrip
    obtain ⟨ws, d, rest2, hr, hws, hd⟩ := ws_then_decimal rest capture h
    exact ⟨lab, [':'], ws, d, rest2, by rw [hs, hr]; simp, hl, Or.inr rfl, hws, hd⟩
  · rename_i rest hcolon hstrip
    obtain ⟨lab, hs, hl⟩ := stripPrefixCI_parts label s _ hstrip
    split at h
    · cases h
    · obtain ⟨ws, d, rest2, hr, hws, hd⟩ := ws_then_decimal rest capture h
      exact ⟨lab, [], ws, d, rest2, by rw [hs, hr]; simp, hl, Or.inl rfl, hws, hd⟩

theorem searchScore_parts (label : List Char) (colonRequired : Bool) :
    ∀ (s capture : List Char), searchScore label colonRequired s = some capture →
      ∃ pre tail, s = pre ++ tail ∧ labelledScoreAt label colonRequired tail = some capture
  | [], capture, h => by simp [searchScore] at h
  | c :: t, capture, h => by
    rw [searchScore] at h
    cases hl : labelledScoreAt label colonRequired (c :: t) with
    | some cap =>
      rw [hl] at h
      simp only [Option.some.injEq] at h
      exact ⟨[], c :: t, rfl, by rw [hl, h]⟩
    | none =>
      rw [hl] at h
      obtain ⟨pre, tail, hs, ht⟩ := searchScore_parts label colonRequired t capture h
      exact ⟨c :: pre, tail, by rw [hs]; rfl, ht⟩

theorem searchScore_has (label : List Char) (n : Nat) (colonRequired : Bool)
    (s capture : List Char)
    (h : searchScore label colonRequired s = some capture)
    (hlabel : (label.map Char.toLower).drop n = "score".toList) :
    HasScorePattern s := by
  obtain ⟨pre, tail, hs, ht⟩ := searchScore_parts _ colonRequired s capture h
  obtain ⟨lab, colon, ws, d, rest, htail, hlab, hcolon, hws, hd⟩ :=
    labelledScoreAt_parts _ colonRequired tail capture ht
  refine ⟨pre ++ lab.take n, lab.drop n, colon, ws, d, rest, ?_, ?_, hcolon, hws, hd⟩
  · rw [hs, htail]
    simp only [List.append_assoc]
    rw [← List.append_assoc (lab.take n), List.take_append_drop]
  · rw [List.map_drop, hlab, hlabel]

theorem scoreMatch_has (response capture : List Char) (h : scoreMatch response = some capture) :
    HasScorePattern response := by
  unfold scoreMatch at h
  cases h1 : searchScore "SIMILARITY_SCORE".toList true response with
  | some c1 => exact searchScore_has _ 11 true response c1 h1 (by decide)
  | none =>
    rw [h1] at h
    simp only at h
    cases h2 : searchScore "similarity score".toList false response with
    | some c2 => exact searchScore_has _ 11 false response c2 h2 (by decide)
    | none =>
      rw [h2] at h
      exact searchScore_has _ 0 false response capture h (by decide)

theorem percentSuffix_parts (s suffix : List Char) (h : percentSuffix s = some suffix) :
    (suffix = "/100".toList ∨ suffix = "percent".toList ∨ suffix = "%".toList) ∧
      ∃ rest, s = suffix ++ rest := by
  unfold percentSuffix at h
  split at h
  · rename_i hp
    simp only [Option.some.injEq] at h
    rw [← h]
    exact ⟨Or.inl rfl, List.isPrefixOf_iff_prefix.1 hp |>.imp fun _ e => e.symm⟩
  · split at h
    · rename_i _ hp
      simp only [Option.some.injEq] at h
      rw [← h]
      exact ⟨Or.inr (Or.inl rfl), List.isPrefixOf_iff_prefix.1 hp |>.imp fun _ e => e.symm⟩
    · split at h
      · rename_i _ _ hp
        simp only [Option.some.injEq] at h
        rw [← h]
        exact ⟨Or.inr (Or.inr rfl), List.isPrefixOf_iff_prefix.1 hp |>.imp fun _ e => e.symm⟩
      · cases h

theorem percentAt_parts (prevIsWord : Bool) (s matched : List Char)
    (h : percentAt prevIsWord s = some matched) :
    prevIsWord = false ∧ ∃ ds frac ws suffix rest, s = ds ++ frac ++ ws ++ suffix ++ rest ∧
      IsNumeral ds ∧ ds.length ≤ 3 ∧ (frac = [] ∨ ∃ fs, IsNumeral fs ∧ frac = '.' :: fs) ∧
      (∀ c ∈ ws, isWs c = true) ∧
      (suffix = "/100".toList ∨ suffix = "percent".toList ∨ suffix = "%".toList) := by
  unfold percentAt at h
  split at h
  · cases h
  · rename_i hcond
    simp only [Bool.or_eq_true, decide_eq_true_eq, not_or, not_lt, Bool.not_eq_true] at hcond
    refine ⟨hcond.1, ?_⟩
    cases hd : decimalAt s with
    | none => rw [hd] at h; cases h
    | some nr =>
      rw [hd] at h
      simp only at h
      cases hp : percentSuffix (nr.2.dropWhile isWs) with
      | none => rw [hp] at h; cases h
      | some suffix =>
        obtain ⟨ds, frac, hs, _, htake, hnum, hfrac⟩ := decimalAt_parts s nr.1 nr.2 hd
        obtain ⟨hsuf, rest, hrest⟩ := percentSuffix_parts _ suffix hp
        refine ⟨ds, frac, nr.2.takeWhile isWs, suffix, rest, ?_, hnum, ?_, hfrac,
          fun c hc => List.mem_takeWhile_imp hc, hsuf⟩
        · conv_lhs => rw [hs, ← List.takeWhile_append_dropWhile isWs nr.2, hrest]
          simp
        · rw [htake]
          exact hcond.2

theorem searchPercent_parts : ∀ (s : List Char) (prevIsWord : Bool) (matched : List Char),
    searchPercent prevIsWord s = some matched →
    ∃ pre tail, s = pre ++ tail ∧
      (∀ c, pre.getLast? = some c → isWordChar c = false) ∧
      (pre = [] → prevIsWord = false) ∧
      ∃ m, percentAt false tail = some m
  | [], b, matched, h => by simp [searchPercent] at h
  | c :: t, b, matched, h => by
    rw [searchPercent] at h
    cases hp : percentAt b (c :: t) with
    | some m =>
      have hb := (percentAt_parts b (c :: t) m hp).1
      refine ⟨[], c :: t, rfl, by simp, fun _ => hb, m, ?_⟩
      rw [← hb]
      exact hp
    | none =>
      rw [hp] at h
      obtain ⟨pre, tail, hs, hlast, hnil, m, hm⟩ := searchPercent_parts t (isWordChar c) matched h
      refine ⟨c :: pre, tail, by rw [hs]; rfl, ?_, by simp, m, hm⟩
      intro x hx
      rcases pre with _ | ⟨p, pre2⟩
      · simp only [List.getLast?_singleton, Option.some.injEq] at hx
        rw [← hx]
        exact hnil rfl
      · rw [List.getLast?_cons_cons] at hx
        exact hlast x hx

theorem searchPercent_has (response matched : List Char)
    (h : searchPercent false response = some matched) : HasPercentNumber response := by
  obtain ⟨pre, tail, hs, hlast, _, m, hm⟩ := searchPercent_parts response false matched h
  obtain ⟨_, ds, frac, ws, suffix, rest, ht, hnum, hlen, hfrac, hws, hsuf⟩ :=
    percentAt_parts false tail m hm
  refine ⟨pre, ds, frac, ws, suffix, rest, ?_, hlast, hnum, hlen, hfrac, hws, hsuf⟩
  rw [hs, ht]
  simp

theorem stripPrefixCI_of_map : ∀ (p lab tail : List Char),
    lab.map Char.toLower = p.map Char.toLower → stripPrefixCI p (lab ++ tail) = some tail
  | [], lab, tail, h => by
    have : lab = [] := by simpa using h
    rw [this]
    rfl
  | p :: ps, [], tail, h => by simp at h
  | p :: ps, c :: lab, tail, h => by
    simp only [List.map_cons, List.cons.injEq] at h
    rw [List.cons_append, stripPrefixCI, if_pos h.1.symm]
    exact stripPrefixCI_of_map ps lab tail h.2

theorem decimalAt_isSome (d : Char) (rest : List Char) (hd : isDigit d = true) :
    ∃ g r, decimalAt (d :: rest) = some (g, r) := by
  have htake : (d :: rest).takeWhile isDigit = d :: rest.takeWhile isDigit := by
    simp [List.takeWhile_cons, hd]
  unfold decimalAt
  rw [htake]
  split
  · rename_i h
    cases h
  · split
    · exact ⟨_, _, rfl⟩
    · exact ⟨_, _, rfl⟩
  · exact ⟨_, _, rfl⟩

theorem dropWhile_ws_digit (ws : List Char) (d : Char) (rest : List Char)
    (hws : ∀ c ∈ ws, isWs c = true) (hd : isDigit d = true) :
    (ws ++ d :: rest).dropWhile isWs = d :: rest :=
  (span_run ws d rest hws (isWs_of_isDigit d hd)).2

theorem labelledScoreAt_isSome (label colon ws : List Char) (d : Char) (rest : List Char)
    (hlabel : label.map Char.toLower = "score".toList)
    (hcolon : colon = [] ∨ colon = [':']) (hws : ∀ c ∈ ws, isWs c = true)
    (hd : isDigit d = true) :
    ∃ capture, labelledScoreAt "score".toList false (label ++ colon ++ ws ++ d :: rest) =
      some capture := by
  obtain ⟨g, r, hg⟩ := decimalAt_isSome d rest hd
  have hstrip : stripPrefixCI "score".toList (label ++ (colon ++ (ws ++ d :: rest))) =
      some (colon ++ (ws ++ d :: rest)) :=
    stripPrefixCI_of_map _ label _ (by rw [hlabel]; rfl)
  unfold labelledScoreAt
  simp only [List.append_assoc]
  rw [hstrip]
  rcases hcolon with rfl | rfl
  · simp only [List.nil_append]
    split
    · rename_i h
      cases h
    · rename_i rest2 h
      simp only [Option.some.injEq] at h
      have hdw := dropWhile_ws_digit ws d rest hws hd
      rw [h] at hdw
      rw [List.dropWhile_cons, if_neg (by decide)] at hdw
      rcases ws with _ | ⟨w, ws2⟩
      · simp only [List.nil_append, List.cons.injEq] at h
        rw [h.1] at hd
        exact absurd hd (by decide)
      · simp only [List.cons_append, List.cons.injEq] at h
        have := hws w (by simp)
        rw [h.1] at this
        exact absurd this (by decide)
    · rename_i rest2 _ h
      simp only [Option.some.injEq] at h
      rw [← h, dropWhile_ws_digit ws d rest hws hd, hg]
      exact ⟨g, rfl⟩
  · simp only [List.singleton_append]
    rw [dropWhile_ws_digit ws d rest hws hd, hg]
    exact ⟨g, rfl⟩

theorem searchScore_isSome (label : List Char) (colonRequired : Bool) (tail capture : List Char)
    (h : labelledScoreAt label colonRequired tail = some capture) (hne : tail ≠ []) :
    ∀ pre : List Char, ∃ c, searchScore label colonRequired (pre ++ tail) = some c
  | [] => by
    obtain ⟨a, t, rfl⟩ := List.exists_cons_of_ne_nil hne
    rw [List.nil_append, searchScore, h]
    exact ⟨capture, rfl⟩
  | a :: pre => by
    rw [List.cons_append, searchScore]
    cases labelledScoreAt label colonRequired (a :: (pre ++ tail)) with
    | some c => exact ⟨c, rfl⟩
    | none => exact searchScore_isSome label colonRequired tail capture h hne pre

/-- The three score patterns find a match exactly in the responses that hold a
score pattern. -/
theorem scoreMatch_none_iff (response : List Char) :
    scoreMatch response = none ↔ ¬ HasScorePattern response := by
  constructor
  · intro h hs
    obtain ⟨pre, label, colon, ws, d, rest, hr, hlabel, hcolon, hws, hd⟩ := hs
    obtain ⟨capture, hc⟩ := labelledScoreAt_isSome label colon ws d rest hlabel hcolon hws hd
    obtain ⟨c, hsearch⟩ := searchScore_isSome "score".toList false _ capture hc (by simp) pre
    unfold scoreMatch at h
    have e : pre ++ (label ++ colon ++ ws ++ d :: rest) = response := by
      rw [hr]
      simp
    rw [e] at hsearch
    cases h1 : searchScore "SIMILARITY_SCORE".toList true response with
    | some c1 => rw [h1] at h; cases h
    | none =>
      rw [h1] at h
      simp only at h
      cases h2 : searchScore "similarity score".toList false response with
      | some c2 => rw [h2] at h; cases h
      | none =>
        rw [h2] at h
        simp only at h
        rw [hsearch] at h
        cases h
  · intro h
    cases hm : scoreMatch response with
    | none => rfl
    | some capture => exact absurd (scoreMatch_has response capture hm) h

theorem decimalAt_number (ds : List Char) (hds : IsNumeral ds) (c : Char) (w : List Char)
    (hc : isDigit c = false) (hdot : c ≠ '.') :
    decimalAt (ds ++ c :: w) = some (ds, c :: w) := by
  obtain ⟨d, ds2, rfl⟩ := List.exists_cons_of_ne_nil hds.1
  unfold decimalAt
  rw [(span_run (d :: ds2) c w hds.2 hc).1, (span_run (d :: ds2) c w hds.2 hc).2]
  split
  · rename_i h
    cases h
  · rename_i h1 h2
    simp only [List.cons.injEq] at h2
    exact absurd h2.1 hdot
  · rename_i h1 h2
    simp only [List.cons.injEq] at h1
    rw [h1.1, h1.2]

theorem decimalAt_fraction (ds fs : List Char) (hds : IsNumeral ds) (hfs : IsNumeral fs)
    (c : Char) (w : List Char) (hc : isDigit c = false) :
    decimalAt (ds ++ '.' :: (fs ++ c :: w)) = some (ds ++ '.' :: fs, c :: w) := by
  obtain ⟨d, ds2, rfl⟩ := List.exists_cons_of_ne_nil hds.1
  obtain ⟨f, fs2, rfl⟩ := List.exists_cons_of_ne_nil hfs.1
  unfold decimalAt
  rw [(span_run (d :: ds2) '.' _ hds.2 (by decide)).1,
    (span_run (d :: ds2) '.' _ hds.2 (by decide)).2]
  simp only
  rw [(span_run (f :: fs2) c w hfs.2 hc).1, (span_run (f :: fs2) c w hfs.2 hc).2]

theorem percentSuffix_isSome (suffix rest : List Char)
    (h : suffix = "/100".toList ∨ suffix = "percent".toList ∨ suffix = "%".toList) :
    percentSuffix (suffix ++ rest) = some suffix ∧
      ∃ c y, suffix ++ rest = c :: y ∧ isWs c = false ∧ isDigit c = false ∧ c ≠ '.' := by
  rcases h with rfl | rfl | rfl
  · exact ⟨by simp [percentSuffix, List.isPrefixOf], _, _, rfl, by decide, by decide, by decide⟩
  · exact ⟨by simp [percentSuffix, List.isPrefixOf], _, _, rfl, by decide, by decide, by decide⟩
  · exact ⟨by simp [percentSuffix, List.isPrefixOf], _, _, rfl, by decide, by decide, by decide⟩

theorem percentAt_isSome (ds frac ws suffix rest : List Char)
    (hds : IsNumeral ds) (hlen : ds.length ≤ 3)
    (hfrac : frac = [] ∨ ∃ fs, IsNumeral fs ∧ frac = '.' :: fs)
    (hws : ∀ c ∈ ws, isWs c = true)
    (hsuf : suffix = "/100".toList ∨ suffix = "percent".toList ∨ suffix = "%".toList) :
    ∃ m, percentAt false (ds ++ frac ++ ws ++ suffix ++ rest) = some m := by
  obtain ⟨hps, c, y, hy, hcw, hcd, hcdot⟩ := percentSuffix_isSome suffix rest hsuf
  have hdrop : (ws ++ (suffix ++ rest)).dropWhile isWs = suffix ++ rest := by
    rw [hy]
    exact (span_run ws c y hws hcw).2
  have hW : ∃ c2 w2, ws ++ (suffix ++ rest) = c2 :: w2 ∧ isDigit c2 = false ∧ c2 ≠ '.' := by
    rcases ws with _ | ⟨a, ws2⟩
    · exact ⟨c, y, by simpa using hy, hcd, hcdot⟩
    · have ha := hws a (by simp)
      refine ⟨a, ws2 ++ (suffix ++ rest), rfl, isDigit_of_isWs a ha, ?_⟩
      intro e
      rw [e] at ha
      exact absurd ha (by decide)
  obtain ⟨c2, w2, hw2, hc2d, hc2dot⟩ := hW
  have hdec : ∃ number, decimalAt (ds ++ frac ++ ws ++ suffix ++ rest) =
      some (number, ws ++ (suffix ++ rest)) ∧
      (ds ++ frac ++ ws ++ suffix ++ rest).takeWhile isDigit = ds := by
    rcases hfrac with rfl | ⟨fs, hfs, rfl⟩
    · refine ⟨ds, ?_, ?_⟩
      · have e : ds ++ [] ++ ws ++ suffix ++ rest = ds ++ c2 :: w2 := by
          rw [← hw2]
          simp
        rw [e, decimalAt_number ds hds c2 w2 hc2d hc2dot, hw2]
      · have e : ds ++ [] ++ ws ++ suffix ++ rest = ds ++ c2 :: w2 := by
          rw [← hw2]
          simp
        rw [e]
        exact (span_run ds c2 w2 hds.2 hc2d).1
    · refine ⟨ds ++ '.' :: fs, ?_, ?_⟩
      · have e : ds ++ '.' :: fs ++ ws ++ suffix ++ rest = ds ++ '.' :: (fs ++ c2 :: w2) := by
          rw [← hw2]
          simp
        rw [e, decimalAt_fraction ds fs hds hfs c2 w2 hc2d, hw2]
      · have e : ds ++ '.' :: fs ++ ws ++ suffix ++ rest =
            ds ++ '.' :: (fs ++ (ws ++ (suffix ++ rest))) := by
          simp
        rw [e]
        exact (span_run ds '.' _ hds.2 (by decide)).1
  obtain ⟨number, hnum, htake⟩ := hdec
  unfold percentAt
  rw [htake, hnum]
  simp only [Bool.false_or, decide_eq_true_eq, not_lt.2 hlen, if_false, hdrop, hps]
  exact ⟨_, rfl⟩

theorem searchPercent_isSome (tail m : List Char) (h : percentAt false tail = some m)
    (hne : tail ≠ []) :
    ∀ (pre : List Char) (prevIsWord : Bool), (pre = [] → prevIsWord = false) →
      (∀ c, pre.getLast? = some c → isWordChar c = false) →
      ∃ m2, searchPercent prevIsWord (pre ++ tail) = some m2
  | [], b, hb, _ => by
    obtain ⟨a, t, rfl⟩ := List.exists_cons_of_ne_nil hne
    rw [List.nil_append, searchPercent, hb rfl, h]
    exact ⟨m, rfl⟩
  | a :: pre, b, _, hlast => by
    rw [List.cons_append, searchPercent]
    cases percentAt b (a :: (pre ++ tail)) with
    | some m2 => exact ⟨m2, rfl⟩
    | none =>
      refine searchPercent_isSome tail m h hne pre (isWordChar a) ?_ ?_
      · intro hp
        rw [hp] at hlast
        exact hlast a rfl
      · intro c hc
        rcases pre with _ | ⟨p, pre2⟩
        · simp at hc
        · exact hlast c (by rw [List.getLast?_cons_cons]; exact hc)

/-- The percentage pattern finds a match exactly in the responses that hold a
number that looks like a percentage. -/
theorem searchPercent_none_iff (response : List Char) :
    searchPercent false response = none ↔ ¬ HasPercentNumber response := by
  constructor
  · intro h hp
    obtain ⟨pre, ds, frac, ws, suffix, rest, hr, hlast, hds, hlen, hfrac, hws, hsuf⟩ := hp
    obtain ⟨m, hm⟩ := percentAt_isSome ds frac ws suffix rest hds hlen hfrac hws hsuf
    have hne : ds ++ frac ++ ws ++ suffix ++ rest ≠ [] := by
      obtain ⟨d, ds2, rfl⟩ := List.exists_cons_of_ne_nil hds.1
      simp
    obtain ⟨m2, hs⟩ := searchPercent_isSome _ m hm hne pre false (fun _ => rfl) hlast
    have e : pre ++ (ds ++ frac ++ ws ++ suffix ++ rest) = response := by
      rw [hr]
      simp
    rw [e, h] at hs
    cases hs
  · intro h
    cases hm : searchPercent false response with
    | none => rfl
    | some matched => exact absurd (searchPercent_has response matched hm) h

/-- C26: for every response string the similarity score lies between 0 and
100, whatever the rounding of `parseFloat`; it is 0 when the response holds
neither a score pattern nor a number that looks like a percentage, and 100
when the number captured by a score pattern is at least 100.  The two
predicates are exact: the patterns of the code find a match in just the
responses that satisfy them. -/
theorem similarity_score_range (toDouble : Rat → Rat) (response : List Char) :
    0 ≤ similarityScore toDouble response ∧
    similarityScore toDouble response ≤ 100 ∧
    (¬ HasScorePattern response → ¬ HasPercentNumber response →
      similarityScore toDouble response = 0) ∧
    (∀ capture, scoreMatch response = some capture →
      100 ≤ parseFloat toDouble capture → similarityScore toDouble response = 100) ∧
    (scoreMatch response = none ↔ ¬ HasScorePattern response) ∧
    (searchPercent false response = none ↔ ¬ HasPercentNumber response) := by
  have hrange : 0 ≤ similarityScore toDouble response ∧
      similarityScore toDouble response ≤ 100 := by
    unfold similarityScore
    split
    · exact clampScore_range _
    · split
      · split
        · exact clampScore_range _
        · norm_num
      · norm_num
  refine ⟨hrange.1, hrange.2, ?_, ?_, scoreMatch_none_iff response,
    searchPercent_none_iff response⟩
  · intro hs hp
    unfold similarityScore
    cases h1 : scoreMatch response with
    | some capture => exact absurd (scoreMatch_has response capture h1) hs
    | none =>
      simp only
      cases h2 : searchPercent false response with
      | some matched => exact absurd (searchPercent_has response matched h2) hp
      | none => rfl
  · intro capture h hle
    unfold similarityScore
    rw [h]
    simp only [clampScore]
    rw [min_eq_left hle]
    norm_num

/-- C26 on `SIMILARITY_SCORE: 150`, clamped to 100, and on a response without
any number, with the exact value in place of the rounded one. -/
theorem similarity_score_range_witness :
    scoreMatch "SIMILARITY_SCORE: 150".toList = some "150".toList ∧
    similarityScore id "SIMILARITY_SCORE: 150".toList = 100 ∧
    similarityScore id "The answers agree in part.".toList = 0 ∧
    similarityScore id "about 45.5 percent alike".toList = 91 / 2 :=
  ⟨by decide,
   (similarity_score_range id "SIMILARITY_SCORE: 150".toList).2.2.2.1 "150".toList (by decide)
     (by decide!),
   by decide!, by decide!⟩

/-! ## C27: the bare-number signal -/

theorem bareNumberCapital_alt1 (line : List Char) (h : bareNumberCapital line = true) :
    ∃ g post, alt1 line = some (g, post) := by
  unfold bareNumberCapital at h
  simp only at h
  split at h
  · rename_i d ds w ws u rest htake hws hrest
    have hdrop : ((line.dropWhile isWs).dropWhile isDigit) ≠ [] := by
      intro hnil
      rw [hnil] at hws
      simp at hws
    obtain ⟨c, tl, hc⟩ := List.exists_cons_of_ne_nil hdrop
    have hcws : isWs c = true := by
      rw [hc] at hws
      by_cases hw : isWs c = true
      · exact hw
      · simp [List.takeWhile_cons, hw] at hws
    have hdt : digitsThenTerminator (line.dropWhile isWs) = some (d :: ds, tl) := by
      unfold digitsThenTerminator
      rw [htake, hc]
      simp [isNumberTerminator, hcws]
    have h1 : (alt1 line).isSome = true := by
      unfold alt1
      rw [List.findSome?_isSome_iff]
      refine ⟨line.dropWhile isWs, ?_, by rw [hdt]; rfl⟩
      unfold prefixRests
      simp [List.dropWhile_idempotent]
    cases h1' : alt1 line with
    | none => rw [h1'] at h1; simp at h1
    | some gp => exact ⟨gp.1, gp.2, rfl⟩
  · simp at h

/-- C27: a line that matches `/^\s*\d+\s+[A-Z]/` is matched by the first
alternative of the numbered-line pattern (group 1 holds a digit run, the match
starts the line), so the guard of FACTOR 8 fails on every line and the +40 is
never added.  Hence, without layout information, a line that does not match
the pattern scores at most 30 and does not start a question. -/
theorem bare_number_signal_never_contributes (line : List Char) :
    (bareNumberCapital line = true →
      ∃ g post, IsNumeral g ∧
        questionNumberMatch line = some ⟨[], some g, none, none, post⟩) ∧
    bareNumberSignal line = 0 ∧
    (questionNumberMatch line = none → ∀ (thr : Option Int) (st : SegState) (ind : Option Int),
      newQuestionConfidence false thr st line ind ≤ 30 ∧
      isLikelyNewQuestion false thr st line ind = false) := by
  refine ⟨?_, ?_, ?_⟩
  · intro h
    obtain ⟨g, post, h1⟩ := bareNumberCapital_alt1 line h
    exact ⟨g, post, alt1_numeral line g post h1, by unfold questionNumberMatch; rw [h1]⟩
  · unfold bareNumberSignal
    cases hb : bareNumberCapital line with
    | false => simp
    | true => simp [bareNumberCapital_matches line hb]
  · intro h thr st ind
    have hle := scoreWithoutLayout_le_of_no_match st line h
    rw [← confidence_without_layout thr st line ind] at hle
    refine ⟨hle, ?_⟩
    unfold isLikelyNewQuestion
    simp only [ge_iff_le, decide_eq_false_iff_not, not_le]
    omega

/-- C27 on the line `1 Answer`, which the first alternative matches, and on the
line `Answer`, which scores 30 after a blank line. -/
theorem bare_number_signal_never_contributes_witness :
    bareNumberCapital "1 Answer".toList = true ∧
    questionNumberMatch "1 Answer".toList =
      some ⟨[], some "1".toList, none, none, "Answer".toList⟩ ∧
    bareNumberSignal "1 Answer".toList = 0 ∧
    newQuestionConfidence false none { SegState.initial with previousLineWasEmpty := true }
      "Answer".toList none = 30 ∧
    isLikelyNewQuestion false none { SegState.initial with previousLineWasEmpty := true }
      "Answer".toList none = false :=
  ⟨by decide, by decide,
   (bare_number_signal_never_contributes "1 Answer".toList).2.1,
   by decide,
   ((bare_number_signal_never_contributes "Answer".toList).2.2 (by decide) none
     { SegState.initial with previousLineWasEmpty := true } none).2⟩

/-! ## Invariants of the second pass -/

theorem foldl_processLine_invariant (hasLayout : Bool) (thr : Option Int)
    (I : SegState → Prop) (Q : List Char × Option Int → Prop)
    (hstep : ∀ st e, Q e → I st → I (processLine hasLayout thr st e)) :
    ∀ (entries : List (List Char × Option Int)) (st : SegState),
      (∀ e ∈ entries, Q e) → I st → I (entries.foldl (processLine hasLayout thr) st) := by
  intro entries
  induction entries with
  | nil => intro st _ h; exact h
  | cons e rest ih =>
    intro st hQ h
    rw [List.foldl_cons]
    exact ih _ (fun x hx => hQ x (List.mem_cons_of_mem _ hx))
      (hstep st e (hQ e (List.mem_cons_self _ _)) h)

theorem processLine_cases (hasLayout : Bool) (thr : Option Int) (st : SegState)
    (e : List Char × Option Int) :
    (trim e.1 = [] ∧ processLine hasLayout thr st e = { st with previousLineWasEmpty := true }) ∨
    (trim e.1 ≠ [] ∧ isLikelyNewQuestion hasLayout thr st (trim e.1) e.2 = true ∧
      processLine hasLayout thr st e = startQuestion hasLayout thr st (trim e.1) e.2) ∨
    (trim e.1 ≠ [] ∧ isLikelyNewQuestion hasLayout thr st (trim e.1) e.2 = false ∧
      processLine hasLayout thr st e = continueAnswer hasLayout st (trim e.1) e.2) := by
  unfold processLine
  by_cases h : trim e.1 = []
  · left
    simp [h]
  · right
    cases hl : isLikelyNewQuestion hasLayout thr st (trim e.1) e.2 with
    | true => left; simp [h, hl]
    | false => right; simp [h, hl]

theorem newQuestionConfidence_le (hasLayout : Bool) (thr : Option Int) (st : SegState)
    (line : List Char) (ind : Option Int) :
    newQuestionConfidence hasLayout thr st line ind ≤ 100 := by
  have h1 : patternSignal line + bareNumberSignal line ≤ 50 := by
    unfold patternSignal bareNumberSignal
    cases (questionNumberMatch line).isSome <;> cases bareNumberCapital line <;> simp
  have h2 : blankLineSignal st ≤ 30 := by
    unfold blankLineSignal
    split <;> omega
  have h3 : marginSignal hasLayout thr ind ≤ 20 := by
    unfold marginSignal
    split <;> omega
  have h4 : embeddedNumberSignal line ≤ 0 := by
    unfold embeddedNumberSignal
    split <;> omega
  have h5 : continuationIndentSignal hasLayout thr st ind ≤ 0 := by
    unfold continuationIndentSignal
    simp only
    split_ifs <;> omega
  have h6 : sentenceContinuationSignal st line ≤ 0 := by
    unfold sentenceContinuationSignal
    split
    · split
      · split <;> omega
      · omega
    · omega
  unfold newQuestionConfidence
  omega

theorem continueAnswer_records (hasLayout : Bool) (st : SegState) (line : List Char)
    (ind : Option Int) :
    (continueAnswer hasLayout st line ind).questionsAndAnswers = st.questionsAndAnswers := by
  unfold continueAnswer
  split
  · rfl
  · split <;> rfl

theorem closeOpenQuestion_cases (st : SegState) (confidence : Option Int) :
    closeOpenQuestion st confidence = st.questionsAndAnswers ∨
    ∃ q a as, st.currentQuestion = some q ∧ st.currentAnswer = a :: as ∧
      closeOpenQuestion st confidence =
        st.questionsAndAnswers ++ [⟨q, joinSpace (a :: as), confidence⟩] := by
  unfold closeOpenQuestion
  split
  · rename_i q a as hq ha
    exact Or.inr ⟨q, a, as, hq, ha, rfl⟩
  · exact Or.inl rfl

/-- The records after one line: unchanged, or one more record for the open
question, with a confidence between 40 and 100. -/
theorem processLine_records (hasLayout : Bool) (thr : Option Int) (st : SegState)
    (e : List Char × Option Int) :
    (processLine hasLayout thr st e).questionsAndAnswers = st.questionsAndAnswers ∨
    ∃ q a as c, st.currentQuestion = some q ∧ st.currentAnswer = a :: as ∧
      40 ≤ c ∧ c ≤ 100 ∧
      (processLine hasLayout thr st e).questionsAndAnswers =
        st.questionsAndAnswers ++ [⟨q, joinSpace (a :: as), some c⟩] := by
  rcases processLine_cases hasLayout thr st e with ⟨_, h⟩ | ⟨_, hl, h⟩ | ⟨_, _, h⟩
  · left
    rw [h]
  · rw [h]
    have hq : (startQuestion hasLayout thr st (trim e.1) e.2).questionsAndAnswers =
        closeOpenQuestion st (some (newQuestionConfidence hasLayout thr st (trim e.1) e.2)) :=
      rfl
    rw [hq]
    rcases closeOpenQuestion_cases st
      (some (newQuestionConfidence hasLayout thr st (trim e.1) e.2)) with hc | ⟨q, a, as, h1, h2, hc⟩
    · left
      exact hc
    · right
      refine ⟨q, a, as, _, h1, h2, ?_, newQuestionConfidence_le hasLayout thr st (trim e.1) e.2, hc⟩
      unfold isLikelyNewQuestion at hl
      simpa using hl
  · left
    rw [h]
    exact continueAnswer_records hasLayout st (trim e.1) e.2

/-! ## C28: the shape of the records -/

theorem mem_of_mem_trim (s : List Char) (c : Char) (h : c ∈ trim s) : c ∈ s := by
  unfold trim at h
  rw [List.mem_reverse] at h
  have h2 := (List.dropWhile_sublist _).subset h
  rw [List.mem_reverse] at h2
  exact (List.dropWhile_sublist _).subset h2

theorem mem_of_mem_replaceQuestionNumber (line : List Char) (c : Char)
    (h : c ∈ replaceQuestionNumber line) : c ∈ line := by
  unfold replaceQuestionNumber at h
  cases hm : questionNumberMatch line with
  | none => rw [hm] at h; exact h
  | some m =>
    rw [hm] at h
    obtain ⟨matched, hl⟩ := questionNumberMatch_parts line m hm
    rw [hl]
    simp only [List.mem_append] at h ⊢
    rcases h with h | h
    · exact Or.inl (Or.inl h)
    · exact Or.inr h

theorem joinSpace_ne_nil (a : List Char) (as : List (List Char)) (ha : a ≠ []) :
    joinSpace (a :: as) ≠ [] := by
  rcases as with _ | ⟨b, rest⟩
  · simpa [joinSpace] using ha
  · rw [joinSpace]
    intro h
    exact ha (List.append_eq_nil.1 h).1

theorem not_mem_joinSpace (c : Char) (hc : c ≠ ' ') :
    ∀ (ls : List (List Char)), (∀ l ∈ ls, c ∉ l) → c ∉ joinSpace ls
  | [], _ => by simp [joinSpace]
  | [a], h => by simpa [joinSpace] using h a (by simp)
  | a :: b :: rest, h => by
    rw [joinSpace]
    have ih := not_mem_joinSpace c hc (b :: rest)
      (fun l hl => h l (List.mem_cons_of_mem _ hl))
    simp only [List.mem_append, List.mem_cons, not_or]
    exact ⟨h a (by simp), hc, ih⟩

theorem not_mem_splitLines : ∀ (s : List Char), ∀ l ∈ splitLines s, '\n' ∉ l
  | [] => by simp [splitLines]
  | c :: cs => by
    have ih := not_mem_splitLines cs
    intro l hl
    unfold splitLines at hl
    by_cases hc : c = '\n'
    · simp only [hc, if_true, List.mem_cons] at hl
      rcases hl with rfl | hl
      · simp
      · exact ih l hl
    · simp only [hc, if_false] at hl
      cases hs : splitLines cs with
      | nil =>
        rw [hs] at hl
        simp only [List.mem_singleton] at hl
        rw [hl]
        simpa using Ne.symm hc
      | cons l0 ls =>
        rw [hs] at hl ih
        simp only [List.mem_cons] at hl
        rcases hl with rfl | hl
        · have := ih l0 (by simp)
          simp only [List.mem_cons, not_or]
          exact ⟨Ne.symm hc, this⟩
        · exact ih l (List.mem_cons_of_mem _ hl)

theorem nextQuestion_numeral (st : SegState) (line q : List Char)
    (hst : ∀ q0, st.currentQuestion = some q0 → IsNumeral q0)
    (h : nextQuestion st line = some q) : IsNumeral q := by
  unfold nextQuestion at h
  cases hm : questionNumberMatch line with
  | some m =>
    rw [hm] at h
    obtain ⟨g, hg, hn⟩ := questionNumberMatch_numeral line m hm
    simp only at h
    rw [hn] at h
    simp only [Option.some.injEq] at h
    rw [← h]
    exact hg
  | none =>
    rw [hm] at h
    simp only at h
    cases hd : leadingDigits line with
    | some n =>
      rw [hd] at h
      simp only [Option.some.injEq] at h
      rw [← h]
      unfold leadingDigits at hd
      split at hd
      · cases hd
      · rename_i d ds htake
        simp only [Option.some.injEq] at hd
        rw [← hd]
        exact isNumeral_takeWhile _ d ds htake
    | none =>
      rw [hd] at h
      exact hst q h

theorem continueAnswer_question (hasLayout : Bool) (st : SegState) (line : List Char)
    (ind : Option Int) :
    (continueAnswer hasLayout st line ind).currentQuestion = st.currentQuestion := by
  unfold continueAnswer
  split
  · rename_i hcq0
    simp [hcq0]
  · split <;> rfl

theorem continueAnswer_flag (hasLayout : Bool) (st : SegState) (line : List Char)
    (ind : Option Int) :
    (continueAnswer hasLayout st line ind).previousLineWasEmpty = false := by
  unfold continueAnswer
  split
  · rfl
  · split <;> rfl

theorem processLine_none_records (hasLayout : Bool) (thr : Option Int) (st : SegState)
    (e : List Char × Option Int)
    (hn : st.currentQuestion = none → st.questionsAndAnswers = []) :
    (processLine hasLayout thr st e).currentQuestion = none →
      (processLine hasLayout thr st e).questionsAndAnswers = [] := by
  intro hcq
  rcases processLine_cases hasLayout thr st e with ⟨_, h⟩ | ⟨_, _, h⟩ | ⟨_, _, h⟩
  · rw [h] at hcq ⊢
    exact hn hcq
  · rw [h] at hcq ⊢
    have hcq2 : nextQuestion st (trim e.1) = none := hcq
    have hst : st.currentQuestion = none := by
      unfold nextQuestion at hcq2
      cases hm : questionNumberMatch (trim e.1) with
      | some m =>
        rw [hm] at hcq2
        obtain ⟨g, _, hg⟩ := questionNumberMatch_numeral _ m hm
        simp only at hcq2
        rw [hg] at hcq2
        cases hcq2
      | none =>
        rw [hm] at hcq2
        simp only at hcq2
        cases hd : leadingDigits (trim e.1) with
        | some n => rw [hd] at hcq2; cases hcq2
        | none => rw [hd] at hcq2; exact hcq2
    show closeOpenQuestion st _ = []
    unfold closeOpenQuestion
    rw [hst]
    exact hn hst
  · rw [h] at hcq ⊢
    rw [continueAnswer_records]
    rw [continueAnswer_question] at hcq
    exact hn hcq

/-- What the second pass keeps true of its state: the open number is a digit
run, the accumulated lines and the records are non-empty and free of line
feeds, and records exist only once a question has been opened. -/
theorem processLine_wellFormed (hasLayout : Bool) (thr : Option Int) (st : SegState)
    (e : List Char × Option Int) (he : '\n' ∉ e.1)
    (h : (∀ q, st.currentQuestion = some q → IsNumeral q) ∧
      (∀ a ∈ st.currentAnswer, a ≠ [] ∧ '\n' ∉ a) ∧
      (∀ r ∈ st.questionsAndAnswers, WellFormedRecord r) ∧
      (st.currentQuestion = none → st.questionsAndAnswers = [])) :
    (∀ q, (processLine hasLayout thr st e).currentQuestion = some q → IsNumeral q) ∧
      (∀ a ∈ (processLine hasLayout thr st e).currentAnswer, a ≠ [] ∧ '\n' ∉ a) ∧
      (∀ r ∈ (processLine hasLayout thr st e).questionsAndAnswers, WellFormedRecord r) ∧
      ((processLine hasLayout thr st e).currentQuestion = none →
        (processLine hasLayout thr st e).questionsAndAnswers = []) := by
  obtain ⟨hq, ha, hr, hn⟩ := h
  have hline : '\n' ∉ trim e.1 := fun hc => he (mem_of_mem_trim _ _ hc)
  have hrec : ∀ r ∈ (processLine hasLayout thr st e).questionsAndAnswers,
      WellFormedRecord r := by
    intro r hrm
    rcases processLine_records hasLayout thr st e with h | ⟨q, a, as, c, h1, h2, _, _, h⟩
    · rw [h] at hrm
      exact hr r hrm
    · rw [h] at hrm
      rcases List.mem_append.1 hrm with hrm | hrm
      · exact hr r hrm
      · simp only [List.mem_singleton] at hrm
        rw [hrm]
        refine ⟨hq q h1, joinSpace_ne_nil a as (ha a (by rw [h2]; simp)).1, ?_⟩
        exact not_mem_joinSpace '\n' (by decide) (a :: as)
          (fun l hl => (ha l (by rw [h2]; exact hl)).2)
  have hnone := processLine_none_records hasLayout thr st e hn
  refine ⟨?_, ?_, hrec, hnone⟩
  · intro q hcq
    rcases processLine_cases hasLayout thr st e with ⟨_, h⟩ | ⟨_, _, h⟩ | ⟨_, _, h⟩
    · rw [h] at hcq
      exact hq q hcq
    · rw [h] at hcq
      exact nextQuestion_numeral st (trim e.1) q hq hcq
    · rw [h, continueAnswer_question] at hcq
      exact hq q hcq
  · intro a ham
    rcases processLine_cases hasLayout thr st e with ⟨_, h⟩ | ⟨_, _, h⟩ | ⟨hne, _, h⟩
    · rw [h] at ham
      exact ha a ham
    · rw [h] at ham
      have ham2 : a ∈ firstAnswerLines (trim e.1) := ham
      unfold firstAnswerLines at ham2
      split at ham2
      · simp at ham2
      · rename_i c cs htrim
        simp only [List.mem_singleton] at ham2
        rw [ham2]
        refine ⟨by simp, ?_⟩
        rw [← htrim]
        intro hc
        exact hline (mem_of_mem_replaceQuestionNumber _ _ (mem_of_mem_trim _ _ hc))
    · rw [h] at ham
      have hsub : ∀ x ∈ (continueAnswer hasLayout st (trim e.1) e.2).currentAnswer,
          x ∈ st.currentAnswer ∨ x = trim e.1 := by
        intro x hx
        unfold continueAnswer at hx
        split at hx
        · exact Or.inl hx
        · split at hx
          · simpa using hx
          · simpa using hx
      rcases hsub a ham with h1 | h1
      · exact ha a h1
      · rw [h1]
        exact ⟨hne, hline⟩

theorem secondPass_none_records (hasLayout : Bool) (thr : Option Int)
    (entries : List (List Char × Option Int))
    (h : (secondPass hasLayout thr entries).currentQuestion = none) :
    (secondPass hasLayout thr entries).questionsAndAnswers = [] := by
  have := foldl_processLine_invariant hasLayout thr
    (fun st => st.currentQuestion = none → st.questionsAndAnswers = []) (fun _ => True)
    (fun st e _ hI => processLine_none_records hasLayout thr st e hI)
    entries SegState.initial (fun _ _ => trivial) (fun _ => rfl)
  exact this h

theorem emittedRecords_wellFormed (hasLayout : Bool) (thr : Option Int)
    (entries : List (List Char × Option Int)) (he : ∀ e ∈ entries, '\n' ∉ e.1) :
    ∀ r ∈ emittedRecords hasLayout thr entries, WellFormedRecord r := by
  have hI := foldl_processLine_invariant hasLayout thr
    (fun st => (∀ q, st.currentQuestion = some q → IsNumeral q) ∧
      (∀ a ∈ st.currentAnswer, a ≠ [] ∧ '\n' ∉ a) ∧
      (∀ r ∈ st.questionsAndAnswers, WellFormedRecord r) ∧
      (st.currentQuestion = none → st.questionsAndAnswers = []))
    (fun e => '\n' ∉ e.1)
    (fun st e hQ hI => processLine_wellFormed hasLayout thr st e hQ hI)
    entries SegState.initial he
    ⟨by simp [SegState.initial], by simp [SegState.initial], by simp [SegState.initial],
      fun _ => rfl⟩
  obtain ⟨hq, ha, hr, _⟩ := hI
  intro r hrm
  unfold emittedRecords secondPass at hrm
  rcases closeOpenQuestion_cases (entries.foldl (processLine hasLayout thr) SegState.initial)
    none with h | ⟨q, a, as, h1, h2, h⟩
  · rw [h] at hrm
    exact hr r hrm
  · rw [h] at hrm
    rcases List.mem_append.1 hrm with hrm | hrm
    · exact hr r hrm
    · simp only [List.mem_singleton] at hrm
      rw [hrm]
      refine ⟨hq q h1, joinSpace_ne_nil a as (ha a (by rw [h2]; simp)).1, ?_⟩
      exact not_mem_joinSpace '\n' (by decide) (a :: as)
        (fun l hl => (ha l (by rw [h2]; exact hl)).2)

/-- The list returned by `extractQuestionsAndAnswers` is a reordering of the
records pushed for the lines of the text. -/
theorem extract_records_perm (textAnnotations : Option (List Annotation)) (result : SegResult)
    (records : List AnswerRecord)
    (h : extractQuestionsAndAnswers textAnnotations = .returns result)
    (hr : result.questionsAndAnswers = some records) :
    ∃ hasLayout thr entries, (∀ e ∈ entries, '\n' ∉ e.1) ∧
      records.Perm (emittedRecords hasLayout thr entries) := by
  rcases textAnnotations with _ | _ | ⟨first, blocks⟩
  · simp only [extractQuestionsAndAnswers, Outcome.returns.injEq] at h
    rw [← h] at hr
    cases hr
  · simp only [extractQuestionsAndAnswers, Outcome.returns.injEq] at h
    rw [← h] at hr
    cases hr
  · unfold extractQuestionsAndAnswers at h
    simp only at h
    cases hs : segment first.description blocks with
    | throws e => rw [hs] at h; cases h
    | returns emitted =>
      rw [hs] at h
      simp only [Outcome.returns.injEq] at h
      rw [← h] at hr
      simp only [Option.some.injEq] at hr
      unfold segment at hs
      simp only at hs
      cases hi : lineIndentations blocks (splitLines first.description) with
      | throws e => rw [hi] at hs; cases hs
      | returns inds =>
        rw [hi] at hs
        simp only [Outcome.returns.injEq] at hs
        refine ⟨hasLayoutInfo blocks, leftMarginThreshold blocks,
          (splitLines first.description).zip inds, ?_, ?_⟩
        · intro e he
          exact not_mem_splitLines first.description e.1 (List.of_mem_zip he).1
        · rw [← hr, hs]
          exact List.perm_insertionSort numberLe emitted

theorem confidence_of_no_question (hasLayout : Bool) (thr : Option Int) (st st2 : SegState)
    (hq : st.currentQuestion = none) (hq2 : st2.currentQuestion = none)
    (hf : st.previousLineWasEmpty = st2.previousLineWasEmpty)
    (line : List Char) (ind : Option Int) :
    newQuestionConfidence hasLayout thr st line ind =
      newQuestionConfidence hasLayout thr st2 line ind := by
  unfold newQuestionConfidence blankLineSignal continuationIndentSignal
    sentenceContinuationSignal
  simp [hq, hq2, hf]

/-- While no question is open, the pass depends on its state only through
`previousLineWasEmpty`. -/
theorem processLine_of_no_question (hasLayout : Bool) (thr : Option Int) (st st2 : SegState)
    (e : List Char × Option Int)
    (h : st = st2 ∨ (st.currentQuestion = none ∧ st2.currentQuestion = none ∧
      st.previousLineWasEmpty = st2.previousLineWasEmpty ∧
      st.questionsAndAnswers = st2.questionsAndAnswers)) :
    processLine hasLayout thr st e = processLine hasLayout thr st2 e ∨
      ((processLine hasLayout thr st e).currentQuestion = none ∧
        (processLine hasLayout thr st2 e).currentQuestion = none ∧
        (processLine hasLayout thr st e).previousLineWasEmpty =
          (processLine hasLayout thr st2 e).previousLineWasEmpty ∧
        (processLine hasLayout thr st e).questionsAndAnswers =
          (processLine hasLayout thr st2 e).questionsAndAnswers) := by
  rcases h with h | ⟨hq, hq2, hf, hqa⟩
  · left
    rw [h]
  · have hconf := confidence_of_no_question hasLayout thr st st2 hq hq2 hf (trim e.1) e.2
    have hlik : isLikelyNewQuestion hasLayout thr st (trim e.1) e.2 =
        isLikelyNewQuestion hasLayout thr st2 (trim e.1) e.2 := by
      unfold isLikelyNewQuestion
      rw [hconf]
    rcases processLine_cases hasLayout thr st e with ⟨hb, h1⟩ | ⟨hb, hl, h1⟩ | ⟨hb, hl, h1⟩
    · rcases processLine_cases hasLayout thr st2 e with ⟨_, h2⟩ | ⟨hb2, _, _⟩ | ⟨hb2, _, _⟩
      · right
        rw [h1, h2]
        exact ⟨hq, hq2, rfl, hqa⟩
      · exact absurd hb hb2
      · exact absurd hb hb2
    · rcases processLine_cases hasLayout thr st2 e with ⟨hb2, _⟩ | ⟨_, _, h2⟩ | ⟨_, hl2, _⟩
      · exact absurd hb2 hb
      · left
        rw [h1, h2]
        unfold startQuestion nextQuestion closeOpenQuestion
        rw [hq, hq2, hqa, hconf]
      · rw [hlik, hl2] at hl
        cases hl
    · rcases processLine_cases hasLayout thr st2 e with ⟨hb2, _⟩ | ⟨_, hl2, _⟩ | ⟨_, _, h2⟩
      · exact absurd hb2 hb
      · rw [hlik, hl2] at hl
        cases hl
      · right
        rw [h1, h2]
        refine ⟨?_, ?_, ?_, ?_⟩
        · rw [continueAnswer_question]
          exact hq
        · rw [continueAnswer_question]
          exact hq2
        · rw [continueAnswer_flag, continueAnswer_flag]
        · rw [continueAnswer_records, continueAnswer_records]
          exact hqa

theorem recordsFrom_of_no_question (hasLayout : Bool) (thr : Option Int)
    (entries : List (List Char × Option Int)) :
    ∀ (st st2 : SegState),
      (st = st2 ∨ (st.currentQuestion = none ∧ st2.currentQuestion = none ∧
        st.previousLineWasEmpty = st2.previousLineWasEmpty ∧
        st.questionsAndAnswers = st2.questionsAndAnswers)) →
      recordsFrom hasLayout thr st entries = recordsFrom hasLayout thr st2 entries := by
  induction entries with
  | nil =>
    intro st st2 h
    rcases h with h | ⟨hq, hq2, _, hqa⟩
    · rw [h]
    · unfold recordsFrom closeOpenQuestion
      simp only [List.foldl_nil]
      rw [hq, hq2, hqa]
  | cons e rest ih =>
    intro st st2 h
    unfold recordsFrom
    rw [List.foldl_cons, List.foldl_cons]
    exact ih _ _ (processLine_of_no_question hasLayout thr st st2 e h)

/-- C28: every record of the returned list has a non-empty run of digits as
`questionNumber` and a non-empty `answer` without line feed.  A question whose
list of answer lines is empty when it is closed pushes no record.  As long as
no question has been opened, no record exists, and the lines read so far count
for the rest of the pass only through the flag `previousLineWasEmpty`: the
records are those of the remaining lines read from the start state with that
flag. -/
theorem records_are_well_formed :
    (∀ (textAnnotations : Option (List Annotation)) (result : SegResult)
      (records : List AnswerRecord),
      extractQuestionsAndAnswers textAnnotations = .returns result →
      result.questionsAndAnswers = some records →
      ∀ r ∈ records, IsNumeral r.questionNumber ∧ r.answer ≠ [] ∧ '\n' ∉ r.answer) ∧
    (∀ (st : SegState) (confidence : Option Int), st.currentAnswer = [] →
      closeOpenQuestion st confidence = st.questionsAndAnswers) ∧
    (∀ (hasLayout : Bool) (thr : Option Int) (pre rest : List (List Char × Option Int)),
      (secondPass hasLayout thr pre).currentQuestion = none →
      (secondPass hasLayout thr pre).questionsAndAnswers = [] ∧
      emittedRecords hasLayout thr (pre ++ rest) =
        recordsFrom hasLayout thr
          (SegState.blank (secondPass hasLayout thr pre).previousLineWasEmpty) rest) := by
  refine ⟨?_, ?_, ?_⟩
  · intro textAnnotations result records h hr r hrm
    obtain ⟨hasLayout, thr, entries, he, hperm⟩ :=
      extract_records_perm textAnnotations result records h hr
    exact emittedRecords_wellFormed hasLayout thr entries he r (hperm.subset hrm)
  · intro st confidence h
    unfold closeOpenQuestion
    rw [h]
    cases st.currentQuestion <;> rfl
  · intro hasLayout thr pre rest h
    have hqa := secondPass_none_records hasLayout thr pre h
    refine ⟨hqa, ?_⟩
    have e1 : emittedRecords hasLayout thr (pre ++ rest) =
        recordsFrom hasLayout thr (secondPass hasLayout thr pre) rest := by
      unfold emittedRecords recordsFrom secondPass
      rw [List.foldl_append]
    rw [e1]
    apply recordsFrom_of_no_question
    right
    exact ⟨h, rfl, rfl, hqa⟩

/-- C28 on a text with a line before the first question and a question without
answer: only question 2 is returned. -/
theorem records_are_well_formed_witness :
    extractQuestionsAndAnswers (some [textOnly "intro line\n1.\n2. B\nmore"]) =
      .returns ⟨true, none, some [⟨"2".toList, "B more".toList, none⟩]⟩ ∧
    (∀ r ∈ [(⟨"2".toList, "B more".toList, none⟩ : AnswerRecord)],
      IsNumeral r.questionNumber ∧ r.answer ≠ [] ∧ '\n' ∉ r.answer) ∧
    (secondPass false none [("intro line".toList, none)]).currentQuestion = none ∧
    emittedRecords false none
        ([("intro line".toList, none)] ++
          [("1.".toList, none), ("2. B".toList, none), ("more".toList, none)]) =
      recordsFrom false none (SegState.blank false)
        [("1.".toList, none), ("2. B".toList, none), ("more".toList, none)] :=
  ⟨by decide,
   records_are_well_formed.1 (some [textOnly "intro line\n1.\n2. B\nmore"])
     ⟨true, none, some [⟨"2".toList, "B more".toList, none⟩]⟩
     [⟨"2".toList, "B more".toList, none⟩] (by decide) rfl,
   by decide,
   (records_are_well_formed.2.2 false none [("intro line".toList, none)]
     [("1.".toList, none), ("2. B".toList, none), ("more".toList, none)] (by decide)).2⟩

/-! ## C29: when layout information is used -/

/-- C29: layout information is on exactly when the first block has a
`boundingPoly` with a `vertices` array.  When it is off, whatever boxes the
later blocks carry, no threshold is computed, no line gets an indentation, the
margin signal and the continuation-indentation signal are 0 on every line, and
the records are those of the text alone. -/
theorem layout_info_iff_first_block (blocks : List Annotation) :
    (hasLayoutInfo blocks = true ↔
      ∃ b rest p vs, blocks = b :: rest ∧ b.boundingPoly = some p ∧ p.vertices = some vs) ∧
    (hasLayoutInfo blocks = false →
      leftMarginThreshold blocks = none ∧
      (∀ lines, lineIndentations blocks lines = .returns (lines.map fun _ => none)) ∧
      (∀ (st : SegState) (ind : Option Int),
        marginSignal (hasLayoutInfo blocks) (leftMarginThreshold blocks) ind = 0 ∧
        continuationIndentSignal (hasLayoutInfo blocks) (leftMarginThreshold blocks) st ind
          = 0) ∧
      ∀ fullText, segment fullText blocks = segment fullText []) := by
  constructor
  · constructor
    · intro h
      rcases blocks with _ | ⟨b, rest⟩
      · simp [hasLayoutInfo] at h
      · rcases b with ⟨d, _ | p⟩
        · simp [hasLayoutInfo] at h
        · rcases p with ⟨_ | vs⟩
          · simp [hasLayoutInfo] at h
          · exact ⟨_, rest, _, vs, rfl, rfl, rfl⟩
    · rintro ⟨b, rest, p, vs, rfl, hp, hv⟩
      simp [hasLayoutInfo, hp, hv]
  · intro h
    refine ⟨by simp [leftMarginThreshold, h], ?_, ?_, ?_⟩
    · intro lines
      simp [lineIndentations, h]
    · intro st ind
      rw [h]
      exact ⟨marginSignal_false _ ind, continuationIndentSignal_false _ st ind⟩
    · intro fullText
      rw [segment_without_layout fullText blocks h, segment_without_layout fullText [] rfl]

/-- C29 on a document whose first block has no box and whose second block has
one: the result is that of the text alone.  With the two blocks in the other
order layout information is on, and the line `Note` at the margin after a blank
line closes question 1. -/
theorem layout_info_iff_first_block_witness :
    hasLayoutInfo [textOnly "1. A", boxed "Note" 200] = false ∧
    segment "1. A\n\nNote".toList [textOnly "1. A", boxed "Note" 200] =
      segment "1. A\n\nNote".toList [] ∧
    segment "1. A\n\nNote".toList [] = .returns [⟨"1".toList, "A Note".toList, none⟩] ∧
    segment "1. A\n\nNote".toList [boxed "Note" 200, textOnly "1. A"] =
      .returns [⟨"1".toList, "A".toList, some 50⟩, ⟨"1".toList, "Note".toList, none⟩] :=
  ⟨by decide,
   (layout_info_iff_first_block [textOnly "1. A", boxed "Note" 200]).2 (by decide) |>.2.2.2 _,
   by decide, by decide!⟩

/-! ## C30: the confidence fields -/

theorem secondPass_confidences (hasLayout : Bool) (thr : Option Int)
    (entries : List (List Char × Option Int)) :
    ∀ r ∈ (secondPass hasLayout thr entries).questionsAndAnswers,
      ∃ c, r.confidence = some c ∧ 40 ≤ c ∧ c ≤ 100 := by
  unfold secondPass
  refine foldl_processLine_invariant hasLayout thr
    (fun st => ∀ r ∈ st.questionsAndAnswers, ∃ c, r.confidence = some c ∧ 40 ≤ c ∧ c ≤ 100)
    (fun _ => True) ?_ entries SegState.initial (fun _ _ => trivial) ?_
  · intro st e _ hI r hr
    rcases processLine_records hasLayout thr st e with h | ⟨q, a, as, c, _, _, h40, h100, h⟩
    · rw [h] at hr
      exact hI r hr
    · rw [h] at hr
      rcases List.mem_append.1 hr with hr | hr
      · exact hI r hr
      · simp only [List.mem_singleton] at hr
        exact ⟨c, by rw [hr], h40, h100⟩
  · intro r hr
    simp [SegState.initial] at hr

theorem emittedRecords_confidences (hasLayout : Bool) (thr : Option Int)
    (entries : List (List Char × Option Int)) :
    ((emittedRecords hasLayout thr entries).filter fun r => r.confidence.isNone).length ≤ 1 ∧
    ∀ r ∈ emittedRecords hasLayout thr entries, ∀ c, r.confidence = some c →
      40 ≤ c ∧ c ≤ 100 := by
  have hI := secondPass_confidences hasLayout thr entries
  have hnone : (secondPass hasLayout thr entries).questionsAndAnswers.filter
      (fun r => r.confidence.isNone) = [] := by
    rw [List.filter_eq_nil_iff]
    intro r hr
    obtain ⟨c, hc, _⟩ := hI r hr
    simp [hc]
  unfold emittedRecords
  rcases closeOpenQuestion_cases (secondPass hasLayout thr entries) none with
    h | ⟨q, a, as, _, _, h⟩
  · rw [h, hnone]
    refine ⟨by simp, ?_⟩
    intro r hr c hc
    obtain ⟨c2, hc2, h40, h100⟩ := hI r hr
    rw [hc2] at hc
    cases hc
    exact ⟨h40, h100⟩
  · rw [h, List.filter_append, hnone]
    refine ⟨by simp [List.filter_cons], ?_⟩
    intro r hr c hc
    rcases List.mem_append.1 hr with hr | hr
    · obtain ⟨c2, hc2, h40, h100⟩ := hI r hr
      rw [hc2] at hc
      cases hc
      exact ⟨h40, h100⟩
    · simp only [List.mem_singleton] at hr
      rw [hr] at hc
      cases hc

/-- C30: in the list returned by `extractQuestionsAndAnswers` at most one
record has no `confidence`, and every `confidence` is an integer from 40 to
100. -/
theorem confidence_fields (textAnnotations : Option (List Annotation)) (result : SegResult)
    (records : List AnswerRecord)
    (h : extractQuestionsAndAnswers textAnnotations = .returns result)
    (hr : result.questionsAndAnswers = some records) :
    (records.filter fun r => r.confidence.isNone).length ≤ 1 ∧
    ∀ r ∈ records, ∀ c, r.confidence = some c → 40 ≤ c ∧ c ≤ 100 := by
  rcases textAnnotations with _ | _ | ⟨first, blocks⟩
  · simp only [extractQuestionsAndAnswers, Outcome.returns.injEq] at h
    rw [← h] at hr
    cases hr
  · simp only [extractQuestionsAndAnswers, Outcome.returns.injEq] at h
    rw [← h] at hr
    cases hr
  · unfold extractQuestionsAndAnswers at h
    simp only at h
    cases hs : segment first.description blocks with
    | throws e => rw [hs] at h; cases h
    | returns emitted =>
      rw [hs] at h
      simp only [Outcome.returns.injEq] at h
      rw [← h] at hr
      simp only [Option.some.injEq] at hr
      have hperm : records.Perm emitted := by
        rw [← hr]
        exact List.perm_insertionSort numberLe emitted
      have hem : ∃ entries, emitted =
          emittedRecords (hasLayoutInfo blocks) (leftMarginThreshold blocks) entries := by
        unfold segment at hs
        simp only at hs
        cases hi : lineIndentations blocks (splitLines first.description) with
        | throws e => rw [hi] at hs; cases hs
        | returns inds =>
          rw [hi] at hs
          simp only [Outcome.returns.injEq] at hs
          exact ⟨_, hs.symm⟩
      obtain ⟨entries, he⟩ := hem
      have hmain := emittedRecords_confidences (hasLayoutInfo blocks)
        (leftMarginThreshold blocks) entries
      rw [← he] at hmain
      constructor
      · rw [(hperm.filter _).length_eq]
        exact hmain.1
      · intro r hrm c hc
        exact hmain.2 r (hperm.subset hrm) c hc

/-- C30 on the text `10. a`, `2. b`, `1. c` with blank lines between them. -/
theorem confidence_fields_witness :
    extractQuestionsAndAnswers (some [textOnly "10. a\n\n2. b\n\n1. c"]) =
      .returns ⟨true, none, some [⟨"1".toList, "c".toList, none⟩,
        ⟨"2".toList, "b".toList, some 80⟩, ⟨"10".toList, "a".toList, some 80⟩]⟩ ∧
    ([⟨"1".toList, "c".toList, none⟩, ⟨"2".toList, "b".toList, some 80⟩,
        ⟨"10".toList, "a".toList, some 80⟩].filter
          fun (r : AnswerRecord) => r.confidence.isNone).length ≤ 1 :=
  ⟨by decide,
   (confidence_fields (some [textOnly "10. a\n\n2. b\n\n1. c"])
      ⟨true, none, some [⟨"1".toList, "c".toList, none⟩,
        ⟨"2".toList, "b".toList, some 80⟩, ⟨"10".toList, "a".toList, some 80⟩]⟩
      [⟨"1".toList, "c".toList, none⟩, ⟨"2".toList, "b".toList, some 80⟩,
        ⟨"10".toList, "a".toList, some 80⟩] (by decide) rfl).1⟩

end SmartEvaluator
